import Mathlib

/-!
# LiekoDB in-memory collection engine: a shallow embedding

This file embeds the core of the LiekoDB local engine — the `QueryEngine`
(path resolution, filter evaluation, update application, query cache) and the
`LocalAdapter` collection store (insert / update / delete / count / find /
createIndex and primary- and secondary-index maintenance) — as executable Lean
definitions, and proves or refutes the specification's claims about them.

Modelling conventions:

* JS values are the tagged tree `Value` (`null`, booleans, numbers, strings,
  arrays, objects).  Numbers are modelled as `Int`: every number appearing in
  the claims is integral and no claim depends on floating-point behaviour.
* A JS object is a `List (String × Value)` in property-insertion order.  JS
  objects cannot hold duplicate keys; documents built by the engine never do,
  and theorems about user-supplied documents carry a no-duplicate hypothesis
  where it matters.
* `undefined` (a property read that misses) is `Option.none`; the engine's
  "absent" marker.  A property whose stored value is JS `undefined` is
  identified with an absent property (the engine only ever distinguishes the
  two through `Object.keys`, on which no claim depends).
* JS `===` is `strictEq`.  On primitives it is structural; on objects and
  arrays it is reference identity, which a tree embedding cannot represent:
  `strictEq` returns `false` whenever either side is an array or object,
  modelling the no-aliasing situation (filter literals and stored documents
  are distinct allocations), which is the situation every claim describes.
* `Date.now().toString(36)`, `new Date().toISOString()` and
  `crypto.randomBytes(8).toString('hex')` are impure; operations take the
  produced strings as explicit arguments.
* The regular-expression engine is external to the repository; the evaluator
  takes it as a function argument `regexTest : String → String → String → Bool`
  (pattern, flags, input).  No claim depends on it.
-/

set_option autoImplicit false

namespace LiekoDB

/-- A JS value: `null | boolean | number | string | array | object`.
Numbers are modelled as integers (see the header). -/
inductive Value where
  | null : Value
  | bool : Bool → Value
  | num : Int → Value
  | str : String → Value
  | arr : List Value → Value
  | obj : List (String × Value) → Value
deriving Repr

/-- A document / plain JS object: ordered association list of properties. -/
abbrev Doc := List (String × Value)

namespace Value

/-- Structural (deep) equality of JS values, used to model `Map` keys and to
state deep-equality claims. -/
def beq : Value → Value → Bool
  | .null, .null => true
  | .bool a, .bool b => a == b
  | .num a, .num b => a == b
  | .str a, .str b => a == b
  | .arr a, .arr b => beqList a b
  | .obj a, .obj b => beqObj a b
  | _, _ => false
where
  beqList : List Value → List Value → Bool
    | [], [] => true
    | x :: xs, y :: ys => beq x y && beqList xs ys
    | _, _ => false
  beqObj : List (String × Value) → List (String × Value) → Bool
    | [], [] => true
    | (k, x) :: xs, (l, y) :: ys => k == l && beq x y && beqObj xs ys
    | _, _ => false

instance : BEq Value := ⟨beq⟩

end Value

/-- Decidable structural equality for `Value`. -/
def Value.decEq : (a b : Value) → Decidable (a = b)
  | .null, .null => isTrue rfl
  | .bool a, .bool b =>
    if h : a = b then isTrue (by rw [h])
    else isFalse (by intro hh; cases hh; exact h rfl)
  | .num a, .num b =>
    if h : a = b then isTrue (by rw [h])
    else isFalse (by intro hh; cases hh; exact h rfl)
  | .str a, .str b =>
    if h : a = b then isTrue (by rw [h])
    else isFalse (by intro hh; cases hh; exact h rfl)
  | .arr a, .arr b =>
    match decEqList a b with
    | isTrue h => isTrue (by rw [h])
    | isFalse h => isFalse (by intro hh; cases hh; exact h rfl)
  | .obj a, .obj b =>
    match decEqObj a b with
    | isTrue h => isTrue (by rw [h])
    | isFalse h => isFalse (by intro hh; cases hh; exact h rfl)
  | .null, .bool _ | .null, .num _ | .null, .str _ | .null, .arr _ | .null, .obj _ =>
    isFalse (by intro h; cases h)
  | .bool _, .null | .bool _, .num _ | .bool _, .str _ | .bool _, .arr _ | .bool _, .obj _ =>
    isFalse (by intro h; cases h)
  | .num _, .null | .num _, .bool _ | .num _, .str _ | .num _, .arr _ | .num _, .obj _ =>
    isFalse (by intro h; cases h)
  | .str _, .null | .str _, .bool _ | .str _, .num _ | .str _, .arr _ | .str _, .obj _ =>
    isFalse (by intro h; cases h)
  | .arr _, .null | .arr _, .bool _ | .arr _, .num _ | .arr _, .str _ | .arr _, .obj _ =>
    isFalse (by intro h; cases h)
  | .obj _, .null | .obj _, .bool _ | .obj _, .num _ | .obj _, .str _ | .obj _, .arr _ =>
    isFalse (by intro h; cases h)
where
  decEqList : (a b : List Value) → Decidable (a = b)
    | [], [] => isTrue rfl
    | [], _ :: _ => isFalse (by intro h; cases h)
    | _ :: _, [] => isFalse (by intro h; cases h)
    | x :: xs, y :: ys =>
      match Value.decEq x y with
      | isTrue h1 =>
        match decEqList xs ys with
        | isTrue h2 => isTrue (by rw [h1, h2])
        | isFalse h2 => isFalse (by intro hh; cases hh; exact h2 rfl)
      | isFalse h1 => isFalse (by intro hh; cases hh; exact h1 rfl)
  decEqObj : (a b : List (String × Value)) → Decidable (a = b)
    | [], [] => isTrue rfl
    | [], _ :: _ => isFalse (by intro h; cases h)
    | _ :: _, [] => isFalse (by intro h; cases h)
    | (k, x) :: xs, (l, y) :: ys =>
      if hk : k = l then
        match Value.decEq x y with
        | isTrue h1 =>
          match decEqObj xs ys with
          | isTrue h2 => isTrue (by rw [hk, h1, h2])
          | isFalse h2 => isFalse (by intro hh; cases hh; exact h2 rfl)
        | isFalse h1 => isFalse (by intro hh; cases hh; exact h1 rfl)
      else isFalse (by intro hh; cases hh; exact hk rfl)

instance : DecidableEq Value := Value.decEq

/-- Generic association-list read (`Map.get` / property read). -/
def alGet {κ α : Type} [DecidableEq κ] (m : List (κ × α)) (k : κ) : Option α :=
  (m.find? (fun p => p.1 = k)).map (·.2)

/-- Generic association-list write (`Map.set` / property write): overwrite in
place keeping insertion order, or append a fresh key at the end (JS `Map` and
object semantics; on a duplicated key — unrepresentable in JS — every copy is
overwritten). -/
def alSet {κ α : Type} [DecidableEq κ] (m : List (κ × α)) (k : κ) (v : α) :
    List (κ × α) :=
  if m.any (fun p => p.1 = k) then
    m.map (fun p => if p.1 = k then (k, v) else p)
  else m ++ [(k, v)]

/-- Generic association-list delete (`Map.delete` / `delete obj[k]`). -/
def alDel {κ α : Type} [DecidableEq κ] (m : List (κ × α)) (k : κ) : List (κ × α) :=
  m.filter (fun p => ¬(p.1 = k))

/-- Property read `d[k]` on a plain object: `none` is `undefined`. -/
def objGet (d : Doc) (k : String) : Option Value :=
  alGet d k

/-- Property write `d[k] = v`. -/
def objSet (d : Doc) (k : String) (v : Value) : Doc :=
  alSet d k v

/-- Property delete `delete d[k]`. -/
def objDel (d : Doc) (k : String) : Doc :=
  alDel d k

/-- `Object.assign(target, src)`: copy every property of `src` onto `target`
in order. -/
def objAssign (target : Doc) (src : Doc) : Doc :=
  src.foldl (fun acc p => objSet acc p.1 p.2) target

/-- JS truthiness.  `NaN` (falsy) is not representable in the `Int` number
model; every other case is exact. -/
def jsTruthy : Value → Bool
  | .null => false
  | .bool b => b
  | .num n => n ≠ 0
  | .str s => s ≠ ""
  | .arr _ => true
  | .obj _ => true

/-- JS `String(v)` coercion.  Arrays stringify to their comma-joined elements
(`null` elements stringify empty), objects to `"[object Object]"`, as in JS. -/
def jsToString : Value → String
  | .null => "null"
  | .bool b => if b then "true" else "false"
  | .num n => toString n
  | .str s => s
  | .obj _ => "[object Object]"
  | .arr xs => String.intercalate "," (jsToStringParts xs)
where
  /-- The element strings of `Array.prototype.toString` (`null` elements
  stringify empty). -/
  jsToStringParts : List Value → List String
    | [] => []
    | .null :: rest => "" :: jsToStringParts rest
    | v :: rest => jsToString v :: jsToStringParts rest

/-- JS `===` under the no-aliasing reading (see the header): structural on
primitives, `false` whenever an array or object is involved. -/
def strictEq : Value → Value → Bool
  | .null, .null => true
  | .bool a, .bool b => a == b
  | .num a, .num b => a == b
  | .str a, .str b => a == b
  | _, _ => false

/-- `xs.includes(v)` (SameValueZero membership, which coincides with `===`
on the values our claims quantify over). -/
def jsIncludes (xs : List Value) (v : Value) : Bool :=
  xs.any (fun x => strictEq x v)

/-- The numeric value of a digit string (base 10). -/
def digitsToNat (cs : List Char) : Nat :=
  cs.foldl (fun n c => n * 10 + (c.toNat - '0'.toNat)) 0

/-- `s.startsWith('$')`. -/
def startsWithDollar (s : String) : Bool :=
  match s.toList with
  | c :: _ => c = '$'
  | [] => false

/-- `s.includes('.')`. -/
def containsDot (s : String) : Bool :=
  s.toList.contains '.'

/-- `s.split('.')` (never empty; empty segments are kept, as in JS). -/
def jsSplitDot (s : String) : List String :=
  go s.toList []
where
  go : List Char → List Char → List String
    | [], acc => [String.mk acc.reverse]
    | c :: rest, acc =>
      if c = '.' then String.mk acc.reverse :: go rest []
      else go rest (c :: acc)

/-- `parseInt(s, 10)`: optional leading whitespace, optional sign, then the
longest digit prefix; `none` for `NaN`. -/
def jsParseInt (s : String) : Option Int :=
  let chars := s.toList.dropWhile (fun c => c = ' ' ∨ c = '\t')
  let (sign, rest) :=
    match chars with
    | '-' :: cs => ((-1 : Int), cs)
    | '+' :: cs => ((1 : Int), cs)
    | cs => ((1 : Int), cs)
  let digits := rest.takeWhile Char.isDigit
  if digits.isEmpty then none
  else some (sign * digitsToNat digits)

/-- Is `s` a canonical array index (`"0"`, `"1"`, … with no sign, no leading
zeros)? JS arrays expose elements only under canonical index keys. -/
def canonicalIndex? (s : String) : Option Nat :=
  match s.toList with
  | [] => none
  | c :: rest =>
    if (c :: rest).all Char.isDigit ∧ (c ≠ '0' ∨ rest = []) then
      some (digitsToNat (c :: rest))
    else none

/-- Property read `v[k]` on an arbitrary JS value, as used by the single
segment branch of `QueryEngine.getValue`.  Objects read properties; arrays
expose elements under canonical index keys.  (Array `length` and string
character indexing are not modelled; no claim reaches them.) -/
def jsMember (v : Value) (k : String) : Option Value :=
  match v with
  | .obj fields => objGet fields k
  | .arr xs =>
    match canonicalIndex? k with
    | some i => xs.get? i
    | none => none
  | _ => none

theorem sizeOf_lt_of_objGet {d : Doc} {k : String} {v : Value}
    (h : objGet d k = some v) : sizeOf v < 1 + sizeOf d := by
  unfold objGet alGet at h
  cases hf : d.find? (fun p => p.1 = k) with
  | none => rw [hf] at h; simp at h
  | some p =>
    rw [hf] at h
    have hv : p.2 = v := by simpa using h
    have hm : p ∈ d := List.mem_of_find?_eq_some hf
    have hs := List.sizeOf_lt_of_mem hm
    subst hv
    cases p with
    | mk a b => simp only [Prod.mk.sizeOf_spec] at hs; simp only []; omega

/-- The in-bounds `parseInt` guard of the array branch of
`QueryEngine.getValue`: `!isNaN(idx) && idx >= 0 && idx < cur.length`. -/
def arrIdx? (p : String) (n : Nat) : Option (Fin n) :=
  match jsParseInt p with
  | some k => if h : 0 ≤ k ∧ k.toNat < n then some ⟨k.toNat, h.2⟩ else none
  | none => none

/-- The segment-walking loop of `QueryEngine.getValue` (the branch of the
source for paths containing a `.`).  `cur` is the walked value, `segs` the
remaining segments.  Mirrors the source exactly: arrays descend by
`parseInt` index when in bounds, otherwise evaluate the remaining path as a
sub-path against each element, collecting non-absent results and flattening
array results one level; objects descend by property; any other value makes
the path absent. -/
def getValueLoop : Value → List String → Option Value
  | cur, [] => some cur
  | .arr xs, p :: rest =>
    (match arrIdx? p xs.length with
     | some i => getValueAt xs i.1 rest
     | none =>
       -- sub-path branch: `getValue(el, remainingPath)` for every element,
       -- collect non-absent results, flatten array results one level,
       -- return the collected list when non-empty
       let collected := getValueCollect xs p rest
       if collected.isEmpty then none else some (.arr collected))
  | .obj fields, p :: rest => getValueField fields p rest
  | _, _ :: _ => none
where
  /-- The in-bounds index descent `cur = cur[idx]` of the array branch. -/
  getValueAt : List Value → Nat → List String → Option Value
    | [], _, _ => none
    | x :: _, 0, segs => getValueLoop x segs
    | _ :: xs, n + 1, segs => getValueAt xs n segs
  /-- The property descent `cur = cur[p]` of the object branch (`undefined`
  propagates to an absent result whether or not segments remain). -/
  getValueField : List (String × Value) → String → List String → Option Value
    | [], _, _ => none
    | (k, v) :: rest, p, segs =>
      if k = p then getValueLoop v segs else getValueField rest p segs
  /-- The element collection of the sub-path branch (non-absent sub-results,
  arrays flattened one level). -/
  getValueCollect : List Value → String → List String → List Value
    | [], _, _ => []
    | el :: els, p, rest =>
      (match (if rest.isEmpty then jsMember el p else getValueLoop el (p :: rest)) with
       | none => []
       | some (.arr vs) => vs
       | some v => [v]) ++ getValueCollect els p rest

/-- `QueryEngine.getValue(item, path)`: dotted-path resolution of `path`
against document `item`; `none` is "absent". -/
def getValue (item : Doc) (path : String) : Option Value :=
  if ¬ containsDot path then objGet item path
  else getValueLoop (.obj item) (jsSplitDot path)

/-- `Object.entries(v)`.  Objects list their properties.  Primitives have no
own enumerable properties.  Arrays enumerate index-keyed entries in JS; every
use in the engine treats such entries as unknown operators / `$`-free keys,
observationally equal to the empty list, which is how they are modelled. -/
def jsEntries : Value → List (String × Value)
  | .obj fields => fields
  | _ => []

theorem sizeOf_jsEntries_le (v : Value) : sizeOf (jsEntries v) ≤ sizeOf v := by
  cases v <;> simp [jsEntries] <;> omega

/-- JS `<` restricted to same-type primitive operands (numeric comparison for
numbers, lexicographic for strings).  Cross-type coercing comparisons are not
modelled (no claim exercises them) and evaluate to `false`. -/
def jsLtB : Value → Value → Bool
  | .num a, .num b => a < b
  | .str a, .str b => a < b
  | _, _ => false

/-- JS `>` (same restriction as `jsLtB`). -/
def jsGtB : Value → Value → Bool
  | .num a, .num b => b < a
  | .str a, .str b => b < a
  | _, _ => false

/-- JS `>=` (same restriction as `jsLtB`). -/
def jsGeB : Value → Value → Bool
  | .num a, .num b => b ≤ a
  | .str a, .str b => b ≤ a
  | _, _ => false

/-- JS `<=` (same restriction as `jsLtB`). -/
def jsLeB : Value → Value → Bool
  | .num a, .num b => a ≤ b
  | .str a, .str b => a ≤ b
  | _, _ => false

/-- "Array-valued A matches if any element satisfies the predicate; scalar A
applies the predicate directly" — the shape of every operator case of
`QueryEngine.matchesOperators`. -/
def anyOf (a : Value) (pred : Value → Bool) : Bool :=
  match a with
  | .arr xs => xs.any pred
  | _ => pred a

/-- The `$in` / `$nin` payload: the source calls `expected.includes(...)`,
which requires an array (a non-array payload throws a `TypeError` in the
source; modelled as the empty list, unreachable from any theorem below). -/
def toArrPayload : Value → List Value
  | .arr xs => xs
  | _ => []

/-- `ops.$options || ''`: the regex flags sibling. -/
def regexFlags (ops : List (String × Value)) : String :=
  match objGet ops "$options" with
  | some v => if jsTruthy v then jsToString v else ""
  | none => ""

/-- `QueryEngine.matchesOperators(actual, ops)`, as a function of the
operator-map value.  `Object.entries` of a non-object has no operator keys,
so the walk of a non-object payload returns `true` immediately.  The walk
mirrors the source switch: each operator either fails (overall `false`),
short-circuits (`$ne` on absent, `$not`), or passes and continues with the
remaining entries; unknown operators are skipped; `$options` is consumed by
the sibling `$regex` through the precomputed `flags`. -/
def matchesOperators (re : String → String → String → Bool)
    (actual : Option Value) : Value → Bool
  | .obj ops => opsWalk (regexFlags ops) ops
  | _ => true
where
  /-- The `for (const [op, expected] of Object.entries(ops))` loop;
  `actual = none` is the absent case. -/
  opsWalk : String → List (String × Value) → Bool
    | _, [] => true
    | flags, (op, expected) :: rest =>
      if op = "$options" then opsWalk flags rest
      else
        match actual with
        | none =>
          if op = "$exists" then
            if expected = Value.bool true then false
            else if expected = Value.bool false then true
            else opsWalk flags rest
          else if op = "$ne" then true
          else false
        | some a =>
          if op = "$eq" then
            anyOf a (fun v => strictEq v expected) && opsWalk flags rest
          else if op = "$ne" then
            !(anyOf a (fun v => strictEq v expected)) && opsWalk flags rest
          else if op = "$gt" then
            anyOf a (fun v => jsGtB v expected) && opsWalk flags rest
          else if op = "$gte" then
            anyOf a (fun v => jsGeB v expected) && opsWalk flags rest
          else if op = "$lt" then
            anyOf a (fun v => jsLtB v expected) && opsWalk flags rest
          else if op = "$lte" then
            anyOf a (fun v => jsLeB v expected) && opsWalk flags rest
          else if op = "$in" then
            anyOf a (fun v => jsIncludes (toArrPayload expected) v) && opsWalk flags rest
          else if op = "$nin" then
            !(anyOf a (fun v => jsIncludes (toArrPayload expected) v)) && opsWalk flags rest
          else if op = "$exists" then
            if expected = Value.bool false then false
            else opsWalk flags rest
          else if op = "$not" then
            !(matchesOperators re actual expected)
          else if op = "$regex" then
            anyOf a (fun v => re (jsToString expected) flags (jsToString v)) &&
              opsWalk flags rest
          else if op = "$mod" then
            (match expected with
             | .arr [dv, rm] =>
               anyOf a (fun v =>
                 match v, dv, rm with
                 | .num n, .num d, .num r => d ≠ 0 && Int.tmod n d = r
                 | _, _, _ => false)
             | _ => false) && opsWalk flags rest
          else opsWalk flags rest

theorem sizeOf_lt_of_jsMember {v : Value} {k : String} {w : Value}
    (h : jsMember v k = some w) : sizeOf w < sizeOf v := by
  cases v with
  | obj fields =>
    simp only [jsMember] at h
    have := sizeOf_lt_of_objGet h
    simp only [Value.obj.sizeOf_spec]
    omega
  | arr xs =>
    simp only [jsMember] at h
    cases hc : canonicalIndex? k with
    | none => rw [hc] at h; cases h
    | some i =>
      rw [hc] at h
      have hm : w ∈ xs := List.get?_mem h
      have := List.sizeOf_lt_of_mem hm
      simp only [Value.arr.sizeOf_spec]
      omega
  | null => cases h
  | bool b => cases h
  | num n => cases h
  | str s => cases h

/-- The truthiness-guarded property read `if (filter.$k) …` used by the
logical-operator dispatch of `matchesFilter`: the property's value if it is
present and truthy. -/
def truthyGet (filter : Value) (k : String) : Option Value :=
  match jsMember filter k with
  | some v => if jsTruthy v then some v else none
  | none => none

theorem sizeOf_lt_of_truthyGet {filter : Value} {k : String} {v : Value}
    (h : truthyGet filter k = some v) : sizeOf v < sizeOf filter := by
  unfold truthyGet at h
  cases hm : jsMember filter k with
  | none => rw [hm] at h; cases h
  | some w =>
    rw [hm] at h
    by_cases ht : jsTruthy w
    · simp [ht] at h; cases h; exact sizeOf_lt_of_jsMember hm
    · simp [ht] at h

/-- `QueryEngine.matchesFilter(item, filter)`.  The source tests the four
logical keys by property truthiness (`if (filter.$and) …`) in the order
`$and`, `$or`, `$nor`, `$not`, each returning immediately (each stage helper
scans the filter's entries for its key, exactly the source's property read,
and evaluates in place); otherwise it walks the filter's entries, skipping
`$`-prefixed keys, dispatching object-valued non-null non-array entries to
`matchesOperators` and value-comparing the rest (`includes` on an
array-valued resolution, `===` otherwise).  A falsy filter matches
everything, as does — two corners the claims never reach — a filter that is
itself a primitive or array (JS would enumerate index keys of arrays and
strings as field paths); a truthy non-array `$and` / `$or` / `$nor` payload
(a `TypeError` in the source) is `false`. -/
def matchesFilter (re : String → String → String → Bool)
    (item : Doc) : Value → Bool
  | .obj fields =>
    (match evalAnd fields with
     | some b => b
     | none =>
       match evalOr fields with
       | some b => b
       | none =>
         match evalNor fields with
         | some b => b
         | none =>
           match evalNot fields with
           | some b => b
           | none =>
             fields.all (fun p =>
               if startsWithDollar p.1 then true
               else
                 let value := getValue item p.1
                 match p.2 with
                 | .obj ops => matchesOperators re value (.obj ops)
                 | expected =>
                   match value with
                   | some (.arr xs) => jsIncludes xs expected
                   | some v => strictEq v expected
                   | none => false))
  | _ => true
where
  /-- `filter.$and.every(f => this.matchesFilter(item, f))`. -/
  mfAll : List Value → Bool
    | [] => true
    | f :: rest => matchesFilter re item f && mfAll rest
  /-- `filter.$or.some(f => this.matchesFilter(item, f))`. -/
  mfAny : List Value → Bool
    | [] => false
    | f :: rest => matchesFilter re item f || mfAny rest
  /-- The `$and` clause on its payload value. -/
  andValue : Value → Bool
    | .arr fs => mfAll fs
    | _ => false
  /-- The `$or` clause on its payload value. -/
  orValue : Value → Bool
    | .arr fs => mfAny fs
    | _ => false
  /-- The `$nor` clause on its payload value. -/
  norValue : Value → Bool
    | .arr fs => !(mfAny fs)
    | _ => false
  /-- `if (filter.$and) return filter.$and.every(…)`: the property read is
  the first `"$and"` entry; the stage applies only when its value is truthy. -/
  evalAnd : List (String × Value) → Option Bool
    | [] => none
    | (k, v) :: rest =>
      if k = "$and" then (if jsTruthy v then some (andValue v) else none)
      else evalAnd rest
  /-- `if (filter.$or) return filter.$or.some(…)`. -/
  evalOr : List (String × Value) → Option Bool
    | [] => none
    | (k, v) :: rest =>
      if k = "$or" then (if jsTruthy v then some (orValue v) else none)
      else evalOr rest
  /-- `if (filter.$nor) return !filter.$nor.some(…)`. -/
  evalNor : List (String × Value) → Option Bool
    | [] => none
    | (k, v) :: rest =>
      if k = "$nor" then (if jsTruthy v then some (norValue v) else none)
      else evalNor rest
  /-- `if (filter.$not) return !this.matchesFilter(item, filter.$not)`. -/
  evalNot : List (String × Value) → Option Bool
    | [] => none
    | (k, v) :: rest =>
      if k = "$not" then (if jsTruthy v then some (!(matchesFilter re item v)) else none)
      else evalNot rest

/-! ## Update applier -/

/-- JS `+` on the operand shapes `$inc` can produce: numeric addition, string
concatenation when either side is a string/array/object (which coerce through
`String(...)`), `null`/booleans coerce to numbers. -/
def jsAdd (a b : Value) : Value :=
  match a, b with
  | .num x, .num y => .num (x + y)
  | .num x, .null => .num x
  | .null, .num y => .num y
  | .num x, .bool y => .num (x + if y then 1 else 0)
  | .bool x, .num y => .num ((if x then 1 else 0) + y)
  | .null, .null => .num 0
  | _, _ => .str (jsToString a ++ jsToString b)

/-- One of the six nested update operations of
`QueryEngine.applyUpdateToDoc`'s inner `applyNestedOperation`. -/
inductive NestOp where
  | set (v : Value)
  | unset
  | inc (v : Value)
  | push (v : Value)
  | addToSet (v : Value)
  | pull (v : Value)

/-- Write `container[key] = v`.  Objects update / append the property; arrays
update a canonical in-bounds index.  (Writing a non-canonical or out-of-range
key onto an array creates a named property / sparse slot in JS, invisible to
every reader the engine uses; modelled as a no-op.) -/
def vSet (container : Value) (key : String) (v : Value) : Value :=
  match container with
  | .obj fields => .obj (objSet fields key v)
  | .arr xs =>
    match canonicalIndex? key with
    | some i => .arr (xs.set i v)
    | none => .arr xs
  | other => other

/-- `delete container[key]` (on an array, JS leaves a hole, invisible to the
engine's readers; modelled as a no-op). -/
def vDel (container : Value) (key : String) : Value :=
  match container with
  | .obj fields => .obj (objDel fields key)
  | other => other

/-- The `switch (operation)` of `applyNestedOperation` acting on
`current[lastPart]`. -/
def applyLeaf (container : Value) (key : String) : NestOp → Value
  | .set v => vSet container key v
  | .unset => vDel container key
  | .inc v =>
    let base : Value :=
      match jsMember container key with
      | some (.num n) => .num n
      | _ => .num 0
    vSet container key (jsAdd base v)
  | .push v =>
    let xs : List Value :=
      match jsMember container key with
      | some (.arr xs) => xs
      | _ => []
    vSet container key (.arr (xs ++ [v]))
  | .addToSet v =>
    let xs : List Value :=
      match jsMember container key with
      | some (.arr xs) => xs
      | _ => []
    vSet container key (.arr (if jsIncludes xs v then xs else xs ++ [v]))
  | .pull v =>
    match jsMember container key with
    | some (.arr xs) => vSet container key (.arr (xs.filter (fun item => !(strictEq item v))))
    | _ => container

/-- `applyNestedOperation(obj, path, operation, value)`: walk the dotted
path, replacing an undefined or non-object step with a fresh `{}` (JS keeps a
`null` step — `typeof null === 'object'` — and then throws on the write;
writes on a kept `null` are modelled as no-ops), and apply the leaf
operation. -/
def applyNested (cur : Value) (parts : List String) (op : NestOp) : Value :=
  match parts with
  | [] => cur
  | [last] => applyLeaf cur last op
  | p :: rest =>
    let child : Value :=
      match jsMember cur p with
      | some (.obj f) => .obj f
      | some (.arr xs) => .arr xs
      | some .null => .null
      | _ => .obj []
    vSet cur p (applyNested child rest op)

/-- `applyNestedOperation` launched from a document root. -/
def docApplyNested (d : Doc) (path : String) (op : NestOp) : Doc :=
  match applyNested (.obj d) (jsSplitDot path) op with
  | .obj d2 => d2
  | _ => d

/-- Key-presence test `k in v` (the `hasRootLevelOperators` check). -/
def hasKey (v : Value) (k : String) : Bool :=
  match v with
  | .obj fields => fields.any (fun p => p.1 = k)
  | _ => false

/-- The `$pull` element predicate of the non-dotted branch: keep `item` when
`typeof v === 'object' && v.$in ? !v.$in.includes(item) : item !== v`. -/
def pullKeep (v : Value) (item : Value) : Bool :=
  match v with
  | .obj f =>
    match objGet f "$in" with
    | some e => if jsTruthy e then !(jsIncludes (toArrPayload e) item) else !(strictEq item v)
    | none => !(strictEq item v)
  | _ => !(strictEq item v)

/-- The `$addToSet` `$each` detection of the non-dotted branch:
`v && typeof v === 'object' && v.$each`. -/
def eachOf (v : Value) : Option Value :=
  match v with
  | .obj f =>
    match objGet f "$each" with
    | some e => if jsTruthy e then some e else none
    | none => none
  | _ => none

/-- `QueryEngine.applyUpdateToDoc(doc, update)`.  If any of the six operator
keys is present, the blocks run in source order (`$set`, `$unset`, `$inc`,
`$push`, `$addToSet`, `$pull`), each guarded by truthiness of its payload,
dotted keys going through `applyNestedOperation` (which lacks the `$each` /
`$in` special cases of the non-dotted branches); otherwise the update is
`Object.assign`ed over the document.  Finally `updatedAt` is set. -/
def applyUpdateToDoc (d : Doc) (update : Value) (now : String) : Doc :=
  let hasRoot :=
    hasKey update "$set" || hasKey update "$unset" || hasKey update "$inc" ||
    hasKey update "$push" || hasKey update "$pull" || hasKey update "$addToSet"
  let d :=
    if hasRoot then
      let d :=
        match truthyGet update "$set" with
        | some v => (jsEntries v).foldl (fun acc p =>
            if containsDot p.1 then docApplyNested acc p.1 (.set p.2)
            else objSet acc p.1 p.2) d
        | none => d
      let d :=
        match truthyGet update "$unset" with
        | some v => (jsEntries v).foldl (fun acc p =>
            if containsDot p.1 then docApplyNested acc p.1 .unset
            else objDel acc p.1) d
        | none => d
      let d :=
        match truthyGet update "$inc" with
        | some v => (jsEntries v).foldl (fun acc p =>
            if containsDot p.1 then docApplyNested acc p.1 (.inc p.2)
            else
              let base : Value :=
                match objGet acc p.1 with
                | some (.num n) => .num n
                | _ => .num 0
              objSet acc p.1 (jsAdd base p.2)) d
        | none => d
      let d :=
        match truthyGet update "$push" with
        | some v => (jsEntries v).foldl (fun acc p =>
            if containsDot p.1 then docApplyNested acc p.1 (.push p.2)
            else
              let xs : List Value :=
                match objGet acc p.1 with
                | some (.arr xs) => xs
                | _ => []
              objSet acc p.1 (.arr (xs ++ [p.2]))) d
        | none => d
      let d :=
        match truthyGet update "$addToSet" with
        | some v => (jsEntries v).foldl (fun acc p =>
            if containsDot p.1 then docApplyNested acc p.1 (.addToSet p.2)
            else
              let xs : List Value :=
                match objGet acc p.1 with
                | some (.arr xs) => xs
                | _ => []
              match eachOf p.2 with
              | some e =>
                objSet acc p.1 (.arr ((toArrPayload e).foldl
                  (fun ys item => if jsIncludes ys item then ys else ys ++ [item]) xs))
              | none =>
                objSet acc p.1 (.arr (if jsIncludes xs p.2 then xs else xs ++ [p.2]))) d
        | none => d
      let d :=
        match truthyGet update "$pull" with
        | some v => (jsEntries v).foldl (fun acc p =>
            if containsDot p.1 then docApplyNested acc p.1 (.pull p.2)
            else
              match objGet acc p.1 with
              | some (.arr xs) => objSet acc p.1 (.arr (xs.filter (pullKeep p.2)))
              | _ => acc) d
        | none => d
      d
    else objAssign d (jsEntries update)
  objSet d "updatedAt" (.str now)

/-! ## JSON serialization (for cache keys) -/

/-- `JSON.stringify(v)` (restricted: string escaping is not modelled — every
string the theorems serialize is escape-free). -/
def jsonStringify : Value → String
  | .null => "null"
  | .bool b => if b then "true" else "false"
  | .num n => toString n
  | .str s => "\"" ++ s ++ "\""
  | .arr xs => "[" ++ String.intercalate "," (jsonParts xs) ++ "]"
  | .obj fields => "\x7b" ++ String.intercalate "," (jsonFieldParts fields) ++ "\x7d"
where
  jsonParts : List Value → List String
    | [] => []
    | v :: rest => jsonStringify v :: jsonParts rest
  jsonFieldParts : List (String × Value) → List String
    | [] => []
    | (k, v) :: rest => ("\"" ++ k ++ "\":" ++ jsonStringify v) :: jsonFieldParts rest

/-! ## The collection store (`LocalAdapter`)

A collection owns `data` (documents in insertion order), `idIndex`,
secondary `indexes`, and the engine's query cache.  JS mutates documents in
place and the query cache holds references to result arrays of live document
objects, so the embedding threads an explicit arena: `store` is the list of
every allocated document, a *reference* is an index into `store`, `data` is
the list of references in collection order, and in-place mutation is `store`
update at a reference.  `find` dereferences at response time, exactly when
the source materializes its return value. -/

/-- A secondary composite index.  The source's nested `Map` (value of `f1` →
… → value of `fn` → positions) is flattened to an association from the full
key tuple to the position list, which is observationally equal for every
read and write the engine performs (`Map` keys compare structurally on the
primitive field values every claim uses). -/
structure SecIndex where
  fields : List String
  orders : List Int
  entries : List (List Value × List Nat)
deriving Repr, DecidableEq

/-- A collection plus the query-engine cache (keyed by
`JSON.stringify(filter) + data.length`, FIFO-bounded). -/
structure Col where
  store : List Doc
  data : List Nat
  idIndex : List (String × Nat)
  indexes : List (String × SecIndex)
  cache : List (String × List Nat)
  dirty : Bool
deriving Repr, DecidableEq

/-- The empty collection of `_getCollection` (no snapshot on disk). -/
def Col.empty : Col :=
  { store := [], data := [], idIndex := [], indexes := [], cache := [], dirty := false }

/-- An envelope error: `{message, code}`. -/
structure Err where
  message : String
  code : Nat
deriving Repr, DecidableEq

/-- Dereference: the document behind reference `r`. -/
def Col.doc (col : Col) (r : Nat) : Doc := col.store.getD r []

/-- The document key tuple of a secondary index: all indexed fields, provided
every one is defined. -/
def keyTuple? (fields : List String) (d : Doc) : Option (List Value) :=
  fields.mapM (fun f => objGet d f)

/-- `LocalAdapter._updateIndexesOnInsert`.  NB the source's early `return`
on an undefined indexed field aborts the whole method, leaving every
*remaining* index untouched as well. -/
def updateIndexesOnInsert : List (String × SecIndex) → Doc → Nat → List (String × SecIndex)
  | [], _, _ => []
  | (k, ix) :: rest, doc, i =>
    match keyTuple? ix.fields doc with
    | none => (k, ix) :: rest
    | some tup =>
      let ps := (alGet ix.entries tup).getD []
      (k, { ix with entries := alSet ix.entries tup (ps ++ [i]) }) ::
        updateIndexesOnInsert rest doc i

/-- `LocalAdapter._removeFromIndex`: remove one occurrence of `docIdx` under
the document's key tuple, dropping the entry when its position list empties
(the source's empty-node cleanup). -/
def removeFromIndex (ix : SecIndex) (doc : Doc) (docIdx : Nat) : SecIndex :=
  match keyTuple? ix.fields doc with
  | none => ix
  | some tup =>
    match alGet ix.entries tup with
    | none => ix
    | some ps =>
      if docIdx ∈ ps then
        let ps2 := ps.erase docIdx
        if ps2.isEmpty then { ix with entries := alDel ix.entries tup }
        else { ix with entries := alSet ix.entries tup ps2 }
      else ix

/-- `typeof v === 'object'` (true of `null`, arrays and objects). -/
def jsIsObject : Value → Bool
  | .null => true
  | .arr _ => true
  | .obj _ => true
  | _ => false

/-- The query-cache bound (`this.cacheSize = 1000`). -/
def cacheSize : Nat := 1000

/-- `QueryEngine.applyFilters(data, filter)`: empty/falsy filters return the
data unfiltered (and uncached); otherwise consult the cache under
`JSON.stringify(filter) + data.length`, else filter, FIFO-evict when full,
and cache the result list. -/
def applyFilters (re : String → String → String → Bool) (store : List Doc)
    (cache : List (String × List Nat)) (dataRefs : List Nat) (filter : Value) :
    List Nat × List (String × List Nat) :=
  if ¬ jsTruthy filter ∨ (jsEntries filter).isEmpty then (dataRefs, cache)
  else
    let key := jsonStringify filter ++ toString dataRefs.length
    match alGet cache key with
    | some refs => (refs, cache)
    | none =>
      let results := dataRefs.filter (fun r => matchesFilter re (store.getD r []) filter)
      let cache2 := if cache.length ≥ cacheSize then cache.drop 1 else cache
      (results, cache2 ++ [(key, results)])

/-- `QueryEngine.count(data, filters)`. -/
def qeCount (re : String → String → String → Bool) (store : List Doc)
    (cache : List (String × List Nat)) (dataRefs : List Nat) (filters : Value) :
    Nat × List (String × List Nat) :=
  if ¬ jsTruthy filters ∨ (jsEntries filters).isEmpty then (dataRefs.length, cache)
  else
    let (refs, cache2) := applyFilters re store cache dataRefs filters
    (refs.length, cache2)

/-- The `count` envelope. -/
structure CountResp where
  success : Bool
  data : Option Nat
  error : Option Err
deriving Repr, DecidableEq

/-- `LocalAdapter.count({filters})`. -/
def countOp (re : String → String → String → Bool) (col : Col) (filters : Value) :
    Col × CountResp :=
  if jsTruthy filters ∧ ¬ jsIsObject filters then
    (col, { success := false, data := none,
            error := some ⟨"Filters must be an object", 500⟩ })
  else
    let (n, cache2) := qeCount re col.store col.cache col.data filters
    ({ col with cache := cache2 }, { success := true, data := some n, error := none })

/-- The valid-operator whitelist of `LocalAdapter.find` (note `$nor`, `$mod`
and `$options` are absent). -/
def validOps : List String :=
  ["$eq", "$ne", "$gt", "$gte", "$lt", "$lte", "$in", "$nin",
   "$exists", "$regex", "$and", "$or", "$not"]

/-- `find`'s recursive `validateFilter`: `false` iff the walk throws on a
`$`-prefixed key outside the whitelist (descending into every truthy
object- or array-valued entry; a `for … in` over an array visits index keys,
which are never `$`-prefixed, so only the element recursion matters;
`validFilter` of a primitive entry is `true`, matching the source's "recurse
only into truthy objects" guard). -/
def validFilter : Value → Bool
  | .obj fields => validFields fields
  | .arr xs => validElems xs
  | _ => true
where
  /-- The key walk of `validateFilter` over an object's entries. -/
  validFields : List (String × Value) → Bool
    | [] => true
    | (k, w) :: rest =>
      ((!(startsWithDollar k) || validOps.contains k) && validFilter w) &&
        validFields rest
  /-- The element walk of `validateFilter` over an array value. -/
  validElems : List Value → Bool
    | [] => true
    | w :: rest => validFilter w && validElems rest

/-- The `find` envelope (at default options; the sort/skip/limit/fields
pipeline and the `pagination` block are bypassed when `options` is `{}`,
which is the shape every claim quantifies over). -/
structure FindResp where
  success : Bool
  data : List Doc
  total : Nat
  error : Option Err
deriving Repr, DecidableEq

/-- `LocalAdapter.find({filters})` at default options. -/
def findOp (re : String → String → String → Bool) (col : Col) (filters : Value) :
    Col × FindResp :=
  if jsTruthy filters ∧ ¬ jsIsObject filters then
    (col, { success := false, data := [], total := 0,
            error := some ⟨"Filters must be an object", 500⟩ })
  else if ¬ validFilter filters then
    (col, { success := false, data := [], total := 0,
            error := some ⟨"Invalid query operator", 500⟩ })
  else
    let (refs, cache2) := applyFilters re col.store col.cache col.data filters
    let col2 := { col with cache := cache2 }
    if refs.length = 0 then
      (col2, { success := false, data := [], total := 0,
               error := some ⟨"No documents found matching the criteria", 404⟩ })
    else
      (col2, { success := true, data := refs.map (fun r => col.store.getD r []),
               total := refs.length, error := none })

/-! ## insert -/

/-- The `insert` envelope payload. -/
structure InsertResp where
  success : Bool
  insertedCount : Nat
  updatedCount : Nat
  insertedIds : Option (List String)
  firstId : Option String
  lastId : Option String
  prefixId : Option String
  error : Option Err
deriving Repr, DecidableEq

/-- The string form of a stored document's id as the insert response reports
it (inserted documents always carry a string id). -/
def docIdString (d : Doc) : String :=
  match objGet d "id" with
  | some v => jsToString v
  | none => ""

/-- The running state of the insert loop: the collection, the sequential-id
counter, the `allIdsWereGenerated` flag, and the inserted / updated document
references. -/
structure InsState where
  col : Col
  seq : Nat
  allGen : Bool
  inserted : List Nat
  updatedRefs : List Nat
deriving Repr, DecidableEq

/-- One iteration of the `insert` loop.  A falsy / absent supplied id draws a
sequential id (`N ≥ 2`) or the generated one; a truthy id is coerced with
`String(...)`.  An id known to `idIndex` takes the upsert branch:
`Object.assign` merge onto the existing document, `createdAt` restored,
`updatedAt := now`, nothing appended.  A fresh id appends the document,
indexes it, and extends the secondary indexes. -/
def insertStep (useSeq : Bool) (pfx genId now : String) (st : InsState) (doc : Doc) :
    InsState :=
  let supplied : Option String :=
    match objGet doc "id" with
    | some v => if jsTruthy v then some (jsToString v) else none
    | none => none
  let (docId, seq2, allGen2) :=
    match supplied with
    | none =>
      if useSeq then (pfx ++ "_" ++ toString (st.seq + 1), st.seq + 1, st.allGen)
      else (genId, st.seq, st.allGen)
    | some s => (s, st.seq, false)
  let doc2 := objSet doc "id" (.str docId)
  let col := st.col
  match alGet col.idIndex docId with
  | some i =>
    let ref := col.data.getD i 0
    let existingDoc := col.store.getD ref []
    let orig := objGet existingDoc "createdAt"
    let merged := objAssign existingDoc doc2
    let merged :=
      match orig with
      | some v => objSet merged "createdAt" v
      | none => objDel merged "createdAt"
    let merged := objSet merged "updatedAt" (.str now)
    { st with col := { col with store := col.store.set ref merged },
              seq := seq2, allGen := allGen2,
              updatedRefs := st.updatedRefs ++ [ref] }
  | none =>
    let createdAt : Value :=
      match objGet doc2 "createdAt" with
      | some v => if jsTruthy v then v else .str now
      | none => .str now
    let doc3 := objSet doc2 "createdAt" createdAt
    let newIndex := col.data.length
    let ref := col.store.length
    { st with
      col := { col with
        store := col.store ++ [doc3],
        data := col.data ++ [ref],
        idIndex := alSet col.idIndex docId newIndex,
        indexes := updateIndexesOnInsert col.indexes doc3 newIndex },
      seq := seq2, allGen := allGen2,
      inserted := st.inserted ++ [ref] }

/-- `LocalAdapter.insert({data})`.  `now` is `new Date().toISOString()`,
`pfx` is `Date.now().toString(36)`, `genId` the single
`crypto.randomBytes(8).toString('hex')` draw (used only when one document is
inserted without an id). -/
def insertOp (docs : List Doc) (now pfx genId : String) (col : Col) :
    Col × InsertResp :=
  let useSeq := docs.length ≥ 2
  let st := docs.foldl (insertStep useSeq pfx genId now)
    { col := col, seq := 0, allGen := true, inserted := [], updatedRefs := [] }
  let col2 :=
    if st.inserted.length > 0 ∨ st.updatedRefs.length > 0 then
      { st.col with dirty := true }
    else st.col
  let base : InsertResp :=
    { success := true, insertedCount := st.inserted.length,
      updatedCount := st.updatedRefs.length, insertedIds := none,
      firstId := none, lastId := none, prefixId := none, error := none }
  let resp :=
    if h : st.inserted.length > 0 then
      if st.inserted.length > 20 then
        { base with
          firstId := some (docIdString (col2.store.getD (st.inserted.head (by
            intro hc; rw [hc] at h; simp at h)) [])),
          lastId := some (docIdString (col2.store.getD (st.inserted.getLast (by
            intro hc; rw [hc] at h; simp at h)) [])),
          prefixId := if st.allGen ∧ useSeq then some (pfx ++ "_") else none }
      else
        { base with
          insertedIds := some (st.inserted.map (fun r => docIdString (col2.store.getD r []))) }
    else base
  (col2, resp)

/-! ## update, updateById -/

/-- The `update` envelope payload. -/
structure UpdateResp where
  success : Bool
  updatedCount : Nat
  updatedIds : Option (List String)
  documents : Option (List Doc)
  truncated : Bool
  error : Option Err
deriving Repr, DecidableEq

/-- `LocalAdapter.update(payload)` (`returnType` defaults to `'count'`,
`maxReturn` to 50).  The update spec is wrapped into `{$set: spec}` unless
one of the six operator keys is present *with a truthy payload*. -/
def updateOp (re : String → String → String → Bool) (col : Col)
    (filters updateOperations : Value) (returnType : String) (maxReturn : Nat)
    (now : String) : Col × UpdateResp :=
  let normalized :=
    if (truthyGet updateOperations "$set").isSome ∨
       (truthyGet updateOperations "$inc").isSome ∨
       (truthyGet updateOperations "$push").isSome ∨
       (truthyGet updateOperations "$pull").isSome ∨
       (truthyGet updateOperations "$unset").isSome ∨
       (truthyGet updateOperations "$addToSet").isSome then
      updateOperations
    else .obj [("$set", updateOperations)]
  let (store2, refsUpdated) := col.data.foldl
    (fun (acc : List Doc × List Nat) ref =>
      if matchesFilter re (acc.1.getD ref []) filters then
        (acc.1.set ref (applyUpdateToDoc (acc.1.getD ref []) normalized now),
         acc.2 ++ [ref])
      else acc)
    (col.store, [])
  let updated := refsUpdated.length
  if updated = 0 then
    (col, { success := false, updatedCount := 0, updatedIds := none,
            documents := none, truncated := false,
            error := some ⟨"No documents matched the filters", 404⟩ })
  else
    let col2 := { col with store := store2, dirty := true }
    let truncated := returnType ≠ "count" ∧ updated > maxReturn
    let resp : UpdateResp :=
      { success := true, updatedCount := updated,
        updatedIds :=
          if returnType = "ids" then
            some ((refsUpdated.map (fun r => docIdString (store2.getD r []))).take maxReturn)
          else none,
        documents :=
          if returnType = "documents" then
            some ((refsUpdated.map (fun r => store2.getD r [])).take maxReturn)
          else none,
        truncated := truncated, error := none }
    (col2, resp)

/-- The `updateById` envelope payload. -/
structure UpdateByIdResp where
  success : Bool
  updatedId : Option String
  document : Option Doc
  error : Option Err
deriving Repr, DecidableEq

/-- `LocalAdapter.updateById(id, payload)` (`returnType` defaults to
`'document'`). -/
def updateByIdOp (re : String → String → String → Bool) (col : Col) (id : String)
    (updateOperations : Value) (returnType : String) (now : String) :
    Col × UpdateByIdResp :=
  let docIndex : Option Nat :=
    match alGet col.idIndex id with
    | some i => some i
    | none =>
      col.data.findIdx? (fun r =>
        match objGet (col.store.getD r []) "id" with
        | some (.str s) => s = id
        | _ => false)
  match docIndex with
  | none =>
    (col, { success := false, updatedId := none, document := none,
            error := some ⟨"Document not found", 404⟩ })
  | some i =>
    let ref := col.data.getD i 0
    let newDoc := applyUpdateToDoc (col.store.getD ref []) updateOperations now
    let col2 := { col with store := col.store.set ref newDoc, dirty := true }
    (col2, { success := true, updatedId := some id,
             document := if returnType = "document" then some newDoc else none,
             error := none })

/-! ## delete, deleteById -/

/-- The `delete` / `deleteById` envelope payload. -/
structure DeleteResp where
  success : Bool
  deletedCount : Nat
  error : Option Err
deriving Repr, DecidableEq

/-- The `idIndex` rebuild of `LocalAdapter.delete` (`clear` + re-`set` of
every truthy document id at its position; the per-id deletes that precede
the `clear` in the source are subsumed by it). -/
def rebuildIdIndex (store : List Doc) (dataRefs : List Nat) : List (String × Nat) :=
  (dataRefs.enum.foldl
    (fun m p =>
      match objGet (store.getD p.2 []) "id" with
      | some v => if jsTruthy v then alSet m (jsToString v) p.1 else m
      | none => m)
    [])

/-- `LocalAdapter.delete({filters})`: filter out every matching document and
rebuild `idIndex` from scratch.  Secondary indexes are not touched. -/
def deleteOp (re : String → String → String → Bool) (col : Col) (filters : Value) :
    Col × DeleteResp :=
  let data2 := col.data.filter (fun r => ¬ matchesFilter re (col.store.getD r []) filters)
  let deleted := col.data.length - data2.length
  if deleted = 0 then
    (col, { success := false, deletedCount := 0,
            error := some ⟨"No documents matched the filters", 404⟩ })
  else
    let col2 := { col with data := data2,
                           idIndex := rebuildIdIndex col.store data2,
                           dirty := true }
    (col2, { success := true, deletedCount := deleted, error := none })

/-- The position renumbering of `deleteById`: `idIndex.set(d.id, i)` for
every position from the removed one onward. -/
def renumberFrom (store : List Doc) (dataRefs : List Nat)
    (idIndex : List (String × Nat)) (start : Nat) : List (String × Nat) :=
  dataRefs.enum.foldl
    (fun m p =>
      if p.1 ≥ start then
        match objGet (store.getD p.2 []) "id" with
        | some v => if jsTruthy v then alSet m (jsToString v) p.1 else m
        | none => m
      else m)
    idIndex

/-- `LocalAdapter.deleteById(id)`: splice the document out, drop its
`idIndex` entry, remove it from every secondary index (at its *old*
position; later positions are renumbered only in `idIndex`), and renumber.
A stale out-of-range `idIndex` position (unreachable from a consistent
state) makes the source throw inside `_removeFromIndex` after the splice
and the `idIndex` delete whenever a secondary index exists; the 500 branch
models that partially-mutated catch. -/
def deleteByIdOp (col : Col) (id : String) : Col × DeleteResp :=
  match alGet col.idIndex id with
  | none =>
    (col, { success := false, deletedCount := 0,
            error := some ⟨"Document not found", 404⟩ })
  | some i =>
    let docRef? := col.data.get? i
    let data2 := col.data.eraseIdx i
    let idIndex2 := alDel col.idIndex id
    match docRef? with
    | some ref =>
      let doc := col.store.getD ref []
      let indexes2 := col.indexes.map (fun p => (p.1, removeFromIndex p.2 doc i))
      let idIndex3 := renumberFrom col.store data2 idIndex2 i
      ({ col with data := data2, idIndex := idIndex3, indexes := indexes2,
                  dirty := true },
       { success := true, deletedCount := 1, error := none })
    | none =>
      if col.indexes.isEmpty then
        ({ col with data := data2, idIndex := idIndex2, dirty := true },
         { success := true, deletedCount := 1, error := none })
      else
        ({ col with data := data2, idIndex := idIndex2 },
         { success := false, deletedCount := 0,
           error := some ⟨"Failed to delete document by ID", 500⟩ })

/-! ## createIndex -/

/-- The `createIndex` envelope payload (`size` is the top-level `Map` size,
the number of distinct first-field values). -/
structure CreateIndexResp where
  success : Bool
  size : Option Nat
  error : Option Err
deriving Repr, DecidableEq

/-- `LocalAdapter.createIndex(indexDef)`. -/
def createIndexOp (col : Col) (indexDef : Doc) : Col × CreateIndexResp :=
  let fields := indexDef.map (·.1)
  if fields.isEmpty then
    (col, { success := false, size := none,
            error := some ⟨"Index definition cannot be empty", 400⟩ })
  else if ¬ indexDef.all (fun p => p.2 = Value.num 1 ∨ p.2 = Value.num (-1)) then
    (col, { success := false, size := none,
            error := some ⟨"Index order must be 1 or -1", 400⟩ })
  else
    let indexKey := String.intercalate "|"
      (indexDef.map (fun p => p.1 ++ ":" ++ jsToString p.2))
    if (alGet col.indexes indexKey).isSome then
      (col, { success := false, size := none,
              error := some ⟨"Index already exists", 409⟩ })
    else
      let entries := col.data.enum.foldl
        (fun ents p =>
          match keyTuple? fields (col.store.getD p.2 []) with
          | none => ents
          | some tup => alSet ents tup ((alGet ents tup).getD [] ++ [p.1]))
        []
      let orders : List Int := indexDef.map (fun p =>
        match p.2 with
        | .num n => n
        | _ => 0)
      let ix : SecIndex := { fields := fields, orders := orders, entries := entries }
      let size := ((entries.map (fun e => e.1.head?)).dedup).length
      ({ col with indexes := alSet col.indexes indexKey ix },
       { success := true, size := some size, error := none })

/-! ## Operation sequences -/

/-- One public operation on a collection (the impure inputs — timestamps,
the base-36 clock token, the random id — are carried by the operation). -/
inductive Op where
  | ins (docs : List Doc) (now pfx genId : String)
  | upd (filters update : Value) (returnType : String) (maxReturn : Nat) (now : String)
  | updById (id : String) (update : Value) (returnType : String) (now : String)
  | del (filters : Value)
  | delById (id : String)
  | mkIndex (indexDef : Doc)
  | findQ (filters : Value)
  | countQ (filters : Value)

/-- The state transition of one operation. -/
def step (re : String → String → String → Bool) (col : Col) : Op → Col
  | .ins docs now pfx genId => (insertOp docs now pfx genId col).1
  | .upd filters u rt mr now => (updateOp re col filters u rt mr now).1
  | .updById id u rt now => (updateByIdOp re col id u rt now).1
  | .del filters => (deleteOp re col filters).1
  | .delById id => (deleteByIdOp col id).1
  | .mkIndex d => (createIndexOp col d).1
  | .findQ filters => (findOp re col filters).1
  | .countQ filters => (countOp re col filters).1

/-- Run a sequence of operations from a state. -/
def run (re : String → String → String → Bool) (col : Col) (ops : List Op) : Col :=
  ops.foldl (step re) col

/-! ## Association-list lemmas -/

section AList

variable {κ α : Type} [DecidableEq κ]

theorem alGet_nil (k : κ) : alGet ([] : List (κ × α)) k = none := rfl

theorem alGet_cons (a : κ) (b : α) (m : List (κ × α)) (k : κ) :
    alGet ((a, b) :: m) k = if a = k then some b else alGet m k := by
  simp only [alGet, List.find?_cons]
  by_cases h : a = k <;> simp [h]

theorem alGet_append (m1 m2 : List (κ × α)) (k : κ) :
    alGet (m1 ++ m2) k = ((alGet m1 k).or (alGet m2 k)) := by
  induction m1 with
  | nil => simp [alGet_nil]
  | cons p m ih =>
    obtain ⟨a, b⟩ := p
    rw [List.cons_append, alGet_cons, alGet_cons]
    by_cases h : a = k <;> simp [h, ih]

theorem alGet_eq_none_of_not_any {m : List (κ × α)} {k : κ}
    (h : m.any (fun p => p.1 = k) = false) : alGet m k = none := by
  induction m with
  | nil => rfl
  | cons p m ih =>
    obtain ⟨a, b⟩ := p
    simp only [List.any_cons, Bool.or_eq_false_iff] at h
    rw [alGet_cons]
    simp only [decide_eq_false_iff_not] at h
    simp [h.1, ih h.2]

theorem alGet_map_replace_ne (m : List (κ × α)) (k k' : κ) (v : α) (h : k ≠ k') :
    alGet (m.map (fun p => if p.1 = k then (k, v) else p)) k' = alGet m k' := by
  induction m with
  | nil => rfl
  | cons p m ih =>
    obtain ⟨a, b⟩ := p
    by_cases ha : a = k
    · subst ha
      simp only [List.map_cons, if_pos rfl]
      rw [alGet_cons, alGet_cons]
      simp [h, ih]
    · simp only [List.map_cons, if_neg ha]
      rw [alGet_cons, alGet_cons]
      by_cases hk : a = k' <;> simp [hk, ih]

theorem alGet_alSet (m : List (κ × α)) (k k' : κ) (v : α) :
    alGet (alSet m k v) k' = if k = k' then some v else alGet m k' := by
  unfold alSet
  by_cases hany : m.any (fun p => p.1 = k)
  · simp only [hany, if_true]
    by_cases hk : k = k'
    · subst hk
      simp only [if_pos rfl]
      induction m with
      | nil => simp at hany
      | cons p m ih =>
        obtain ⟨a, b⟩ := p
        by_cases ha : a = k
        · simp only [List.map_cons, if_pos ha]
          rw [alGet_cons]
          simp
        · simp only [List.any_cons, decide_eq_true_eq, ha, false_or] at hany
          simp only [List.map_cons, if_neg ha]
          rw [alGet_cons]
          simp [ha, ih hany]
    · rw [if_neg hk]
      exact alGet_map_replace_ne m k k' v hk
  · rw [Bool.not_eq_true] at hany
    rw [hany]
    simp only [Bool.false_eq_true, if_false]
    rw [alGet_append]
    by_cases hk : k = k'
    · subst hk
      rw [alGet_eq_none_of_not_any hany]
      rw [alGet_cons]
      simp
    · rw [alGet_cons]
      simp [hk, alGet_nil, Option.or_none]

theorem alGet_alSet_self (m : List (κ × α)) (k : κ) (v : α) :
    alGet (alSet m k v) k = some v := by
  rw [alGet_alSet]; simp

theorem alGet_alSet_ne (m : List (κ × α)) (k k' : κ) (v : α) (h : k' ≠ k) :
    alGet (alSet m k v) k' = alGet m k' := by
  rw [alGet_alSet]; simp [Ne.symm h]

theorem alGet_alDel (m : List (κ × α)) (k k' : κ) :
    alGet (alDel m k) k' = if k = k' then none else alGet m k' := by
  induction m with
  | nil => simp [alDel, alGet_nil]
  | cons p m ih =>
    obtain ⟨a, b⟩ := p
    by_cases ha : a = k <;> by_cases hk : k = k' <;>
      simp_all [alDel, List.filter_cons, alGet_cons]

theorem alGet_alDel_self (m : List (κ × α)) (k : κ) :
    alGet (alDel m k) k = none := by
  rw [alGet_alDel]; simp

theorem alGet_alDel_ne (m : List (κ × α)) (k k' : κ) (h : k' ≠ k) :
    alGet (alDel m k) k' = alGet m k' := by
  rw [alGet_alDel]; simp [Ne.symm h]

end AList

/-! ## Claim-side predicates -/

/-- A fixed regex engine for concrete scenarios (none of their filters use
`$regex`, so its behaviour is irrelevant). -/
def noRegex : String → String → String → Bool := fun _ _ _ => false

/-- "A plain document whose every key begins with `$`" (the spec's criterion
for an operator map). -/
def allKeysDollar : Value → Bool
  | .obj f => f.all (fun p => startsWithDollar p.1)
  | _ => false

/-- A scalar (non-array, non-object) value. -/
def isPrimitive : Value → Bool
  | .null => true
  | .bool _ => true
  | .num _ => true
  | .str _ => true
  | _ => false

/-- The string id of a stored document, when `id` is a defined string. -/
def docIdStr (d : Doc) : Option String :=
  match objGet d "id" with
  | some (.str s) => some s
  | _ => none

/-- The spec's `idIndex` exactness invariant: every document with a defined
id is indexed at its current position, and `idIndex` holds no other
entries (every entry resolves to a valid position whose document carries
that id). -/
def idxExact (col : Col) : Prop :=
  (∀ i ∈ List.range col.data.length,
     ∀ s ∈ (docIdStr (col.doc (col.data.getD i 0))).toList,
       alGet col.idIndex s = some i) ∧
  (∀ q ∈ col.idIndex, ∀ j ∈ (alGet col.idIndex q.1).toList,
     j < col.data.length ∧
     docIdStr (col.doc (col.data.getD j 0)) = some q.1)

instance (col : Col) : Decidable (idxExact col) := by
  unfold idxExact
  infer_instance

/-- Consistency of one secondary index with `data`: every stored position is
a valid index into `data` whose document carries exactly the entry's key
tuple (so deleted documents and stale positions are absent, and so are
documents missing an indexed field), and every document whose indexed
fields are all defined appears exactly once under its key tuple. -/
def secIndexEntryOk (col : Col) (ix : SecIndex) : Bool :=
  ix.entries.all (fun e => e.2.all (fun pos =>
    decide (pos < col.data.length) &&
    decide (keyTuple? ix.fields (col.doc (col.data.getD pos 0)) = some e.1))) &&
  (List.range col.data.length).all (fun i =>
    match keyTuple? ix.fields (col.doc (col.data.getD i 0)) with
    | some tup => decide (((alGet ix.entries tup).getD []).count i = 1)
    | none => true)

/-- The spec's secondary-index consistency invariant, for every registered
index. -/
def secIndexConsistent (col : Col) : Bool :=
  col.indexes.all (fun p => secIndexEntryOk col p.2)

/-! ## C1 — query cache is never invalidated by writes (code bug) -/

/-- Two documents with distinct scalar `f` fields. -/
def docFa : Doc := [("id", .str "a"), ("f", .num 1)]

/-- See `docFa`. -/
def docFb : Doc := [("id", .str "b"), ("f", .num 2)]

/-- Insert `a`,`b`; `find {f:1}` (seeds the query cache with `[a]`);
`updateById "a"` setting `f := 2`. -/
def c1state : Col :=
  run noRegex Col.empty
    [.ins [docFa, docFb] "T1" "p" "g",
     .findQ (.obj [("f", .num 1)]),
     .updById "a" (.obj [("$set", .obj [("f", .num 2)])]) "document" "T2"]

/-- **C1.** The source never invalidates `queryCache` on writes (no write
touches it, and its key is only `JSON.stringify(filter) + data.length`).
After `find {f:1}` populates the cache and `updateById` rewrites the only
matching document to `f:2` (leaving `data.length` unchanged), a second
`find {f:1}` hits the stale cache entry: it reports success with one result
although zero current documents match the filter — the query is *not*
computed against the current documents. -/
theorem C1_cache_staleness :
    (findOp noRegex c1state (.obj [("f", .num 1)])).2.success = true ∧
    (findOp noRegex c1state (.obj [("f", .num 1)])).2.total = 1 ∧
    (c1state.data.filter (fun r =>
      matchesFilter noRegex (c1state.store.getD r []) (.obj [("f", .num 1)]))).length = 0 := by
  decide

/-! ## C2 — secondary indexes break on delete (code bug) -/

/-- Insert `a`,`b`; `createIndex {f:1}`; `deleteById "a"`.  The index ends
holding position `1` for document `b`, which now sits at position `0` of a
one-element `data`. -/
def c2state : Col :=
  run noRegex Col.empty
    [.ins [docFa, docFb] "T1" "p" "g",
     .mkIndex [("f", .num 1)],
     .delById "a"]

/-- **C2.** `deleteById` removes the deleted document from every secondary
index but renumbers only `idIndex` — the positions recorded in secondary
indexes for every document after the splice point go stale (`delete` does
not touch secondary indexes at all).  After the scenario of `c2state` the
registered index stores position `1` while `data` has length `1`: positions
are not valid indices into `data`, refuting the invariant. -/
theorem C2_secondary_index_positions_stale : secIndexConsistent c2state = false := by
  decide

/-! ## C3 — value-compare of object literals (corrected) -/

/-- **C3 counterexample.**  The filter `{k: {a: 1}}` — whose value is *not*
a document of `$`-keys, so the claim requires deep-structural value
comparison — matches the document `{k: 5}`: `matchesFilter` routes *every*
object-valued entry to `matchesOperators`, which ignores the unknown
operator `a` and accepts.  `Resolve(d, k) = 5` is neither an array nor
deep-structurally equal to `{a: 1}`, so the claim as stated is false. -/
theorem C3_counterexample :
    matchesFilter noRegex [("k", .num 5)] (.obj [("k", .obj [("a", .num 1)])]) = true ∧
    getValue [("k", .num 5)] "k" = some (.num 5) ∧
    Value.num 5 ≠ Value.obj [("a", .num 1)] ∧
    allKeysDollar (.obj [("a", .num 1)]) = false := by
  decide

/-! ## C4 — idIndex exactness (corrected) -/

/-- Insert `{id:"a"}`, then `update({}, {id:"b"})` (the plain-document spec
is wrapped into `{$set:{id:"b"}}` and rewrites the stored id). -/
def c4state : Col :=
  run noRegex Col.empty
    [.ins [[("id", .str "a")]] "T1" "p" "g",
     .upd (.obj []) (.obj [("id", .str "b")]) "count" 50 "T2"]

/-- **C4 counterexample.**  An `update` whose spec writes the `id` field
mutates the stored document without touching `idIndex`: afterwards the
document at position 0 has id `"b"` which is unindexed, while the stale
entry `"a" ↦ 0` remains.  The exactness claim quantified over *every*
operation sequence is therefore false. -/
theorem C4_counterexample : ¬ idxExact c4state := by
  decide

/-! ## C7 — operators against an absent value (corrected) -/

/-- **C7 counterexample.**  The single-operator map `{$exists: 1}` is
neither `{$exists: false}` nor `{$ne: E}`, yet it matches an absent value:
the source tests `expected === true` / `expected === false` and every other
`$exists` payload falls through the switch and matches. -/
theorem C7_counterexample :
    matchesOperators noRegex none (.obj [("$exists", .num 1)]) = true ∧
    Value.num 1 ≠ Value.bool false ∧
    "$exists" ≠ "$ne" := by
  decide

/-! ## C8 — empty-result find envelope (corrected) -/

/-- **C8 counterexample.**  `find`'s operator whitelist omits `$nor` (also
`$mod` and `$options`), so a `find` with the filter `{$nor: [{}]}` — which
matches zero documents — returns a 500 envelope from the thrown validation
error, not the claimed 404. -/
theorem C8_counterexample :
    (findOp noRegex Col.empty (.obj [("$nor", .arr [.obj []])])).2.error =
      some ⟨"Invalid query operator", 500⟩ ∧
    (findOp noRegex Col.empty (.obj [("$nor", .arr [.obj []])])).2.success = false ∧
    Col.empty.data.filter (fun r =>
      matchesFilter noRegex (Col.empty.store.getD r [])
        (.obj [("$nor", .arr [.obj []])])) = [] := by
  decide

/-! ## C10 — logical-operator dispatch (corrected) -/

/-- **C10 counterexample.**  The dispatch guards are *truthiness* tests, not
key-presence tests: with `$and: false` present, the filter
`{$and: false, a: 1}` falls through to the field loop and evaluates the
field key `a` (no match on `{a: 2}`), while dropping the field key changes
the result — so a filter containing the key `$and` does *not* ignore its
other keys. -/
theorem C10_counterexample :
    matchesFilter noRegex [("a", .num 2)]
      (.obj [("$and", .bool false), ("a", .num 1)]) = false ∧
    matchesFilter noRegex [("a", .num 2)] (.obj [("$and", .bool false)]) = true := by
  decide

/-! ## C6 — array traversal of the path resolver (confirmed) -/

/-- The claim's description of the sub-path branch, written from its words:
"the remaining path is evaluated as a sub-path against each element of the
array; every non-absent sub-result is collected, any collected value that is
itself an array is flattened one level, and the collected list is returned
as the resolved value if it is non-empty, otherwise the resolution is
absent."  (Sub-path evaluation is the resolver itself, i.e. `getValue(el,
remainingPath)`, the single-segment case reading the property directly.) -/
def specArrayTraversal (xs : List Value) (p : String) (rest : List String) : Option Value :=
  let collected := xs.foldr
    (fun el acc =>
      match (if rest.isEmpty then jsMember el p else getValueLoop el (p :: rest)) with
      | none => acc
      | some (.arr vs) => vs ++ acc
      | some v => v :: acc)
    []
  if collected.isEmpty then none else some (.arr collected)

theorem getValueCollect_eq_foldr (xs : List Value) (p : String) (rest : List String) :
    getValueLoop.getValueCollect xs p rest = xs.foldr
      (fun el acc =>
        match (if rest.isEmpty then jsMember el p else getValueLoop el (p :: rest)) with
        | none => acc
        | some (.arr vs) => vs ++ acc
        | some v => v :: acc)
      [] := by
  induction xs with
  | nil => rfl
  | cons el els ih =>
    rw [getValueLoop.getValueCollect, List.foldr_cons, ← ih]
    cases hsub : (if rest.isEmpty then jsMember el p else getValueLoop el (p :: rest)) with
    | none => simp
    | some v => cases v <;> simp

/-- **C6.**  When path resolution reaches an array whose next segment does
not parse as an in-bounds non-negative integer index (`arrIdx? = none` is
precisely the source's `isNaN(idx) || idx < 0 || idx >= cur.length`), the
result is exactly the claim's collect-flatten-or-absent combination of the
sub-path evaluations over the elements. -/
theorem C6_array_traversal (xs : List Value) (p : String) (rest : List String)
    (h : arrIdx? p xs.length = none) :
    getValueLoop (.arr xs) (p :: rest) = specArrayTraversal xs p rest := by
  rw [getValueLoop, h, specArrayTraversal, getValueCollect_eq_foldr]

/-- Witness for `C6_array_traversal` at a concrete array and segment. -/
theorem C6_array_traversal_witness :
    arrIdx? "x" ([Value.obj [("x", .num 1)], Value.obj [("x", .num 2)]]).length = none ∧
    getValueLoop (.arr [Value.obj [("x", .num 1)], Value.obj [("x", .num 2)]]) ["x"] =
      specArrayTraversal [Value.obj [("x", .num 1)], Value.obj [("x", .num 2)]] "x" [] :=
  ⟨by decide, C6_array_traversal _ _ _ (by decide)⟩

/-! ## C7 — amended: absent value against a single-operator map -/

/-- **C7 (amended).**  For an absent `Resolve(d, k)`, a single-operator map
from the claim's operator list matches iff it is `{$ne: E}` (any `E`) or
`{$exists: E}` with `E` any value other than the literal `true` — not only
`{$exists: false}`: every non-boolean `$exists` payload matches too.  All
other listed operators fail. -/
theorem opsWalk_nil (re : String → String → String → Bool) (actual : Option Value)
    (flags : String) : matchesOperators.opsWalk re actual flags [] = true := rfl

/-- One step of the operator walk against an absent value: `$options` is
skipped, `$exists` tests the literal booleans and otherwise falls through,
`$ne` matches, everything else fails. -/
theorem opsWalk_absent (re : String → String → String → Bool) (flags : String)
    (op : String) (E : Value) (rest : List (String × Value)) :
    matchesOperators.opsWalk re none flags ((op, E) :: rest) =
      (if op = "$options" then matchesOperators.opsWalk re none flags rest
       else if op = "$exists" then
         (if E = Value.bool true then false
          else if E = Value.bool false then true
          else matchesOperators.opsWalk re none flags rest)
       else if op = "$ne" then true
       else false) := by
  rw [matchesOperators.opsWalk]

theorem bool_iff_of_false {b : Bool} {P : Prop} (hb : b = false) (hp : ¬P) :
    (b = true ↔ P) := by
  rw [hb]; simp [hp]

theorem bool_iff_of_true {b : Bool} {P : Prop} (hb : b = true) (hp : P) :
    (b = true ↔ P) := by
  rw [hb]; simp [hp]

theorem C7_absent_single_operator (re : String → String → String → Bool)
    (op : String) (E : Value)
    (h : op ∈ ["$eq", "$ne", "$gt", "$gte", "$lt", "$lte", "$in", "$nin",
               "$exists", "$regex", "$mod", "$not"]) :
    (matchesOperators re none (.obj [(op, E)]) = true ↔
      (op = "$ne" ∨ (op = "$exists" ∧ E ≠ .bool true))) := by
  simp only [List.mem_cons, List.not_mem_nil, or_false] at h
  rcases h with rfl | rfl | rfl | rfl | rfl | rfl | rfl | rfl | rfl | rfl | rfl | rfl
  · exact bool_iff_of_false rfl (by rintro (h | ⟨h, -⟩) <;> exact absurd h (by decide))
  · exact bool_iff_of_true rfl (Or.inl rfl)
  · exact bool_iff_of_false rfl (by rintro (h | ⟨h, -⟩) <;> exact absurd h (by decide))
  · exact bool_iff_of_false rfl (by rintro (h | ⟨h, -⟩) <;> exact absurd h (by decide))
  · exact bool_iff_of_false rfl (by rintro (h | ⟨h, -⟩) <;> exact absurd h (by decide))
  · exact bool_iff_of_false rfl (by rintro (h | ⟨h, -⟩) <;> exact absurd h (by decide))
  · exact bool_iff_of_false rfl (by rintro (h | ⟨h, -⟩) <;> exact absurd h (by decide))
  · exact bool_iff_of_false rfl (by rintro (h | ⟨h, -⟩) <;> exact absurd h (by decide))
  · -- `$exists`
    have e1 : matchesOperators re none (.obj [("$exists", E)]) =
        (if E = Value.bool true then false
         else if E = Value.bool false then true else true) := rfl
    rw [e1]
    by_cases h1 : E = Value.bool true
    · rw [if_pos h1]
      constructor
      · intro hh; exact absurd hh (by decide)
      · rintro (hh | ⟨-, hh⟩)
        · exact absurd hh (by decide)
        · exact absurd h1 hh
    · rw [if_neg h1]
      have e2 : (if E = Value.bool false then true else true) = true := by
        by_cases h2 : E = Value.bool false <;> simp [h2]
      rw [e2]
      constructor
      · intro _; exact Or.inr ⟨rfl, h1⟩
      · intro _; rfl
  · exact bool_iff_of_false rfl (by rintro (h | ⟨h, -⟩) <;> exact absurd h (by decide))
  · exact bool_iff_of_false rfl (by rintro (h | ⟨h, -⟩) <;> exact absurd h (by decide))
  · exact bool_iff_of_false rfl (by rintro (h | ⟨h, -⟩) <;> exact absurd h (by decide))

/-- Witness for `C7_absent_single_operator` at `{$ne: 3}`. -/
theorem C7_absent_single_operator_witness :
    ("$ne" ∈ ["$eq", "$ne", "$gt", "$gte", "$lt", "$lte", "$in", "$nin",
              "$exists", "$regex", "$mod", "$not"]) ∧
    (matchesOperators noRegex none (.obj [("$ne", .num 3)]) = true ↔
      ("$ne" = "$ne" ∨ ("$ne" = "$exists" ∧ Value.num 3 ≠ .bool true))) :=
  ⟨by decide, C7_absent_single_operator noRegex "$ne" (.num 3) (by decide)⟩

/-! ## C3 — amended: value comparison of a single-field filter -/

theorem ne_dollar_key {k s : String} (hk : startsWithDollar k = false)
    (hs : startsWithDollar s = true) : k ≠ s := by
  intro h; rw [h, hs] at hk; cases hk

/-- Evaluation of `matchesFilter` on a one-entry filter whose key is not
`$`-prefixed: the logical dispatch finds nothing and the single field entry
decides. -/
theorem matchesFilter_single_field (re : String → String → String → Bool)
    (d : Doc) (k : String) (v : Value) (hk : startsWithDollar k = false) :
    matchesFilter re d (.obj [(k, v)]) =
      (match v with
       | .obj ops => matchesOperators re (getValue d k) (.obj ops)
       | _ =>
         match getValue d k with
         | some (.arr xs) => jsIncludes xs v
         | some w => strictEq w v
         | none => false) := by
  have hand := ne_dollar_key hk (show startsWithDollar "$and" = true by decide)
  have hor := ne_dollar_key hk (show startsWithDollar "$or" = true by decide)
  have hnor := ne_dollar_key hk (show startsWithDollar "$nor" = true by decide)
  have hnot := ne_dollar_key hk (show startsWithDollar "$not" = true by decide)
  have h1 : matchesFilter.evalAnd re d [(k, v)] = none := by
    simp only [matchesFilter.evalAnd, if_neg hand]
  have h2 : matchesFilter.evalOr re d [(k, v)] = none := by
    simp only [matchesFilter.evalOr, if_neg hor]
  have h3 : matchesFilter.evalNor re d [(k, v)] = none := by
    simp only [matchesFilter.evalNor, if_neg hnor]
  have h4 : matchesFilter.evalNot re d [(k, v)] = none := by
    simp only [matchesFilter.evalNot, if_neg hnot]
  rw [matchesFilter, h1, h2, h3, h4]
  simp only [List.all_cons, List.all_nil, Bool.and_true, hk]
  rw [if_neg (by simp [hk])]
  cases v <;> rfl

theorem c3Aux (d : Doc) (k : String) (v : Value) :
    ((match getValue d k with
      | some (.arr xs) => jsIncludes xs v
      | some w => strictEq w v
      | none => false) = true ↔
     ((∃ xs, getValue d k = some (.arr xs) ∧ jsIncludes xs v = true) ∨
      (∃ w, getValue d k = some w ∧ (∀ xs, w ≠ .arr xs) ∧ strictEq w v = true))) := by
  cases hg : getValue d k with
  | none => simp
  | some w =>
    cases w with
    | arr xs =>
      simp only [Option.some.injEq, Value.arr.injEq]
      constructor
      · intro h; exact Or.inl ⟨xs, rfl, h⟩
      · rintro (⟨xs', hx, hi⟩ | ⟨w', hw', hna, -⟩)
        · rw [hx]; exact hi
        · exact absurd hw'.symm (hna xs)
    | null => simp
    | bool b => simp
    | num n => simp
    | str s => simp
    | obj f => simp

/-- **C3 (amended).**  Value comparison applies only to scalar (and array)
filter values: an object-valued entry is always routed to
`matchesOperators`, even when its keys do not start with `$` (see
`C3_counterexample`).  For a scalar `v`, `{k: v}` matches `d` iff
`Resolve(d, k)` is an array containing an element strictly equal to `v`, or
is itself strictly equal to `v`; strict equality on scalars is structural
(on objects and arrays it is reference identity, never structural). -/
theorem C3_scalar_value_compare (re : String → String → String → Bool)
    (d : Doc) (k : String) (v : Value)
    (hp : isPrimitive v = true) (hk : startsWithDollar k = false) :
    (matchesFilter re d (.obj [(k, v)]) = true ↔
      ((∃ xs, getValue d k = some (.arr xs) ∧ jsIncludes xs v = true) ∨
       (∃ w, getValue d k = some w ∧ (∀ xs, w ≠ .arr xs) ∧ strictEq w v = true))) := by
  rw [matchesFilter_single_field re d k v hk]
  cases v with
  | arr xs => exact Bool.noConfusion hp
  | obj f => exact Bool.noConfusion hp
  | null => exact c3Aux d k .null
  | bool b => exact c3Aux d k (.bool b)
  | num n => exact c3Aux d k (.num n)
  | str s => exact c3Aux d k (.str s)

/-- Witness for `C3_scalar_value_compare`: `{tags: "vip"}` against a
document whose `tags` array contains `"vip"`. -/
theorem C3_scalar_value_compare_witness :
    isPrimitive (Value.str "vip") = true ∧
    startsWithDollar "tags" = false ∧
    (matchesFilter noRegex [("tags", .arr [.str "vip", .str "x"])]
        (.obj [("tags", .str "vip")]) = true ↔
      ((∃ xs, getValue [("tags", .arr [.str "vip", .str "x"])] "tags" =
          some (.arr xs) ∧ jsIncludes xs (.str "vip") = true) ∨
       (∃ w, getValue [("tags", .arr [.str "vip", .str "x"])] "tags" = some w ∧
          (∀ xs, w ≠ .arr xs) ∧ strictEq w (.str "vip") = true))) :=
  ⟨by decide, by decide,
   C3_scalar_value_compare noRegex [("tags", .arr [.str "vip", .str "x"])] "tags"
     (.str "vip") (by decide) (by decide)⟩

/-! ## C10 — amended: logical-operator dispatch by truthiness -/

theorem evalAnd_eq_truthyGet (re : String → String → String → Bool) (item : Doc)
    (fields : List (String × Value)) :
    matchesFilter.evalAnd re item fields =
      (match truthyGet (.obj fields) "$and" with
       | some v => some (matchesFilter.andValue re item v)
       | none => none) := by
  induction fields with
  | nil => rfl
  | cons p rest ih =>
    obtain ⟨k, v⟩ := p
    rw [matchesFilter.evalAnd]
    simp only [truthyGet, jsMember, objGet] at ih ⊢
    rw [alGet_cons]
    by_cases hk : k = "$and"
    · subst hk
      simp only [if_pos rfl]
      by_cases ht : jsTruthy v <;> simp [ht]
    · simp only [if_neg hk]
      exact ih

theorem evalOr_eq_truthyGet (re : String → String → String → Bool) (item : Doc)
    (fields : List (String × Value)) :
    matchesFilter.evalOr re item fields =
      (match truthyGet (.obj fields) "$or" with
       | some v => some (matchesFilter.orValue re item v)
       | none => none) := by
  induction fields with
  | nil => rfl
  | cons p rest ih =>
    obtain ⟨k, v⟩ := p
    rw [matchesFilter.evalOr]
    simp only [truthyGet, jsMember, objGet] at ih ⊢
    rw [alGet_cons]
    by_cases hk : k = "$or"
    · subst hk
      simp only [if_pos rfl]
      by_cases ht : jsTruthy v <;> simp [ht]
    · simp only [if_neg hk]
      exact ih

theorem evalNor_eq_truthyGet (re : String → String → String → Bool) (item : Doc)
    (fields : List (String × Value)) :
    matchesFilter.evalNor re item fields =
      (match truthyGet (.obj fields) "$nor" with
       | some v => some (matchesFilter.norValue re item v)
       | none => none) := by
  induction fields with
  | nil => rfl
  | cons p rest ih =>
    obtain ⟨k, v⟩ := p
    rw [matchesFilter.evalNor]
    simp only [truthyGet, jsMember, objGet] at ih ⊢
    rw [alGet_cons]
    by_cases hk : k = "$nor"
    · subst hk
      simp only [if_pos rfl]
      by_cases ht : jsTruthy v <;> simp [ht]
    · simp only [if_neg hk]
      exact ih

theorem evalNot_eq_truthyGet (re : String → String → String → Bool) (item : Doc)
    (fields : List (String × Value)) :
    matchesFilter.evalNot re item fields =
      (match truthyGet (.obj fields) "$not" with
       | some v => some (!(matchesFilter re item v))
       | none => none) := by
  induction fields with
  | nil => rfl
  | cons p rest ih =>
    obtain ⟨k, v⟩ := p
    rw [matchesFilter.evalNot]
    simp only [truthyGet, jsMember, objGet] at ih ⊢
    rw [alGet_cons]
    by_cases hk : k = "$not"
    · subst hk
      simp only [if_pos rfl]
      by_cases ht : jsTruthy v <;> simp [ht]
    · simp only [if_neg hk]
      exact ih

/-- **C10 (amended).**  The logical dispatch tests each key by property
*truthiness*, in the order `$and`, `$or`, `$nor`, `$not`: the first key
present with a truthy value decides the whole match by its clause alone
(every other key of the filter, logical or field-path, is ignored); a key
that is absent *or has a falsy value* is skipped — so a filter mixing e.g.
a falsy `$and` payload with field-path keys does evaluate the field-path
keys (see `C10_counterexample`).  Array payloads (the well-formed case —
arrays are always truthy) evaluate as the conjunction / disjunction /
negated disjunction of their element filters; `$not` negates its payload
filter. -/
theorem C10_logical_dispatch (re : String → String → String → Bool)
    (d : Doc) (F : Value) :
    (∀ fs, truthyGet F "$and" = some (.arr fs) →
       matchesFilter re d F = matchesFilter.mfAll re d fs) ∧
    (truthyGet F "$and" = none → ∀ fs, truthyGet F "$or" = some (.arr fs) →
       matchesFilter re d F = matchesFilter.mfAny re d fs) ∧
    (truthyGet F "$and" = none → truthyGet F "$or" = none →
       ∀ fs, truthyGet F "$nor" = some (.arr fs) →
       matchesFilter re d F = !(matchesFilter.mfAny re d fs)) ∧
    (truthyGet F "$and" = none → truthyGet F "$or" = none →
       truthyGet F "$nor" = none → ∀ v, truthyGet F "$not" = some v →
       matchesFilter re d F = !(matchesFilter re d v)) := by
  cases F with
  | obj fields =>
    refine ⟨fun fs h1 => ?_, fun h1 fs h2 => ?_, fun h1 h2 fs h3 => ?_,
            fun h1 h2 h3 v h4 => ?_⟩
    · rw [matchesFilter, evalAnd_eq_truthyGet, h1]
      rfl
    · rw [matchesFilter, evalAnd_eq_truthyGet, h1, evalOr_eq_truthyGet, h2]
      rfl
    · rw [matchesFilter, evalAnd_eq_truthyGet, h1, evalOr_eq_truthyGet, h2,
        evalNor_eq_truthyGet, h3]
      rfl
    · rw [matchesFilter, evalAnd_eq_truthyGet, h1, evalOr_eq_truthyGet, h2,
        evalNor_eq_truthyGet, h3, evalNot_eq_truthyGet, h4]
  | null => exact ⟨fun fs h => (nomatch h), fun h1 fs h => (nomatch h),
      fun h1 h2 fs h => (nomatch h), fun h1 h2 h3 v h => (nomatch h)⟩
  | bool b => exact ⟨fun fs h => (nomatch h), fun h1 fs h => (nomatch h),
      fun h1 h2 fs h => (nomatch h), fun h1 h2 h3 v h => (nomatch h)⟩
  | num n => exact ⟨fun fs h => (nomatch h), fun h1 fs h => (nomatch h),
      fun h1 h2 fs h => (nomatch h), fun h1 h2 h3 v h => (nomatch h)⟩
  | str s => exact ⟨fun fs h => (nomatch h), fun h1 fs h => (nomatch h),
      fun h1 h2 fs h => (nomatch h), fun h1 h2 h3 v h => (nomatch h)⟩
  | arr xs => exact ⟨fun fs h => (nomatch h), fun h1 fs h => (nomatch h),
      fun h1 h2 fs h => (nomatch h), fun h1 h2 h3 v h => (nomatch h)⟩

/-- Witness for `C10_logical_dispatch`: each stage applied at a concrete
filter that triggers it. -/
theorem C10_logical_dispatch_witness :
    (matchesFilter noRegex [("a", .num 2)]
       (.obj [("$and", .arr [.obj []]), ("a", .num 1)]) =
     matchesFilter.mfAll noRegex [("a", .num 2)] [.obj []]) ∧
    (matchesFilter noRegex [("a", .num 2)] (.obj [("$or", .arr [.obj []])]) =
     matchesFilter.mfAny noRegex [("a", .num 2)] [.obj []]) ∧
    (matchesFilter noRegex [("a", .num 2)] (.obj [("$nor", .arr [.obj []])]) =
     !(matchesFilter.mfAny noRegex [("a", .num 2)] [.obj []])) ∧
    (matchesFilter noRegex [("a", .num 2)] (.obj [("$not", .obj [("a", .num 2)])]) =
     !(matchesFilter noRegex [("a", .num 2)] (.obj [("a", .num 2)]))) :=
  ⟨(C10_logical_dispatch noRegex [("a", .num 2)]
      (.obj [("$and", .arr [.obj []]), ("a", .num 1)])).1 [.obj []] (by decide),
   (C10_logical_dispatch noRegex [("a", .num 2)]
      (.obj [("$or", .arr [.obj []])])).2.1 (by decide) [.obj []] (by decide),
   (C10_logical_dispatch noRegex [("a", .num 2)]
      (.obj [("$nor", .arr [.obj []])])).2.2.1 (by decide) (by decide) [.obj []] (by decide),
   (C10_logical_dispatch noRegex [("a", .num 2)]
      (.obj [("$not", .obj [("a", .num 2)])])).2.2.2 (by decide) (by decide) (by decide)
      (.obj [("a", .num 2)]) (by decide)⟩

/-! ## C8 — amended: empty-result find / count envelopes -/

/-- A falsy or key-less filter matches every document (`applyFilters` would
not even be consulted; `matchesFilter` returns `true` on such filters). -/
theorem matchesFilter_trivial (re : String → String → String → Bool) (d : Doc)
    (f : Value) (h : ¬ jsTruthy f ∨ (jsEntries f).isEmpty = true) :
    matchesFilter re d f = true := by
  cases f with
  | obj fields =>
    rcases h with h | h
    · simp [jsTruthy] at h
    · simp only [jsEntries, List.isEmpty_iff] at h
      subst h
      rfl
  | null => rfl
  | bool b => rfl
  | num n => rfl
  | str s => rfl
  | arr xs => rfl

/-- **C8 (amended).**  Restricted to filters that pass `find`'s operator
validation (`validFilter`; the whitelist omits `$nor`, `$mod` and
`$options`, see `C8_counterexample`) and to collections whose query cache
holds no entry for the filter's key (the cache is never invalidated by
writes, so a stale hit can report a non-empty result):  a `find` whose
filter matches zero documents returns the `{success: false, data: [],
error: 404}` envelope, and a `count` with the same filter returns
`{success: true, data: 0, error: null}`. -/
theorem C8_empty_result (re : String → String → String → Bool) (col : Col) (f : Value)
    (hobj : jsIsObject f = true)
    (hvalid : validFilter f = true)
    (hcache : alGet col.cache (jsonStringify f ++ toString col.data.length) = none)
    (hmatch : col.data.filter (fun r => matchesFilter re (col.store.getD r []) f) = []) :
    (findOp re col f).2 =
      { success := false, data := [], total := 0,
        error := some ⟨"No documents found matching the criteria", 404⟩ } ∧
    (countOp re col f).2 = { success := true, data := some 0, error := none } := by
  have happ : ∃ c2, applyFilters re col.store col.cache col.data f = ([], c2) := by
    unfold applyFilters
    by_cases htriv : ¬ jsTruthy f ∨ (jsEntries f).isEmpty = true
    · rw [if_pos htriv]
      have hd : col.data = [] := by
        have hall : col.data.filter
            (fun r => matchesFilter re (col.store.getD r []) f) = col.data :=
          List.filter_eq_self.mpr
            (fun a _ => matchesFilter_trivial re (col.store.getD a []) f htriv)
        rw [hall] at hmatch
        exact hmatch
      exact ⟨col.cache, by rw [hd]⟩
    · rw [if_neg htriv]
      simp only [hcache, hmatch]
      exact ⟨_, rfl⟩
  obtain ⟨c2, happ⟩ := happ
  constructor
  · unfold findOp
    rw [if_neg (by simp [hobj]), if_neg (by simp [hvalid]), happ]
    rfl
  · unfold countOp
    rw [if_neg (by simp [hobj])]
    unfold qeCount
    by_cases htriv : ¬ jsTruthy f ∨ (jsEntries f).isEmpty = true
    · rw [if_pos htriv]
      have hd : col.data = [] := by
        have hall : col.data.filter
            (fun r => matchesFilter re (col.store.getD r []) f) = col.data :=
          List.filter_eq_self.mpr
            (fun a _ => matchesFilter_trivial re (col.store.getD a []) f htriv)
        rw [hall] at hmatch
        exact hmatch
      rw [hd]
      rfl
    · rw [if_neg htriv, happ]
      rfl

/-- Witness for `C8_empty_result`: `{f: 99}` over a two-document collection
(seeded through `insertOp`) with an empty cache. -/
theorem C8_empty_result_witness :
    jsIsObject (.obj [("f", .num 99)]) = true ∧
    validFilter (.obj [("f", .num 99)]) = true ∧
    alGet (insertOp [docFa, docFb] "T1" "p" "g" Col.empty).1.cache
      (jsonStringify (.obj [("f", .num 99)]) ++
        toString (insertOp [docFa, docFb] "T1" "p" "g" Col.empty).1.data.length) = none ∧
    (findOp noRegex (insertOp [docFa, docFb] "T1" "p" "g" Col.empty).1
        (.obj [("f", .num 99)])).2 =
      { success := false, data := [], total := 0,
        error := some ⟨"No documents found matching the criteria", 404⟩ } ∧
    (countOp noRegex (insertOp [docFa, docFb] "T1" "p" "g" Col.empty).1
        (.obj [("f", .num 99)])).2 = { success := true, data := some 0, error := none } :=
  ⟨by decide, by decide, by decide,
   C8_empty_result noRegex (insertOp [docFa, docFb] "T1" "p" "g" Col.empty).1
     (.obj [("f", .num 99)]) (by decide) (by decide) (by decide) (by decide)⟩

/-! ## C5 — insert upsert -/

section AssignLemmas

variable {κ α : Type} [DecidableEq κ]

/-- The key list of `alSet`: unchanged on overwrite, the fresh key appended
otherwise. -/
theorem keys_alSet (m : List (κ × α)) (k : κ) (v : α) :
    (alSet m k v).map Prod.fst =
      if m.any (fun p => p.1 = k) then m.map Prod.fst else m.map Prod.fst ++ [k] := by
  unfold alSet
  by_cases hany : m.any (fun p => p.1 = k)
  · simp only [hany, if_true, List.map_map]
    apply List.map_congr_left
    intro a _
    by_cases h : a.1 = k <;> simp [h]
  · simp [hany]

/-- `alSet` preserves key nodup-ness. -/
theorem keys_alSet_nodup {m : List (κ × α)} {k : κ} {v : α}
    (h : (m.map Prod.fst).Nodup) : ((alSet m k v).map Prod.fst).Nodup := by
  rw [keys_alSet]
  by_cases hany : m.any (fun p => p.1 = k)
  · simpa [hany] using h
  · simp only [hany, Bool.false_eq_true, if_false]
    rw [List.nodup_append]
    refine ⟨h, List.nodup_singleton k, ?_⟩
    intro a ha hb
    simp only [List.mem_singleton] at hb
    subst hb
    obtain ⟨p, hp, hpa⟩ := List.mem_map.mp ha
    exact hany (List.any_eq_true.mpr ⟨p, hp, decide_eq_true hpa⟩)

/-- Reading a fold of `alSet` writes over a nodup-keyed pair list: the
written value wins, otherwise the base map answers. -/
theorem alGet_foldl_alSet_nodup (m : List (κ × α)) (ps : List (κ × α)) (k : κ)
    (h : (ps.map Prod.fst).Nodup) :
    alGet (ps.foldl (fun acc p => alSet acc p.1 p.2) m) k =
      (alGet ps k).or (alGet m k) := by
  induction ps generalizing m with
  | nil => rfl
  | cons p rest ih =>
    obtain ⟨a, b⟩ := p
    simp only [List.map_cons, List.nodup_cons] at h
    rw [List.foldl_cons, ih _ h.2, alGet_cons]
    by_cases hk : a = k
    · subst hk
      have hnone : alGet rest a = none := by
        apply alGet_eq_none_of_not_any
        rw [Bool.eq_false_iff]
        intro hc
        obtain ⟨p, hp, hpa⟩ := List.any_eq_true.mp hc
        simp only [decide_eq_true_eq] at hpa
        exact h.1 (List.mem_map.mpr ⟨p, hp, hpa⟩)
      rw [hnone, if_pos rfl]
      exact alGet_alSet_self m a b
    · rw [if_neg hk]
      cases alGet rest k with
      | none => exact alGet_alSet_ne m a k b (fun hh => hk hh.symm)
      | some w => rfl

end AssignLemmas

/-- `Object.assign(target, src)` read-back for nodup-keyed `src`: a key of
`src` answers with its `src` value, any other key with the `target` value. -/
theorem objGet_objAssign (t s : Doc) (k : String) (h : (s.map Prod.fst).Nodup) :
    objGet (objAssign t s) k = (objGet s k).or (objGet t k) := by
  unfold objGet objAssign objSet
  exact alGet_foldl_alSet_nodup t s k h

/-- The upsert branch of the insert loop, characterised: a truthy supplied id
already in `idIndex` merges onto the stored document in place, leaves `data`,
`idIndex` and `inserted` alone, and records the updated reference. -/
theorem insertStep_upsert (useSeq : Bool) (pfx genId now : String) (st : InsState)
    (doc : Doc) (v : Value) (i : Nat)
    (hid : objGet doc "id" = some v) (htr : jsTruthy v = true)
    (hidx : alGet st.col.idIndex (jsToString v) = some i) :
    insertStep useSeq pfx genId now st doc =
      { st with
        col := { st.col with store := (st.col.store.set (st.col.data.getD i 0)
          (objSet (match objGet (st.col.store.getD (st.col.data.getD i 0) []) "createdAt" with
            | some c => objSet (objAssign (st.col.store.getD (st.col.data.getD i 0) [])
                (objSet doc "id" (.str (jsToString v)))) "createdAt" c
            | none => objDel (objAssign (st.col.store.getD (st.col.data.getD i 0) [])
                (objSet doc "id" (.str (jsToString v)))) "createdAt")
          "updatedAt" (.str now))) },
        allGen := false,
        updatedRefs := st.updatedRefs ++ [st.col.data.getD i 0] } := by
  unfold insertStep
  simp only [hid, htr, if_true, hidx]

/-- **C5.**  An insert of a document whose (truthy, nodup-keyed) id is
already in `idIndex` rewrites the stored document in place — field-wise merge
of the input over the existing fields, the original `createdAt` preserved,
`updatedAt` set to now — appends nothing to `data`, and reports
`success: true, insertedCount: 0, updatedCount: 1`. -/
theorem C5_insert_upsert (col : Col) (doc : Doc) (v : Value) (i : Nat)
    (now pfx genId : String)
    (hnd : (doc.map Prod.fst).Nodup)
    (hid : objGet doc "id" = some v) (htr : jsTruthy v = true)
    (hidx : alGet col.idIndex (jsToString v) = some i) :
    ∃ merged : Doc,
      (insertOp [doc] now pfx genId col).1.data = col.data ∧
      (insertOp [doc] now pfx genId col).1.store =
        col.store.set (col.data.getD i 0) merged ∧
      (insertOp [doc] now pfx genId col).2 =
        { success := true, insertedCount := 0, updatedCount := 1,
          insertedIds := none, firstId := none, lastId := none,
          prefixId := none, error := none } ∧
      objGet merged "updatedAt" = some (.str now) ∧
      objGet merged "createdAt" =
        objGet (col.store.getD (col.data.getD i 0) []) "createdAt" ∧
      ∀ k, k ≠ "updatedAt" → k ≠ "createdAt" →
        objGet merged k =
          ((objGet (objSet doc "id" (.str (jsToString v))) k).or
            (objGet (col.store.getD (col.data.getD i 0) []) k)) := by
  have hnd2 : ((objSet doc "id" (.str (jsToString v))).map Prod.fst).Nodup :=
    keys_alSet_nodup hnd
  have hrun := insertStep_upsert
    (decide (([doc] : List Doc).length ≥ 2)) pfx genId now
    { col := col, seq := 0, allGen := true, inserted := [], updatedRefs := [] }
    doc v i hid htr hidx
  refine ⟨objSet (match objGet (col.store.getD (col.data.getD i 0) []) "createdAt" with
      | some c => objSet (objAssign (col.store.getD (col.data.getD i 0) [])
          (objSet doc "id" (.str (jsToString v)))) "createdAt" c
      | none => objDel (objAssign (col.store.getD (col.data.getD i 0) [])
          (objSet doc "id" (.str (jsToString v)))) "createdAt")
      "updatedAt" (.str now), ?_, ?_, ?_, ?_, ?_, ?_⟩
  · simp only [insertOp, List.foldl_cons, List.foldl_nil, hrun]
    simp
  · simp only [insertOp, List.foldl_cons, List.foldl_nil, hrun]
    simp
  · simp only [insertOp, List.foldl_cons, List.foldl_nil, hrun]
    simp
  · exact alGet_alSet_self _ _ _
  · cases hca : objGet (col.store.getD (col.data.getD i 0) []) "createdAt" with
    | none =>
      exact (alGet_alSet_ne _ "updatedAt" "createdAt" _ (by decide)).trans
        (alGet_alDel_self _ "createdAt")
    | some c =>
      exact (alGet_alSet_ne _ "updatedAt" "createdAt" _ (by decide)).trans
        (alGet_alSet_self _ "createdAt" c)
  · intro k hk1 hk2
    cases hca : objGet (col.store.getD (col.data.getD i 0) []) "createdAt" with
    | none =>
      rw [show objGet (objSet (objDel (objAssign (col.store.getD (col.data.getD i 0) [])
            (objSet doc "id" (.str (jsToString v)))) "createdAt") "updatedAt" (.str now)) k =
          objGet (objDel (objAssign (col.store.getD (col.data.getD i 0) [])
            (objSet doc "id" (.str (jsToString v)))) "createdAt") k
        from alGet_alSet_ne _ _ _ _ hk1,
        show objGet (objDel (objAssign (col.store.getD (col.data.getD i 0) [])
            (objSet doc "id" (.str (jsToString v)))) "createdAt") k =
          objGet (objAssign (col.store.getD (col.data.getD i 0) [])
            (objSet doc "id" (.str (jsToString v)))) k
        from alGet_alDel_ne _ _ _ hk2,
        objGet_objAssign _ _ k hnd2]
    | some c =>
      rw [show objGet (objSet (objSet (objAssign (col.store.getD (col.data.getD i 0) [])
            (objSet doc "id" (.str (jsToString v)))) "createdAt" c) "updatedAt" (.str now)) k =
          objGet (objSet (objAssign (col.store.getD (col.data.getD i 0) [])
            (objSet doc "id" (.str (jsToString v)))) "createdAt" c) k
        from alGet_alSet_ne _ _ _ _ hk1,
        show objGet (objSet (objAssign (col.store.getD (col.data.getD i 0) [])
            (objSet doc "id" (.str (jsToString v)))) "createdAt" c) k =
          objGet (objAssign (col.store.getD (col.data.getD i 0) [])
            (objSet doc "id" (.str (jsToString v)))) k
        from alGet_alSet_ne _ _ _ _ hk2,
        objGet_objAssign _ _ k hnd2]

/-- The one-document collection the C5 witness upserts into. -/
def c5col : Col :=
  { store := [[("id", .str "a"), ("x", .num 1), ("createdAt", .str "T0")]],
    data := [0], idIndex := [("a", 0)], indexes := [], cache := [],
    dirty := false }

/-- Witness for `C5_insert_upsert`: re-inserting id `"a"` into `c5col`. -/
theorem C5_insert_upsert_witness :
    (([("id", Value.str "a"), ("y", Value.num 2)] : Doc).map Prod.fst).Nodup ∧
    objGet [("id", Value.str "a"), ("y", Value.num 2)] "id" = some (.str "a") ∧
    jsTruthy (.str "a") = true ∧
    alGet c5col.idIndex (jsToString (.str "a")) = some 0 ∧
    (∃ merged : Doc,
      (insertOp [[("id", Value.str "a"), ("y", Value.num 2)]] "T1" "p" "g" c5col).1.data =
        c5col.data ∧
      (insertOp [[("id", Value.str "a"), ("y", Value.num 2)]] "T1" "p" "g" c5col).1.store =
        c5col.store.set (c5col.data.getD 0 0) merged ∧
      (insertOp [[("id", Value.str "a"), ("y", Value.num 2)]] "T1" "p" "g" c5col).2 =
        { success := true, insertedCount := 0, updatedCount := 1,
          insertedIds := none, firstId := none, lastId := none,
          prefixId := none, error := none } ∧
      objGet merged "updatedAt" = some (.str "T1") ∧
      objGet merged "createdAt" =
        objGet (c5col.store.getD (c5col.data.getD 0 0) []) "createdAt" ∧
      ∀ k, k ≠ "updatedAt" → k ≠ "createdAt" →
        objGet merged k =
          ((objGet (objSet [("id", Value.str "a"), ("y", Value.num 2)] "id"
              (.str (jsToString (.str "a")))) k).or
            (objGet (c5col.store.getD (c5col.data.getD 0 0) []) k))) :=
  ⟨by decide, by decide, by decide, by decide,
   C5_insert_upsert c5col [("id", Value.str "a"), ("y", Value.num 2)] (.str "a") 0
     "T1" "p" "g" (by decide) (by decide) (by decide) (by decide)⟩

/-! ## C9 — sequential ids for bulk inserts -/

/-- `List.getD` on an append, past the first list. -/
theorem getD_append_right {α : Type} (l1 l2 : List α) (j : Nat) (d : α) :
    (l1 ++ l2).getD (l1.length + j) d = l2.getD j d := by
  induction l1 with
  | nil => simp
  | cons a l ih =>
    rw [List.cons_append,
      show (a :: l).length + j = (l.length + j) + 1 by simp [List.length_cons]; omega,
      List.getD_cons_succ]
    exact ih

/-- The fresh sequential-id branch of the insert loop, characterised: an
id-less document under `useSequentialIds` draws `pfx_(seq+1)`, is appended to
the store and to `data`, indexed, and recorded as inserted. -/
theorem insertStep_seq_fresh (pfx genId now : String) (st : InsState) (d : Doc)
    (hd : objGet d "id" = none)
    (hfresh : alGet st.col.idIndex (pfx ++ "_" ++ toString (st.seq + 1)) = none) :
    insertStep true pfx genId now st d =
      { st with
        col := { st.col with
          store := (st.col.store ++ [objSet (objSet d "id"
            (.str (pfx ++ "_" ++ toString (st.seq + 1)))) "createdAt"
            (match objGet (objSet d "id"
                (.str (pfx ++ "_" ++ toString (st.seq + 1)))) "createdAt" with
             | some v => if jsTruthy v then v else .str now
             | none => .str now)]),
          data := (st.col.data ++ [st.col.store.length]),
          idIndex := (alSet st.col.idIndex (pfx ++ "_" ++ toString (st.seq + 1))
            st.col.data.length),
          indexes := (updateIndexesOnInsert st.col.indexes (objSet (objSet d "id"
            (.str (pfx ++ "_" ++ toString (st.seq + 1)))) "createdAt"
            (match objGet (objSet d "id"
                (.str (pfx ++ "_" ++ toString (st.seq + 1)))) "createdAt" with
             | some v => if jsTruthy v then v else .str now
             | none => .str now)) st.col.data.length) },
        seq := st.seq + 1,
        inserted := (st.inserted ++ [st.col.store.length]) } := by
  unfold insertStep
  simp only [hd, hfresh, if_true]

/-- The insert loop over id-less documents with sequential ids: appends one
document per input, assigns `pfx_(seq+1+j)` to the `j`-th, advances the
counter, keeps `allGen`, and records the appended store references as
inserted. -/
theorem insert_loop_seq (pfx genId now : String) (docs : List Doc) (st : InsState)
    (hids : ∀ d ∈ docs, objGet d "id" = none)
    (hfresh : ∀ j, j < docs.length →
      alGet st.col.idIndex (pfx ++ "_" ++ toString (st.seq + 1 + j)) = none)
    (hnd : ((List.range docs.length).map
      (fun j => pfx ++ "_" ++ toString (st.seq + 1 + j))).Nodup) :
    ∃ newDocs : List Doc,
      (docs.foldl (insertStep true pfx genId now) st).col.store =
        st.col.store ++ newDocs ∧
      newDocs.length = docs.length ∧
      (∀ j, j < docs.length → objGet (newDocs.getD j []) "id" =
        some (.str (pfx ++ "_" ++ toString (st.seq + 1 + j)))) ∧
      (docs.foldl (insertStep true pfx genId now) st).seq = st.seq + docs.length ∧
      (docs.foldl (insertStep true pfx genId now) st).allGen = st.allGen ∧
      (docs.foldl (insertStep true pfx genId now) st).inserted =
        st.inserted ++ (List.range docs.length).map (fun j => st.col.store.length + j) ∧
      (docs.foldl (insertStep true pfx genId now) st).updatedRefs = st.updatedRefs := by
  induction docs generalizing st with
  | nil =>
    exact ⟨[], by simp, rfl, (fun j hj => absurd hj (Nat.not_lt_zero j)), by simp, rfl,
      by simp, rfl⟩
  | cons d rest ih =>
    have hd := hids d (List.mem_cons_self d rest)
    have hstep := insertStep_seq_fresh pfx genId now st d hd
      (by simpa using hfresh 0 (Nat.succ_pos rest.length))
    rw [List.foldl_cons, hstep]
    rw [List.length_cons, List.range_succ_eq_map, List.map_cons, List.map_map] at hnd
    have hcongr : ∀ j : Nat,
        ((fun j => pfx ++ "_" ++ toString (st.seq + 1 + j)) ∘ Nat.succ) j =
          pfx ++ "_" ++ toString (st.seq + 1 + 1 + j) := by
      intro j
      simp only [Function.comp]
      rw [show st.seq + 1 + Nat.succ j = st.seq + 1 + 1 + j by omega]
    rw [List.map_congr_left (fun a _ => hcongr a)] at hnd
    obtain ⟨hhead, htail⟩ := List.nodup_cons.mp hnd
    have hid0 := hfresh
    obtain ⟨newDocs, hstore, hlen, hid3, hseq, hallGen, hins, hupd⟩ :=
      ih { st with
        col := { st.col with
          store := (st.col.store ++ [objSet (objSet d "id"
            (.str (pfx ++ "_" ++ toString (st.seq + 1)))) "createdAt"
            (match objGet (objSet d "id"
                (.str (pfx ++ "_" ++ toString (st.seq + 1)))) "createdAt" with
             | some v => if jsTruthy v then v else .str now
             | none => .str now)]),
          data := (st.col.data ++ [st.col.store.length]),
          idIndex := (alSet st.col.idIndex (pfx ++ "_" ++ toString (st.seq + 1))
            st.col.data.length),
          indexes := (updateIndexesOnInsert st.col.indexes (objSet (objSet d "id"
            (.str (pfx ++ "_" ++ toString (st.seq + 1)))) "createdAt"
            (match objGet (objSet d "id"
                (.str (pfx ++ "_" ++ toString (st.seq + 1)))) "createdAt" with
             | some v => if jsTruthy v then v else .str now
             | none => .str now)) st.col.data.length) },
        seq := st.seq + 1,
        inserted := (st.inserted ++ [st.col.store.length]) }
        (fun d hdm => hids d (List.mem_cons_of_mem _ hdm))
        (by
          intro j hj
          show alGet (alSet st.col.idIndex (pfx ++ "_" ++ toString (st.seq + 1))
            st.col.data.length) (pfx ++ "_" ++ toString (st.seq + 1 + 1 + j)) = none
          rw [alGet_alSet_ne _ _ _ _ (by
            intro he
            exact hhead (List.mem_map.mpr ⟨j, List.mem_range.mpr hj,
              he.trans (by rw [show st.seq + 1 = st.seq + 1 + 0 from by omega])⟩))]
          rw [show st.seq + 1 + 1 + j = st.seq + 1 + (j + 1) by omega]
          exact hfresh (j + 1) (by simpa using Nat.succ_lt_succ hj))
        (by exact htail)
    refine ⟨(objSet (objSet d "id" (.str (pfx ++ "_" ++ toString (st.seq + 1)))) "createdAt"
      (match objGet (objSet d "id"
          (.str (pfx ++ "_" ++ toString (st.seq + 1)))) "createdAt" with
       | some v => if jsTruthy v then v else .str now
       | none => .str now)) :: newDocs, ?_, ?_, ?_, ?_, ?_, ?_, ?_⟩
    · rw [hstore]
      simp
    · simp [hlen]
    · intro j hj
      match j with
      | 0 =>
        rw [List.getD_cons_zero]
        rw [show objGet (objSet (objSet d "id"
            (.str (pfx ++ "_" ++ toString (st.seq + 1)))) "createdAt"
            (match objGet (objSet d "id"
                (.str (pfx ++ "_" ++ toString (st.seq + 1)))) "createdAt" with
             | some v => if jsTruthy v then v else .str now
             | none => .str now)) "id" =
          objGet (objSet d "id" (.str (pfx ++ "_" ++ toString (st.seq + 1)))) "id"
          from alGet_alSet_ne _ _ _ _ (by decide)]
        rw [show objGet (objSet d "id" (.str (pfx ++ "_" ++ toString (st.seq + 1)))) "id" =
          some (.str (pfx ++ "_" ++ toString (st.seq + 1))) from alGet_alSet_self _ _ _]
      | (j' + 1) =>
        rw [List.getD_cons_succ,
          show st.seq + 1 + (j' + 1) = st.seq + 1 + 1 + j' by omega]
        exact hid3 j' (by rw [List.length_cons] at hj; omega)
    · rw [hseq]
      show st.seq + 1 + rest.length = st.seq + (d :: rest).length
      rw [List.length_cons]
      omega
    · exact hallGen
    · rw [hins, List.append_assoc]
      congr 1
      rw [List.length_cons, List.range_succ_eq_map, List.map_cons, List.map_map,
        List.cons_append]
      simp only [List.cons.injEq]
      constructor
      · omega
      · apply List.map_congr_left
        intro a _
        simp only [Function.comp, List.length_append, List.length_cons, List.length_nil]
        omega
    · exact hupd

/-- `insertOp` in terms of the already-evaluated insert loop: the envelope is
assembled from the final loop state's `inserted` and `updatedRefs`. -/
theorem insertOp_eval (docs : List Doc) (now pfx genId : String) (col : Col)
    (stf : InsState)
    (hfold : docs.foldl (insertStep (decide (docs.length ≥ 2)) pfx genId now)
      { col := col, seq := 0, allGen := true, inserted := [], updatedRefs := [] } = stf) :
    insertOp docs now pfx genId col =
      ((if stf.inserted.length > 0 ∨ stf.updatedRefs.length > 0
          then { stf.col with dirty := true } else stf.col),
       if h : stf.inserted.length > 0 then
         if stf.inserted.length > 20 then
           { success := true, insertedCount := stf.inserted.length,
             updatedCount := stf.updatedRefs.length, insertedIds := none,
             firstId := some (docIdString
               ((if stf.inserted.length > 0 ∨ stf.updatedRefs.length > 0
                   then { stf.col with dirty := true } else stf.col).store.getD
                 (stf.inserted.head (by intro hc; rw [hc] at h; simp at h)) [])),
             lastId := some (docIdString
               ((if stf.inserted.length > 0 ∨ stf.updatedRefs.length > 0
                   then { stf.col with dirty := true } else stf.col).store.getD
                 (stf.inserted.getLast (by intro hc; rw [hc] at h; simp at h)) [])),
             prefixId := if stf.allGen ∧ docs.length ≥ 2
               then some (pfx ++ "_") else none,
             error := none }
         else
           { success := true, insertedCount := stf.inserted.length,
             updatedCount := stf.updatedRefs.length,
             insertedIds := some (stf.inserted.map (fun r => docIdString
               ((if stf.inserted.length > 0 ∨ stf.updatedRefs.length > 0
                   then { stf.col with dirty := true } else stf.col).store.getD r []))),
             firstId := none, lastId := none, prefixId := none, error := none }
       else
         { success := true, insertedCount := stf.inserted.length,
           updatedCount := stf.updatedRefs.length, insertedIds := none,
           firstId := none, lastId := none, prefixId := none, error := none }) := by
  unfold insertOp
  simp only [hfold]

/-- **C9.**  A bulk insert of `N ≥ 2` id-less documents (whose sequential
ids are not already taken and are pairwise distinct): the `j`-th appended
document receives id `pfx_(j+1)`, the envelope reports `insertedCount = N`
with `updatedCount = 0`, lists the full id sequence when `N ≤ 20`, and
otherwise reports the first id `pfx_1`, the last id `pfx_N`, and the common
prefix `pfx_`. -/
theorem C9_sequential_ids (col : Col) (docs : List Doc) (now pfx genId : String)
    (hN : docs.length ≥ 2)
    (hids : ∀ d ∈ docs, objGet d "id" = none)
    (hfresh : ∀ j, j < docs.length →
      alGet col.idIndex (pfx ++ "_" ++ toString (j + 1)) = none)
    (hnd : ((List.range docs.length).map
      (fun j => pfx ++ "_" ++ toString (j + 1))).Nodup) :
    (∃ newDocs : List Doc,
      (insertOp docs now pfx genId col).1.store = col.store ++ newDocs ∧
      newDocs.length = docs.length ∧
      ∀ j, j < docs.length → objGet (newDocs.getD j []) "id" =
        some (.str (pfx ++ "_" ++ toString (j + 1)))) ∧
    (insertOp docs now pfx genId col).2.success = true ∧
    (insertOp docs now pfx genId col).2.insertedCount = docs.length ∧
    (insertOp docs now pfx genId col).2.updatedCount = 0 ∧
    (docs.length ≤ 20 →
      (insertOp docs now pfx genId col).2.insertedIds =
        some ((List.range docs.length).map (fun j => pfx ++ "_" ++ toString (j + 1)))) ∧
    (docs.length > 20 →
      (insertOp docs now pfx genId col).2.firstId = some (pfx ++ "_" ++ toString 1) ∧
      (insertOp docs now pfx genId col).2.lastId =
        some (pfx ++ "_" ++ toString docs.length) ∧
      (insertOp docs now pfx genId col).2.prefixId = some (pfx ++ "_")) := by
  have hshift : ∀ j : Nat, pfx ++ "_" ++ toString (0 + 1 + j) = pfx ++ "_" ++ toString (j + 1) := by
    intro j
    rw [show 0 + 1 + j = j + 1 by omega]
  obtain ⟨newDocs, hstore, hlen, hid3, hseq, hallGen, hins, hupd⟩ :=
    insert_loop_seq pfx genId now docs
      { col := col, seq := 0, allGen := true, inserted := [], updatedRefs := [] }
      hids
      (fun j hj => by
        show alGet col.idIndex (pfx ++ "_" ++ toString (0 + 1 + j)) = none
        rw [hshift j]
        exact hfresh j hj)
      (by
        show ((List.range docs.length).map
          (fun j => pfx ++ "_" ++ toString (0 + 1 + j))).Nodup
        rw [List.map_congr_left (fun a _ => hshift a)]
        exact hnd)
  have huse : decide (docs.length ≥ 2) = true := decide_eq_true hN
  have heval := insertOp_eval docs now pfx genId col
    (docs.foldl (insertStep true pfx genId now)
      { col := col, seq := 0, allGen := true, inserted := [], updatedRefs := [] })
    (by rw [huse])
  have hIL : (docs.foldl (insertStep true pfx genId now)
      { col := col, seq := 0, allGen := true, inserted := [], updatedRefs := [] }).inserted =
      (List.range docs.length).map (fun j => col.store.length + j) := by
    rw [hins]
    exact List.nil_append _
  have hUPD : (docs.foldl (insertStep true pfx genId now)
      { col := col, seq := 0, allGen := true, inserted := [], updatedRefs := [] }).updatedRefs =
      [] := hupd
  have hAG : (docs.foldl (insertStep true pfx genId now)
      { col := col, seq := 0, allGen := true, inserted := [], updatedRefs := [] }).allGen =
      true := hallGen
  have hST : (docs.foldl (insertStep true pfx genId now)
      { col := col, seq := 0, allGen := true, inserted := [], updatedRefs := [] }).col.store =
      col.store ++ newDocs := hstore
  have hN0 : ((List.range docs.length).map (fun j => col.store.length + j)).length =
      docs.length := by simp
  have hpos : ((List.range docs.length).map (fun j => col.store.length + j)).length > 0 := by
    rw [hN0]; omega
  have hidS : ∀ j, j < docs.length →
      docIdString ((col.store ++ newDocs).getD (col.store.length + j) []) =
        pfx ++ "_" ++ toString (j + 1) := by
    intro j hj
    rw [getD_append_right col.store newDocs j []]
    unfold docIdString
    rw [hid3 j hj]
    show pfx ++ "_" ++ toString (0 + 1 + j) = pfx ++ "_" ++ toString (j + 1)
    rw [show 0 + 1 + j = j + 1 from by omega]
  have hcond : ((List.range docs.length).map (fun j => col.store.length + j)).length > 0 ∨
      ([] : List Nat).length > 0 := Or.inl hpos
  refine ⟨⟨newDocs, ?_, hlen, ?_⟩, ?_, ?_, ?_, ?_, ?_⟩
  · rw [heval, hIL, hUPD, if_pos hcond]
    exact hST
  · intro j hj
    rw [hid3 j hj,
      show 0 + 1 + j = j + 1 from by omega]
  · rw [heval, hIL, hUPD, dif_pos hpos]
    by_cases h20 : ((List.range docs.length).map (fun j => col.store.length + j)).length > 20
    · rw [if_pos h20]
    · rw [if_neg h20]
  · rw [heval, hIL, hUPD, dif_pos hpos]
    by_cases h20 : ((List.range docs.length).map (fun j => col.store.length + j)).length > 20
    · rw [if_pos h20]
      exact hN0
    · rw [if_neg h20]
      exact hN0
  · rw [heval, hIL, hUPD, dif_pos hpos]
    by_cases h20 : ((List.range docs.length).map (fun j => col.store.length + j)).length > 20
    · rw [if_pos h20]
      rfl
    · rw [if_neg h20]
      rfl
  · intro hle
    have h20le : ¬(((List.range docs.length).map
        (fun j => col.store.length + j)).length > 20) := by
      rw [hN0]; omega
    rw [heval, hIL, hUPD]
    rw [dif_pos hpos]
    rw [if_neg h20le]
    rw [if_pos hcond]
    rw [hST]
    refine congrArg some ?_
    rw [List.map_map]
    refine List.map_congr_left ?_
    intro a ha
    simp only [Function.comp]
    exact hidS a (List.mem_range.mp ha)
  · intro hgt
    have h20 : ((List.range docs.length).map
        (fun j => col.store.length + j)).length > 20 := by
      rw [hN0]; omega
    have hhd : ∀ hne, ((List.range docs.length).map
        (fun j => col.store.length + j)).head hne = col.store.length + 0 := by
      intro hne
      rw [List.head_eq_getElem, List.getElem_map, List.getElem_range]
    have hlast : ∀ hne, ((List.range docs.length).map
        (fun j => col.store.length + j)).getLast hne =
          col.store.length + (docs.length - 1) := by
      intro hne
      rw [List.getLast_eq_getElem, List.getElem_map, List.getElem_range, hN0]
    rw [heval, hIL, hUPD, hAG]
    rw [dif_pos hpos]
    rw [if_pos h20]
    rw [if_pos hcond]
    rw [hST]
    refine ⟨?_, ?_, ?_⟩
    · show some _ = _
      rw [hhd]
      exact congrArg some (hidS 0 (by omega))
    · show some _ = _
      rw [hlast]
      refine congrArg some ((hidS (docs.length - 1) (by omega)).trans ?_)
      rw [show docs.length - 1 + 1 = docs.length from by omega]
    · show (if _ ∧ _ then _ else _) = _
      rw [if_pos ⟨rfl, hN⟩]

/-- Witness for `C9_sequential_ids`: two id-less documents inserted into the
empty collection with clock token `"p"`. -/
theorem C9_sequential_ids_witness :
    ([[("a", Value.num 1)], [("b", Value.num 2)]] : List Doc).length ≥ 2 ∧
    (∀ d ∈ ([[("a", Value.num 1)], [("b", Value.num 2)]] : List Doc),
      objGet d "id" = none) ∧
    (∀ j, j < ([[("a", Value.num 1)], [("b", Value.num 2)]] : List Doc).length →
      alGet Col.empty.idIndex ("p" ++ "_" ++ toString (j + 1)) = none) ∧
    ((List.range ([[("a", Value.num 1)], [("b", Value.num 2)]] : List Doc).length).map
      (fun j => "p" ++ "_" ++ toString (j + 1))).Nodup ∧
    ((∃ newDocs : List Doc,
      (insertOp [[("a", Value.num 1)], [("b", Value.num 2)]] "T" "p" "g" Col.empty).1.store =
        Col.empty.store ++ newDocs ∧
      newDocs.length = ([[("a", Value.num 1)], [("b", Value.num 2)]] : List Doc).length ∧
      ∀ j, j < ([[("a", Value.num 1)], [("b", Value.num 2)]] : List Doc).length →
        objGet (newDocs.getD j []) "id" =
          some (.str ("p" ++ "_" ++ toString (j + 1)))) ∧
    (insertOp [[("a", Value.num 1)], [("b", Value.num 2)]] "T" "p" "g" Col.empty).2.success =
      true ∧
    (insertOp [[("a", Value.num 1)], [("b", Value.num 2)]] "T" "p" "g"
      Col.empty).2.insertedCount =
      ([[("a", Value.num 1)], [("b", Value.num 2)]] : List Doc).length ∧
    (insertOp [[("a", Value.num 1)], [("b", Value.num 2)]] "T" "p" "g"
      Col.empty).2.updatedCount = 0 ∧
    (([[("a", Value.num 1)], [("b", Value.num 2)]] : List Doc).length ≤ 20 →
      (insertOp [[("a", Value.num 1)], [("b", Value.num 2)]] "T" "p" "g"
        Col.empty).2.insertedIds =
        some ((List.range ([[("a", Value.num 1)], [("b", Value.num 2)]] : List Doc).length).map
          (fun j => "p" ++ "_" ++ toString (j + 1)))) ∧
    (([[("a", Value.num 1)], [("b", Value.num 2)]] : List Doc).length > 20 →
      (insertOp [[("a", Value.num 1)], [("b", Value.num 2)]] "T" "p" "g"
        Col.empty).2.firstId = some ("p" ++ "_" ++ toString 1) ∧
      (insertOp [[("a", Value.num 1)], [("b", Value.num 2)]] "T" "p" "g"
        Col.empty).2.lastId =
        some ("p" ++ "_" ++ toString ([[("a", Value.num 1)],
          [("b", Value.num 2)]] : List Doc).length) ∧
      (insertOp [[("a", Value.num 1)], [("b", Value.num 2)]] "T" "p" "g"
        Col.empty).2.prefixId = some ("p" ++ "_"))) :=
  ⟨by decide, by intro d hd; fin_cases hd <;> rfl, by decide, by decide,
   C9_sequential_ids Col.empty [[("a", Value.num 1)], [("b", Value.num 2)]] "T" "p" "g"
     (by decide) (by intro d hd; fin_cases hd <;> rfl) (by decide) (by decide)⟩

/-! ## C4 — amended: idIndex exactness under id-preserving operations -/

section C4Fold

variable {κ α β : Type} [DecidableEq κ]

/-- A fold of `alSet` writes whose keys all differ from `k` leaves the
lookup of `k` unchanged. -/
theorem alGet_foldl_alSet_ne (L : List (κ × α)) (m : List (κ × α)) (k : κ)
    (h : ∀ p ∈ L, p.1 ≠ k) :
    alGet (L.foldl (fun acc p => alSet acc p.1 p.2) m) k = alGet m k := by
  induction L generalizing m with
  | nil => rfl
  | cons p rest ih =>
    rw [List.foldl_cons, ih _ (fun q hq => h q (List.mem_cons_of_mem _ hq)),
      alGet_alSet_ne _ _ _ _ (Ne.symm (h p (List.mem_cons_self p rest)))]

/-- `findSome?` over a selector that can only ever produce `v`. -/
theorem findSome?_const (sel : β → Option α) (L : List β) (v : α)
    (hall : ∀ b ∈ L, sel b = none ∨ sel b = some v)
    (hex : ∃ b ∈ L, sel b = some v) :
    L.findSome? sel = some v := by
  induction L with
  | nil => obtain ⟨b, hb, _⟩ := hex; cases hb
  | cons b rest ih =>
    rw [List.findSome?_cons]
    cases hb : sel b with
    | some w =>
      have hh := hall b (List.mem_cons_self b rest)
      rw [hb] at hh
      rcases hh with h | h
      · cases h
      · exact h
    | none =>
      apply ih (fun b' hb' => hall b' (List.mem_cons_of_mem _ hb'))
      obtain ⟨b', hb', hs⟩ := hex
      rcases List.mem_cons.mp hb' with rfl | hm
      · rw [hb] at hs; cases hs
      · exact ⟨b', hm, hs⟩

/-- Lookup after a fold of selective `alSet` writes: the last write with key
`s` wins, otherwise the base map answers. -/
theorem alGet_selective_fold (s : κ) (g : List (κ × α) → β → List (κ × α))
    (f : β → Option (κ × α)) (sel : β → Option α)
    (hg : ∀ m b, g m b = match f b with | some q => alSet m q.1 q.2 | none => m)
    (hsel : ∀ b, sel b =
      match f b with
      | some q => if q.1 = s then some q.2 else none
      | none => none)
    (L : List β) (m : List (κ × α)) :
    alGet (L.foldl g m) s = ((L.reverse.findSome? sel).or (alGet m s)) := by
  induction L generalizing m with
  | nil => rfl
  | cons b rest ih =>
    cases hf : f b with
    | none =>
      have hgb : g m b = m := by rw [hg m b, hf]
      have hselb : sel b = none := by rw [hsel b, hf]
      rw [List.foldl_cons, hgb, ih, List.reverse_cons, List.findSome?_append,
        show List.findSome? sel [b] = none from by
          rw [List.findSome?_cons, hselb]
          rfl,
        Option.or_none]
    | some q =>
      have hgb : g m b = alSet m q.1 q.2 := by rw [hg m b, hf]
      have hselb : sel b = if q.1 = s then some q.2 else none := by rw [hsel b, hf]
      rw [List.foldl_cons, hgb, ih, List.reverse_cons, List.findSome?_append,
        show List.findSome? sel [b] = sel b from by
          rw [List.findSome?_cons]
          cases sel b <;> rfl,
        hselb]
      by_cases hq : q.1 = s
      · subst hq
        rw [if_pos rfl, alGet_alSet_self]
        cases List.findSome? sel rest.reverse <;> rfl
      · rw [if_neg hq, alGet_alSet_ne _ _ _ _ (fun hh => hq hh.symm), Option.or_none]

end C4Fold

/-- An update key that leaves the `id` property alone: dotted keys are judged
by the first segment of the nested walk, plain keys by themselves. -/
def keyAvoidsId (k : String) : Bool :=
  if containsDot k then (jsSplitDot k).headI ≠ "id" else k ≠ "id"

/-- Every entry key of an operator payload leaves `id` alone. -/
def nestAvoidsId (v : Value) : Bool :=
  (jsEntries v).all (fun p => keyAvoidsId p.1)

/-- An update spec that never writes the `id` field: each truthy operator
payload's keys avoid `id`, and — when no operator key is present — the plain
document's keys avoid `id`. -/
def specOk (u : Value) : Bool :=
  (match truthyGet u "$set" with | some v => nestAvoidsId v | none => true) &&
  (match truthyGet u "$unset" with | some v => nestAvoidsId v | none => true) &&
  (match truthyGet u "$inc" with | some v => nestAvoidsId v | none => true) &&
  (match truthyGet u "$push" with | some v => nestAvoidsId v | none => true) &&
  (match truthyGet u "$addToSet" with | some v => nestAvoidsId v | none => true) &&
  (match truthyGet u "$pull" with | some v => nestAvoidsId v | none => true) &&
  (if hasKey u "$set" || hasKey u "$unset" || hasKey u "$inc" ||
      hasKey u "$push" || hasKey u "$pull" || hasKey u "$addToSet" then true
   else nestAvoidsId u)

theorem keyAvoidsId_dot {k : String} (hava : keyAvoidsId k = true)
    (hdot : containsDot k = true) : (jsSplitDot k).headI ≠ "id" := by
  unfold keyAvoidsId at hava
  rw [if_pos hdot] at hava
  exact of_decide_eq_true hava

theorem keyAvoidsId_plain {k : String} (hava : keyAvoidsId k = true)
    (hdot : ¬ containsDot k = true) : k ≠ "id" := by
  unfold keyAvoidsId at hava
  rw [if_neg hdot] at hava
  exact of_decide_eq_true hava

theorem keyAvoidsId_ne {k : String} (hava : keyAvoidsId k = true) : k ≠ "id" := by
  by_cases hdot : containsDot k = true
  · intro hk
    subst hk
    exact absurd hdot (by decide)
  · exact keyAvoidsId_plain hava hdot

/-- A fold of `objSet` writes whose keys all differ from `k` leaves the
lookup of `k` unchanged. -/
theorem objGet_objAssign_ne (d : Doc) (src : List (String × Value)) (k : String)
    (h : ∀ p ∈ src, p.1 ≠ k) :
    objGet (objAssign d src) k = objGet d k := by
  unfold objGet objAssign objSet
  exact alGet_foldl_alSet_ne src d k h

/-- Every leaf update operation on a plain-object container touches only its
own key. -/
theorem applyLeaf_obj_id (fields : List (String × Value)) (k : String) (op : NestOp)
    (hk : k ≠ "id") :
    ∃ f2, applyLeaf (.obj fields) k op = .obj f2 ∧ objGet f2 "id" = objGet fields "id" := by
  have hne : ("id" : String) ≠ k := Ne.symm hk
  cases op with
  | set v => exact ⟨_, rfl, alGet_alSet_ne _ _ _ _ hne⟩
  | unset => exact ⟨_, rfl, alGet_alDel_ne _ _ _ hne⟩
  | inc v => exact ⟨_, rfl, alGet_alSet_ne _ _ _ _ hne⟩
  | push v => exact ⟨_, rfl, alGet_alSet_ne _ _ _ _ hne⟩
  | addToSet v => exact ⟨_, rfl, alGet_alSet_ne _ _ _ _ hne⟩
  | pull v =>
    have hshow : applyLeaf (Value.obj fields) k (.pull v) =
        match jsMember (Value.obj fields) k with
        | some (.arr xs) => vSet (Value.obj fields) k
            (.arr (xs.filter (fun item => !(strictEq item v))))
        | _ => Value.obj fields := rfl
    cases hm : jsMember (Value.obj fields) k with
    | none => exact ⟨fields, by rw [hshow, hm] <;> rfl, rfl⟩
    | some w =>
      cases w with
      | arr xs =>
        exact ⟨objSet fields k (.arr (xs.filter (fun item => !(strictEq item v)))),
          by rw [hshow, hm] <;> rfl, alGet_alSet_ne _ _ _ _ hne⟩
      | null => exact ⟨fields, by rw [hshow, hm] <;> rfl, rfl⟩
      | bool b => exact ⟨fields, by rw [hshow, hm] <;> rfl, rfl⟩
      | num n => exact ⟨fields, by rw [hshow, hm] <;> rfl, rfl⟩
      | str s => exact ⟨fields, by rw [hshow, hm] <;> rfl, rfl⟩
      | obj f => exact ⟨fields, by rw [hshow, hm] <;> rfl, rfl⟩

/-- A nested update whose first path segment is not `id` leaves the
document's `id` property unchanged. -/
theorem docApplyNested_id (d : Doc) (path : String) (op : NestOp)
    (h : (jsSplitDot path).headI ≠ "id") :
    objGet (docApplyNested d path op) "id" = objGet d "id" := by
  unfold docApplyNested
  cases hsp : jsSplitDot path with
  | nil => rfl
  | cons p rest =>
    rw [hsp] at h
    have hp : p ≠ "id" := h
    cases rest with
    | nil =>
      obtain ⟨f2, he, hid⟩ := applyLeaf_obj_id d p op hp
      rw [show applyNested (.obj d) [p] op = applyLeaf (.obj d) p op from rfl, he]
      exact hid
    | cons q rest2 =>
      rw [show applyNested (.obj d) (p :: q :: rest2) op =
        .obj (objSet d p (applyNested (match jsMember (.obj d) p with
          | some (.obj f) => .obj f
          | some (.arr xs) => .arr xs
          | some .null => .null
          | _ => .obj []) (q :: rest2) op)) from rfl]
      exact alGet_alSet_ne _ _ _ _ (Ne.symm hp)

/-- A fold whose every step preserves the `id` property preserves it. -/
theorem foldl_preserves_id (g : Doc → String × Value → Doc)
    (L : List (String × Value))
    (hg : ∀ acc p, p ∈ L → objGet (g acc p) "id" = objGet acc "id")
    (d : Doc) :
    objGet (L.foldl g d) "id" = objGet d "id" := by
  induction L generalizing d with
  | nil => rfl
  | cons p rest ih =>
    rw [List.foldl_cons, ih (fun acc q hq => hg acc q (List.mem_cons_of_mem _ hq)),
      hg d p (List.mem_cons_self p rest)]

theorem nestAvoidsId_key {v : Value} {p : String × Value} (h : nestAvoidsId v = true)
    (hp : p ∈ jsEntries v) : keyAvoidsId p.1 = true := by
  unfold nestAvoidsId at h
  exact List.all_eq_true.mp h p hp

theorem setBlock_id (v : Value) (d : Doc) (h : nestAvoidsId v = true) :
    objGet ((jsEntries v).foldl (fun acc p =>
      if containsDot p.1 then docApplyNested acc p.1 (.set p.2)
      else objSet acc p.1 p.2) d) "id" = objGet d "id" := by
  apply foldl_preserves_id
  intro acc p hp
  have hava := nestAvoidsId_key h hp
  by_cases hdot : containsDot p.1 = true
  · rw [if_pos hdot]
    exact docApplyNested_id _ _ _ (keyAvoidsId_dot hava hdot)
  · rw [if_neg hdot]
    exact alGet_alSet_ne _ _ _ _ (Ne.symm (keyAvoidsId_plain hava hdot))

theorem unsetBlock_id (v : Value) (d : Doc) (h : nestAvoidsId v = true) :
    objGet ((jsEntries v).foldl (fun acc p =>
      if containsDot p.1 then docApplyNested acc p.1 .unset
      else objDel acc p.1) d) "id" = objGet d "id" := by
  apply foldl_preserves_id
  intro acc p hp
  have hava := nestAvoidsId_key h hp
  by_cases hdot : containsDot p.1 = true
  · rw [if_pos hdot]
    exact docApplyNested_id _ _ _ (keyAvoidsId_dot hava hdot)
  · rw [if_neg hdot]
    exact alGet_alDel_ne _ _ _ (Ne.symm (keyAvoidsId_plain hava hdot))

theorem incBlock_id (v : Value) (d : Doc) (h : nestAvoidsId v = true) :
    objGet ((jsEntries v).foldl (fun acc p =>
      if containsDot p.1 then docApplyNested acc p.1 (.inc p.2)
      else
        let base : Value :=
          match objGet acc p.1 with
          | some (.num n) => .num n
          | _ => .num 0
        objSet acc p.1 (jsAdd base p.2)) d) "id" = objGet d "id" := by
  apply foldl_preserves_id
  intro acc p hp
  have hava := nestAvoidsId_key h hp
  by_cases hdot : containsDot p.1 = true
  · rw [if_pos hdot]
    exact docApplyNested_id _ _ _ (keyAvoidsId_dot hava hdot)
  · rw [if_neg hdot]
    exact alGet_alSet_ne _ _ _ _ (Ne.symm (keyAvoidsId_plain hava hdot))

theorem pushBlock_id (v : Value) (d : Doc) (h : nestAvoidsId v = true) :
    objGet ((jsEntries v).foldl (fun acc p =>
      if containsDot p.1 then docApplyNested acc p.1 (.push p.2)
      else
        let xs : List Value :=
          match objGet acc p.1 with
          | some (.arr xs) => xs
          | _ => []
        objSet acc p.1 (.arr (xs ++ [p.2]))) d) "id" = objGet d "id" := by
  apply foldl_preserves_id
  intro acc p hp
  have hava := nestAvoidsId_key h hp
  by_cases hdot : containsDot p.1 = true
  · rw [if_pos hdot]
    exact docApplyNested_id _ _ _ (keyAvoidsId_dot hava hdot)
  · rw [if_neg hdot]
    exact alGet_alSet_ne _ _ _ _ (Ne.symm (keyAvoidsId_plain hava hdot))

theorem addToSetBlock_id (v : Value) (d : Doc) (h : nestAvoidsId v = true) :
    objGet ((jsEntries v).foldl (fun acc p =>
      if containsDot p.1 then docApplyNested acc p.1 (.addToSet p.2)
      else
        let xs : List Value :=
          match objGet acc p.1 with
          | some (.arr xs) => xs
          | _ => []
        match eachOf p.2 with
        | some e =>
          objSet acc p.1 (.arr ((toArrPayload e).foldl
            (fun ys item => if jsIncludes ys item then ys else ys ++ [item]) xs))
        | none =>
          objSet acc p.1 (.arr (if jsIncludes xs p.2 then xs else xs ++ [p.2]))) d) "id" =
      objGet d "id" := by
  apply foldl_preserves_id
  intro acc p hp
  have hava := nestAvoidsId_key h hp
  by_cases hdot : containsDot p.1 = true
  · rw [if_pos hdot]
    exact docApplyNested_id _ _ _ (keyAvoidsId_dot hava hdot)
  · rw [if_neg hdot]
    cases eachOf p.2 with
    | some e => exact alGet_alSet_ne _ _ _ _ (Ne.symm (keyAvoidsId_plain hava hdot))
    | none => exact alGet_alSet_ne _ _ _ _ (Ne.symm (keyAvoidsId_plain hava hdot))

theorem pullBlock_id (v : Value) (d : Doc) (h : nestAvoidsId v = true) :
    objGet ((jsEntries v).foldl (fun acc p =>
      if containsDot p.1 then docApplyNested acc p.1 (.pull p.2)
      else
        match objGet acc p.1 with
        | some (.arr xs) => objSet acc p.1 (.arr (xs.filter (pullKeep p.2)))
        | _ => acc) d) "id" = objGet d "id" := by
  apply foldl_preserves_id
  intro acc p hp
  have hava := nestAvoidsId_key h hp
  by_cases hdot : containsDot p.1 = true
  · rw [if_pos hdot]
    exact docApplyNested_id _ _ _ (keyAvoidsId_dot hava hdot)
  · rw [if_neg hdot]
    cases hm : objGet acc p.1 with
    | none => rfl
    | some w =>
      cases w with
      | arr xs => exact alGet_alSet_ne _ _ _ _ (Ne.symm (keyAvoidsId_plain hava hdot))
      | null => rfl
      | bool b => rfl
      | num n => rfl
      | str s => rfl
      | obj f => rfl

/-- `applyUpdateToDoc` never changes the `id` property of the document when
the spec avoids `id` (`specOk`). -/
theorem applyUpdateToDoc_id (d : Doc) (u : Value) (now : String)
    (h : specOk u = true) :
    objGet (applyUpdateToDoc d u now) "id" = objGet d "id" := by
  unfold specOk at h
  rw [Bool.and_eq_true, Bool.and_eq_true, Bool.and_eq_true, Bool.and_eq_true,
    Bool.and_eq_true, Bool.and_eq_true] at h
  obtain ⟨⟨⟨⟨⟨⟨hset, hunset⟩, hinc⟩, hpush⟩, haddToSet⟩, hpull⟩, hplain⟩ := h
  unfold applyUpdateToDoc
  by_cases hroot : (hasKey u "$set" || hasKey u "$unset" || hasKey u "$inc" ||
      hasKey u "$push" || hasKey u "$pull" || hasKey u "$addToSet") = true
  · simp only [hroot, if_true]
    refine Eq.trans (alGet_alSet_ne _ _ _ _ (by decide)) ?_
    have hS : ∀ d' : Doc, objGet (match truthyGet u "$set" with
        | some v => (jsEntries v).foldl (fun acc p =>
            if containsDot p.1 then docApplyNested acc p.1 (.set p.2)
            else objSet acc p.1 p.2) d'
        | none => d') "id" = objGet d' "id" := by
      intro d'
      cases hK : truthyGet u "$set" with
      | none => rfl
      | some v =>
        have hv : nestAvoidsId v = true := by rw [hK] at hset; exact hset
        exact setBlock_id v d' hv
    have hU : ∀ d' : Doc, objGet (match truthyGet u "$unset" with
        | some v => (jsEntries v).foldl (fun acc p =>
            if containsDot p.1 then docApplyNested acc p.1 .unset
            else objDel acc p.1) d'
        | none => d') "id" = objGet d' "id" := by
      intro d'
      cases hK : truthyGet u "$unset" with
      | none => rfl
      | some v =>
        have hv : nestAvoidsId v = true := by rw [hK] at hunset; exact hunset
        exact unsetBlock_id v d' hv
    have hI : ∀ d' : Doc, objGet (match truthyGet u "$inc" with
        | some v => (jsEntries v).foldl (fun acc p =>
            if containsDot p.1 then docApplyNested acc p.1 (.inc p.2)
            else
              let base : Value :=
                match objGet acc p.1 with
                | some (.num n) => .num n
                | _ => .num 0
              objSet acc p.1 (jsAdd base p.2)) d'
        | none => d') "id" = objGet d' "id" := by
      intro d'
      cases hK : truthyGet u "$inc" with
      | none => rfl
      | some v =>
        have hv : nestAvoidsId v = true := by rw [hK] at hinc; exact hinc
        exact incBlock_id v d' hv
    have hP : ∀ d' : Doc, objGet (match truthyGet u "$push" with
        | some v => (jsEntries v).foldl (fun acc p =>
            if containsDot p.1 then docApplyNested acc p.1 (.push p.2)
            else
              let xs : List Value :=
                match objGet acc p.1 with
                | some (.arr xs) => xs
                | _ => []
              objSet acc p.1 (.arr (xs ++ [p.2]))) d'
        | none => d') "id" = objGet d' "id" := by
      intro d'
      cases hK : truthyGet u "$push" with
      | none => rfl
      | some v =>
        have hv : nestAvoidsId v = true := by rw [hK] at hpush; exact hpush
        exact pushBlock_id v d' hv
    have hA : ∀ d' : Doc, objGet (match truthyGet u "$addToSet" with
        | some v => (jsEntries v).foldl (fun acc p =>
            if containsDot p.1 then docApplyNested acc p.1 (.addToSet p.2)
            else
              let xs : List Value :=
                match objGet acc p.1 with
                | some (.arr xs) => xs
                | _ => []
              match eachOf p.2 with
              | some e =>
                objSet acc p.1 (.arr ((toArrPayload e).foldl
                  (fun ys item => if jsIncludes ys item then ys else ys ++ [item]) xs))
              | none =>
                objSet acc p.1 (.arr (if jsIncludes xs p.2 then xs else xs ++ [p.2]))) d'
        | none => d') "id" = objGet d' "id" := by
      intro d'
      cases hK : truthyGet u "$addToSet" with
      | none => rfl
      | some v =>
        have hv : nestAvoidsId v = true := by rw [hK] at haddToSet; exact haddToSet
        exact addToSetBlock_id v d' hv
    have hL : ∀ d' : Doc, objGet (match truthyGet u "$pull" with
        | some v => (jsEntries v).foldl (fun acc p =>
            if containsDot p.1 then docApplyNested acc p.1 (.pull p.2)
            else
              match objGet acc p.1 with
              | some (.arr xs) => objSet acc p.1 (.arr (xs.filter (pullKeep p.2)))
              | _ => acc) d'
        | none => d') "id" = objGet d' "id" := by
      intro d'
      cases hK : truthyGet u "$pull" with
      | none => rfl
      | some v =>
        have hv : nestAvoidsId v = true := by rw [hK] at hpull; exact hpull
        exact pullBlock_id v d' hv
    exact (hL _).trans ((hA _).trans ((hP _).trans ((hI _).trans ((hU _).trans (hS d)))))
  · simp only [hroot, if_false]
    refine Eq.trans (alGet_alSet_ne _ _ _ _ (by decide)) ?_
    rw [if_neg hroot] at hplain
    exact objGet_objAssign_ne d (jsEntries u) "id"
      (fun p hp => keyAvoidsId_ne (nestAvoidsId_key hplain hp))

/-- A well-formed stored id: absent, or a nonempty string (inserted
documents always carry string ids; the empty string is falsy and would be
skipped by the `delete` rebuild). -/
def goodId (d : Doc) : Bool :=
  match objGet d "id" with
  | none => true
  | some (.str s) => s ≠ ""
  | some _ => false

/-- The strengthened induction invariant behind idIndex exactness: `data`
references are valid and duplicate-free, every stored document's id is a
nonempty string (or absent), and `idIndex` is exact. -/
def idxInv (col : Col) : Prop :=
  (∀ r ∈ col.data, r < col.store.length) ∧
  col.data.Nodup ∧
  (∀ i ∈ List.range col.data.length, goodId (col.doc (col.data.getD i 0)) = true) ∧
  idxExact col

/-- An insert-safe document: a truthy supplied id must stringify nonempty
(`String([])` is `""`, truthy-but-empty). -/
def insDocOk (d : Doc) : Bool :=
  match objGet d "id" with
  | some v => !(jsTruthy v) || jsToString v ≠ ""
  | none => true

/-- The id-discipline restriction per operation, under which the spec's
exactness invariant is provable: inserted ids are usable, and update specs
(after `update`'s `$set` wrapping) never write the `id` field.  Reads,
deletes and index creation are unrestricted. -/
def okOp : Op → Bool
  | .ins docs _ _ genId => docs.all insDocOk && genId ≠ ""
  | .upd _ u _ _ _ =>
      if (truthyGet u "$set").isSome ∨ (truthyGet u "$inc").isSome ∨
          (truthyGet u "$push").isSome ∨ (truthyGet u "$pull").isSome ∨
          (truthyGet u "$unset").isSome ∨ (truthyGet u "$addToSet").isSome
      then specOk u else specOk (.obj [("$set", u)])
  | .updById _ u _ _ => specOk u
  | .del _ => true
  | .delById _ => true
  | .mkIndex _ => true
  | .findQ _ => true
  | .countQ _ => true

theorem getD_set_self {α : Type} (l : List α) (i : Nat) (a d : α) (h : i < l.length) :
    (l.set i a).getD i d = a := by
  rw [List.getD_eq_getElem?_getD, List.getElem?_set_self (by simpa using h)]
  rfl

theorem getD_set_ne {α : Type} (l : List α) (i j : Nat) (a d : α) (h : i ≠ j) :
    (l.set i a).getD j d = l.getD j d := by
  rw [List.getD_eq_getElem?_getD, List.getElem?_set_ne h, ← List.getD_eq_getElem?_getD]

/-- `idxInv` transfers along a state change that keeps `data` and `idIndex`
and rewrites stored documents without touching their `id` properties. -/
theorem idxInv_of_id_eq (col col2 : Col)
    (hdata : col2.data = col.data) (hidx : col2.idIndex = col.idIndex)
    (hlen : col2.store.length = col.store.length)
    (hid : ∀ r : Nat, objGet (col2.store.getD r []) "id" =
      objGet (col.store.getD r []) "id")
    (h : idxInv col) : idxInv col2 := by
  obtain ⟨hvalid, hnd, hgood, hex⟩ := h
  have hdoc : ∀ r, docIdStr (col2.doc r) = docIdStr (col.doc r) := by
    intro r
    unfold docIdStr Col.doc
    rw [hid r]
  have hgood2 : ∀ r, goodId (col2.doc r) = goodId (col.doc r) := by
    intro r
    unfold goodId Col.doc
    rw [hid r]
  refine ⟨?_, ?_, ?_, ?_, ?_⟩
  · intro r hr
    rw [hlen]
    exact hvalid r (hdata ▸ hr)
  · rw [hdata]
    exact hnd
  · intro i hi
    rw [hgood2, hdata]
    exact hgood i (by rwa [hdata] at hi)
  · intro i hi s hs
    rw [hidx]
    apply hex.1 i (by rwa [hdata] at hi)
    rwa [hdoc, hdata] at hs
  · intro q hq j hj
    rw [hidx] at hq hj
    obtain ⟨hj1, hj2⟩ := hex.2 q hq j hj
    refine ⟨by rwa [hdata], ?_⟩
    rw [hdoc, hdata]
    exact hj2

/-- `find` changes only the cache. -/
theorem findOp_state (re : String → String → String → Bool) (col : Col) (f : Value) :
    ∃ c2, (findOp re col f).1 = { col with cache := c2 } := by
  unfold findOp
  split
  · exact ⟨col.cache, rfl⟩
  · split
    · exact ⟨col.cache, rfl⟩
    · rcases hap : applyFilters re col.store col.cache col.data f with ⟨refs, cache2⟩
      refine ⟨cache2, ?_⟩
      by_cases hr : refs.length = 0
      · simp only [if_pos hr]
      · simp only [if_neg hr]

/-- `count` changes only the cache. -/
theorem countOp_state (re : String → String → String → Bool) (col : Col) (f : Value) :
    ∃ c2, (countOp re col f).1 = { col with cache := c2 } := by
  unfold countOp
  split
  · exact ⟨col.cache, rfl⟩
  · rcases hap : qeCount re col.store col.cache col.data f with ⟨n, cache2⟩
    exact ⟨cache2, rfl⟩

/-- `createIndex` changes only the secondary indexes. -/
theorem createIndexOp_state (col : Col) (d : Doc) :
    ∃ ixs, (createIndexOp col d).1 = { col with indexes := ixs } := by
  unfold createIndexOp
  by_cases h1 : (d.map (·.1)).isEmpty = true
  · simp only [if_pos h1]
    exact ⟨col.indexes, rfl⟩
  · simp only [if_neg h1]
    by_cases h2 : ¬ (d.all (fun p => p.2 = Value.num 1 ∨ p.2 = Value.num (-1))) = true
    · simp only [if_pos h2]
      exact ⟨col.indexes, rfl⟩
    · simp only [if_neg h2]
      by_cases h3 : (alGet col.indexes (String.intercalate "|"
          (d.map (fun p => p.1 ++ ":" ++ jsToString p.2)))).isSome = true
      · simp only [if_pos h3]
        exact ⟨col.indexes, rfl⟩
      · simp only [if_neg h3]
        exact ⟨_, rfl⟩

/-- `idxInv` ignores the cache. -/
theorem idxInv_cache (col : Col) (c2 : List (String × List Nat))
    (h : idxInv col) : idxInv { col with cache := c2 } := h

/-- `idxInv` ignores the secondary indexes. -/
theorem idxInv_indexes (col : Col) (ixs : List (String × SecIndex))
    (h : idxInv col) : idxInv { col with indexes := ixs } := h

/-- `idxInv` ignores the dirty flag. -/
theorem idxInv_dirty (col : Col) (b : Bool)
    (h : idxInv col) : idxInv { col with dirty := b } := h

/-- The `update` store fold keeps the store length and every document's
`id`. -/
theorem updFold_pres (re : String → String → String → Bool) (store0 : List Doc)
    (filters nrm : Value) (now : String) (hok : specOk nrm = true)
    (L : List Nat) :
    ∀ acc : List Doc × List Nat,
      acc.1.length = store0.length →
      (∀ r, objGet (acc.1.getD r []) "id" = objGet (store0.getD r []) "id") →
      (L.foldl (fun (acc : List Doc × List Nat) ref =>
          if matchesFilter re (acc.1.getD ref []) filters then
            (acc.1.set ref (applyUpdateToDoc (acc.1.getD ref []) nrm now),
             acc.2 ++ [ref])
          else acc) acc).1.length = store0.length ∧
      (∀ r, objGet ((L.foldl (fun (acc : List Doc × List Nat) ref =>
          if matchesFilter re (acc.1.getD ref []) filters then
            (acc.1.set ref (applyUpdateToDoc (acc.1.getD ref []) nrm now),
             acc.2 ++ [ref])
          else acc) acc).1.getD r []) "id" = objGet (store0.getD r []) "id") := by
  induction L with
  | nil => exact fun acc h1 h2 => ⟨h1, h2⟩
  | cons ref rest ih =>
    intro acc h1 h2
    rw [List.foldl_cons]
    apply ih
    · by_cases hm : matchesFilter re (acc.1.getD ref []) filters = true
      · simp only [if_pos hm, List.length_set]
        exact h1
      · simp only [if_neg hm]
        exact h1
    · intro r
      by_cases hm : matchesFilter re (acc.1.getD ref []) filters = true
      · simp only [if_pos hm]
        by_cases hlt : ref < acc.1.length
        · by_cases hr : ref = r
          · subst hr
            rw [getD_set_self _ _ _ _ hlt, applyUpdateToDoc_id _ _ _ hok]
            exact h2 ref
          · rw [getD_set_ne _ _ _ _ _ hr]
            exact h2 r
        · rw [List.set_eq_of_length_le (by omega)]
          exact h2 r
      · simp only [if_neg hm]
        exact h2 r

/-- `update` with an id-avoiding spec preserves the invariant. -/
theorem updateOp_pres (re : String → String → String → Bool) (col : Col)
    (f u : Value) (rt : String) (mr : Nat) (now : String)
    (hok : okOp (.upd f u rt mr now) = true)
    (h : idxInv col) : idxInv (updateOp re col f u rt mr now).1 := by
  have hok2 : (if (truthyGet u "$set").isSome ∨ (truthyGet u "$inc").isSome ∨
      (truthyGet u "$push").isSome ∨ (truthyGet u "$pull").isSome ∨
      (truthyGet u "$unset").isSome ∨ (truthyGet u "$addToSet").isSome
      then specOk u else specOk (.obj [("$set", u)])) = true := hok
  simp only [updateOp]
  by_cases hc : (truthyGet u "$set").isSome ∨ (truthyGet u "$inc").isSome ∨
      (truthyGet u "$push").isSome ∨ (truthyGet u "$pull").isSome ∨
      (truthyGet u "$unset").isSome ∨ (truthyGet u "$addToSet").isSome
  · rw [if_pos hc] at hok2
    simp only [if_pos hc]
    have hfold := updFold_pres re col.store f u now hok2 col.data (col.store, []) rfl
      (fun r => rfl)
    split
    · exact h
    · exact idxInv_of_id_eq col _ rfl rfl hfold.1 hfold.2 h
  · rw [if_neg hc] at hok2
    simp only [if_neg hc]
    have hfold := updFold_pres re col.store f (.obj [("$set", u)]) now hok2 col.data
      (col.store, []) rfl (fun r => rfl)
    split
    · exact h
    · exact idxInv_of_id_eq col _ rfl rfl hfold.1 hfold.2 h

/-- `updateById` with an id-avoiding spec preserves the invariant. -/
theorem updateByIdOp_pres (re : String → String → String → Bool) (col : Col)
    (id : String) (u : Value) (rt : String) (now : String)
    (hok : okOp (.updById id u rt now) = true)
    (h : idxInv col) : idxInv (updateByIdOp re col id u rt now).1 := by
  have hok' : specOk u = true := hok
  simp only [updateByIdOp]
  split
  · exact h
  · rename_i i heq
    refine idxInv_of_id_eq col _ rfl rfl (List.length_set _ _ _) ?_ h
    intro r
    by_cases hlt : col.data.getD i 0 < col.store.length
    · by_cases hr : col.data.getD i 0 = r
      · subst hr
        rw [getD_set_self _ _ _ _ hlt, applyUpdateToDoc_id _ _ _ hok']
      · rw [getD_set_ne _ _ _ _ _ hr]
    · rw [List.set_eq_of_length_le (by omega)]

theorem docIdStr_eq_some {d : Doc} {s : String} (h : docIdStr d = some s) :
    objGet d "id" = some (.str s) := by
  unfold docIdStr at h
  cases ho : objGet d "id" with
  | none =>
    rw [ho] at h
    have h2 : (none : Option String) = some s := h
    cases h2
  | some v =>
    rw [ho] at h
    cases v with
    | str s' =>
      have h2 : (some s' : Option String) = some s := h
      rw [Option.some.inj h2]
    | null => exact absurd (show (none : Option String) = some s from h) (by simp)
    | bool b => exact absurd (show (none : Option String) = some s from h) (by simp)
    | num n => exact absurd (show (none : Option String) = some s from h) (by simp)
    | arr xs => exact absurd (show (none : Option String) = some s from h) (by simp)
    | obj f => exact absurd (show (none : Option String) = some s from h) (by simp)

theorem goodId_str {d : Doc} {v : Value} (hg : goodId d = true)
    (ho : objGet d "id" = some v) (ht : jsTruthy v = true) :
    ∃ s, v = .str s ∧ s ≠ "" ∧ docIdStr d = some s := by
  unfold goodId at hg
  rw [ho] at hg
  cases v with
  | str s =>
    refine ⟨s, rfl, of_decide_eq_true (show decide (s ≠ "") = true from hg), ?_⟩
    unfold docIdStr
    rw [ho]
  | null => exact absurd (show (false : Bool) = true from hg) (by decide)
  | bool b => exact absurd (show (false : Bool) = true from hg) (by decide)
  | num n => exact absurd (show (false : Bool) = true from hg) (by decide)
  | arr xs => exact absurd (show (false : Bool) = true from hg) (by decide)
  | obj f => exact absurd (show (false : Bool) = true from hg) (by decide)

/-- Under exactness, two `data` positions carrying the same id coincide. -/
theorem ids_inj (col : Col) (h : idxInv col) {i j : Nat} {s : String}
    (hi : i < col.data.length) (hj : j < col.data.length)
    (hsi : docIdStr (col.doc (col.data.getD i 0)) = some s)
    (hsj : docIdStr (col.doc (col.data.getD j 0)) = some s) : i = j := by
  have h1 := h.2.2.2.1 i (List.mem_range.mpr hi) s (by rw [hsi]; simp)
  have h2 := h.2.2.2.1 j (List.mem_range.mpr hj) s (by rw [hsj]; simp)
  rw [h1] at h2
  exact Option.some.inj h2

/-- The `delete` idIndex rebuild, characterised: the lookup of `s` is the
last position in `dataRefs` whose document carries the truthy id `s`. -/
theorem alGet_rebuildIdIndex (store : List Doc) (d2 : List Nat) (s : String) :
    alGet (rebuildIdIndex store d2) s =
      d2.enum.reverse.findSome? (fun p =>
        match objGet (store.getD p.2 []) "id" with
        | some v => if jsTruthy v then (if jsToString v = s then some p.1 else none)
            else none
        | none => none) := by
  have hchar := alGet_selective_fold s
    (fun m (p : Nat × Nat) => match objGet (store.getD p.2 []) "id" with
      | some v => if jsTruthy v then alSet m (jsToString v) p.1 else m
      | none => m)
    (fun p => match objGet (store.getD p.2 []) "id" with
      | some v => if jsTruthy v then some (jsToString v, p.1) else none
      | none => none)
    (fun p => match objGet (store.getD p.2 []) "id" with
      | some v => if jsTruthy v then (if jsToString v = s then some p.1 else none)
          else none
      | none => none)
    (by
      intro m p
      beta_reduce
      cases ho : objGet (store.getD p.2 []) "id" with
      | none => rfl
      | some v =>
        by_cases ht : jsTruthy v = true
        · simp only [if_pos ht]
        · simp only [if_neg ht])
    (by
      intro p
      beta_reduce
      cases ho : objGet (store.getD p.2 []) "id" with
      | none => rfl
      | some v =>
        by_cases ht : jsTruthy v = true
        · simp only [if_pos ht]
        · simp only [if_neg ht])
    d2.enum []
  unfold rebuildIdIndex
  rw [hchar, alGet_nil, Option.or_none]

/-- Rebuilding `idIndex` over a duplicate-free selection of `data` restores
the full invariant (the `delete` path). -/
theorem idxInv_rebuild (col : Col) (d2 : List Nat)
    (hsub : List.Sublist d2 col.data)
    (h : idxInv col) :
    idxInv { col with
             data := d2,
             idIndex := rebuildIdIndex col.store d2,
             dirty := true } := by
  obtain ⟨hvalid, hnd, hgood, hex⟩ := h
  have hnd2 : d2.Nodup := List.Nodup.sublist hsub hnd
  have hold : ∀ k, k < d2.length →
      ∃ jk, jk < col.data.length ∧ col.data.getD jk 0 = d2.getD k 0 := by
    intro k hk
    have hmem2 : d2.getD k 0 ∈ col.data := hsub.subset (by
      rw [List.getD_eq_getElem _ _ hk]
      exact List.getElem_mem hk)
    obtain ⟨jk, hjk, hje⟩ := List.mem_iff_getElem.mp hmem2
    exact ⟨jk, hjk, by rw [List.getD_eq_getElem _ _ hjk, hje]⟩
  have hgood2 : ∀ k, k < d2.length → goodId (col.doc (d2.getD k 0)) = true := by
    intro k hk
    obtain ⟨jk, hjk, hje⟩ := hold k hk
    rw [← hje]
    exact hgood jk (List.mem_range.mpr hjk)
  have hdist : ∀ k1 k2 s, k1 < d2.length → k2 < d2.length →
      docIdStr (col.doc (d2.getD k1 0)) = some s →
      docIdStr (col.doc (d2.getD k2 0)) = some s → k1 = k2 := by
    intro k1 k2 s hk1 hk2 hs1 hs2
    obtain ⟨j1, hj1, he1⟩ := hold k1 hk1
    obtain ⟨j2, hj2, he2⟩ := hold k2 hk2
    have hjj : j1 = j2 := ids_inj col ⟨hvalid, hnd, hgood, hex⟩ hj1 hj2
      (by rw [he1]; exact hs1) (by rw [he2]; exact hs2)
    have hre : d2.getD k1 0 = d2.getD k2 0 := by rw [← he1, ← he2, hjj]
    rw [List.getD_eq_getElem _ _ hk1, List.getD_eq_getElem _ _ hk2] at hre
    exact (List.Nodup.getElem_inj_iff hnd2).mp hre
  refine ⟨?_, ?_, ?_, ?_, ?_⟩
  · intro r hr
    exact hvalid r (hsub.subset hr)
  · exact hnd2
  · intro i hi
    exact hgood2 i (List.mem_range.mp hi)
  · intro i hi s hs
    have hi' : i < d2.length := List.mem_range.mp hi
    have hs' : s ∈ (docIdStr (col.doc (d2.getD i 0))).toList := hs
    have hds : docIdStr (col.doc (d2.getD i 0)) = some s := by
      cases hd : docIdStr (col.doc (d2.getD i 0)) with
      | none => rw [hd] at hs'; cases hs'
      | some s' =>
        rw [hd] at hs'
        simp only [Option.toList_some, List.mem_singleton] at hs'
        exact congrArg some hs'.symm
    show alGet (rebuildIdIndex col.store d2) s = some i
    rw [alGet_rebuildIdIndex]
    apply findSome?_const
    · intro p hp
      rw [List.mem_reverse] at hp
      have hplt : p.1 < d2.length := List.fst_lt_of_mem_enum hp
      have hpref : d2.getD p.1 0 = p.2 := by
        have hep := List.mem_enum_iff_getElem?.mp hp
        rw [List.getD_eq_getElem?_getD, hep]
        rfl
      cases ho : objGet (col.store.getD p.2 []) "id" with
      | none => exact Or.inl rfl
      | some v =>
        by_cases ht : jsTruthy v = true
        · have hg := hgood2 p.1 hplt
          rw [hpref] at hg
          obtain ⟨s', hv, hne, hdoc⟩ := goodId_str hg ho ht
          subst hv
          by_cases hss : s' = s
          · right
            have hpi : p.1 = i := hdist p.1 i s hplt hi'
              (by rw [hpref]; rw [show docIdStr (col.doc p.2) = some s' from hdoc, hss])
              hds
            show (if jsTruthy (Value.str s') = true then
              (if jsToString (Value.str s') = s then some p.1 else none) else none) = some i
            rw [if_pos ht, if_pos (show jsToString (Value.str s') = s from hss), hpi]
          · left
            show (if jsTruthy (Value.str s') = true then
              (if jsToString (Value.str s') = s then some p.1 else none) else none) = none
            rw [if_pos ht, if_neg (show ¬ jsToString (Value.str s') = s from hss)]
        · left
          show (if jsTruthy v = true then
            (if jsToString v = s then some p.1 else none) else none) = none
          rw [if_neg ht]
    · refine ⟨(i, d2.getD i 0), ?_, ?_⟩
      · rw [List.mem_reverse, List.mem_enum_iff_getElem?]
        rw [List.getElem?_eq_getElem hi', List.getD_eq_getElem _ _ hi']
      · have ho : objGet (col.store.getD (d2.getD i 0) []) "id" = some (.str s) :=
          docIdStr_eq_some hds
        have hg := hgood2 i hi'
        have hne : s ≠ "" := by
          unfold goodId at hg
          rw [show objGet (col.doc (d2.getD i 0)) "id" = some (.str s) from ho] at hg
          exact of_decide_eq_true (show decide (s ≠ "") = true from hg)
        rw [show objGet (col.store.getD (d2.getD i 0) []) "id" = some (.str s) from ho]
        show (if jsTruthy (Value.str s) = true then
          (if jsToString (Value.str s) = s then some i else none) else none) = some i
        rw [if_pos (show jsTruthy (Value.str s) = true from decide_eq_true hne),
          if_pos (show jsToString (Value.str s) = s from rfl)]
  · intro q hq j hj
    have hj' : j ∈ (alGet (rebuildIdIndex col.store d2) q.1).toList := hj
    have halg : alGet (rebuildIdIndex col.store d2) q.1 = some j := by
      cases hv : alGet (rebuildIdIndex col.store d2) q.1 with
      | none => rw [hv] at hj'; cases hj'
      | some j' =>
        rw [hv] at hj'
        simp only [Option.toList_some, List.mem_singleton] at hj'
        exact congrArg some hj'.symm
    rw [alGet_rebuildIdIndex] at halg
    obtain ⟨p, hp, hsel⟩ := List.exists_of_findSome?_eq_some halg
    rw [List.mem_reverse] at hp
    have hplt : p.1 < d2.length := List.fst_lt_of_mem_enum hp
    have hpref : d2.getD p.1 0 = p.2 := by
      have hep := List.mem_enum_iff_getElem?.mp hp
      rw [List.getD_eq_getElem?_getD, hep]
      rfl
    cases ho : objGet (col.store.getD p.2 []) "id" with
    | none =>
      rw [ho] at hsel
      exact absurd (show (none : Option Nat) = some j from hsel) (by simp)
    | some v =>
      rw [ho] at hsel
      by_cases ht : jsTruthy v = true
      · have hg := hgood2 p.1 hplt
        rw [hpref] at hg
        obtain ⟨s', hv', hne, hdoc⟩ := goodId_str hg ho ht
        subst hv'
        have hsel2 : (if jsTruthy (Value.str s') = true then
            (if jsToString (Value.str s') = q.1 then some p.1 else none) else none) =
            some j := hsel
        rw [if_pos ht] at hsel2
        by_cases hss : jsToString (Value.str s') = q.1
        · rw [if_pos hss] at hsel2
          have hpj : p.1 = j := Option.some.inj hsel2
          subst hpj
          refine ⟨hplt, ?_⟩
          show docIdStr (col.doc (d2.getD p.1 0)) = some q.1
          rw [hpref]
          exact (show docIdStr (col.doc p.2) = some s' from hdoc).trans
            (by rw [show s' = q.1 from hss])
        · rw [if_neg hss] at hsel2
          cases hsel2
      · have hsel2 : (if jsTruthy v = true then
            (if jsToString v = q.1 then some p.1 else none) else none) = some j := hsel
        rw [if_neg ht] at hsel2
        cases hsel2

/-- `delete` preserves the invariant (the rebuild makes idIndex exact for the
surviving documents). -/
theorem deleteOp_pres (re : String → String → String → Bool) (col : Col) (f : Value)
    (h : idxInv col) : idxInv (deleteOp re col f).1 := by
  simp only [deleteOp]
  split
  · exact h
  · exact idxInv_rebuild col _ (List.filter_sublist _) h

theorem exists_key_of_alGet_some {κ α : Type} [DecidableEq κ] {m : List (κ × α)}
    {k : κ} {v : α} (h : alGet m k = some v) : ∃ q ∈ m, q.1 = k := by
  unfold alGet at h
  cases hf : m.find? (fun p => p.1 = k) with
  | none =>
    rw [hf] at h
    simp at h
  | some q =>
    have hq := List.find?_some hf
    exact ⟨q, List.mem_of_find?_eq_some hf, of_decide_eq_true hq⟩

/-- The `deleteById` renumbering, characterised: positions from the splice
point onward are rewritten from the new `data`, earlier keys answer from the
base map. -/
theorem alGet_renumberFrom (store : List Doc) (d2 : List Nat)
    (idx0 : List (String × Nat)) (start : Nat) (s : String) :
    alGet (renumberFrom store d2 idx0 start) s =
      ((d2.enum.reverse.findSome? (fun p =>
        if p.1 ≥ start then
          match objGet (store.getD p.2 []) "id" with
          | some v => if jsTruthy v then (if jsToString v = s then some p.1 else none)
              else none
          | none => none
        else none)).or (alGet idx0 s)) := by
  have hchar := alGet_selective_fold s
    (fun m (p : Nat × Nat) => if p.1 ≥ start then
        match objGet (store.getD p.2 []) "id" with
        | some v => if jsTruthy v then alSet m (jsToString v) p.1 else m
        | none => m
      else m)
    (fun p => if p.1 ≥ start then
        match objGet (store.getD p.2 []) "id" with
        | some v => if jsTruthy v then some (jsToString v, p.1) else none
        | none => none
      else none)
    (fun p => if p.1 ≥ start then
        match objGet (store.getD p.2 []) "id" with
        | some v => if jsTruthy v then (if jsToString v = s then some p.1 else none)
            else none
        | none => none
      else none)
    (by
      intro m p
      beta_reduce
      by_cases hge : p.1 ≥ start
      · simp only [if_pos hge]
        cases ho : objGet (store.getD p.2 []) "id" with
        | none => rfl
        | some v =>
          by_cases ht : jsTruthy v = true
          · simp only [if_pos ht]
          · simp only [if_neg ht]
      · simp only [if_neg hge])
    (by
      intro p
      beta_reduce
      by_cases hge : p.1 ≥ start
      · simp only [if_pos hge]
        cases ho : objGet (store.getD p.2 []) "id" with
        | none => rfl
        | some v =>
          by_cases ht : jsTruthy v = true
          · simp only [if_pos ht]
          · simp only [if_neg ht]
      · simp only [if_neg hge])
    d2.enum idx0
  unfold renumberFrom
  rw [hchar]

/-- The state `deleteById` leaves behind — splice, idIndex delete, renumber
from the splice point — satisfies the invariant. -/
theorem idxInv_deleteById (col : Col) (id : String) (i : Nat)
    (ixs : List (String × SecIndex))
    (hidx : alGet col.idIndex id = some i)
    (h : idxInv col) :
    idxInv { col with
             data := col.data.eraseIdx i,
             idIndex := renumberFrom col.store (col.data.eraseIdx i)
               (alDel col.idIndex id) i,
             indexes := ixs,
             dirty := true } := by
  obtain ⟨hvalid, hnd, hgood, hex⟩ := h
  obtain ⟨q, hqmem, hqid⟩ := exists_key_of_alGet_some hidx
  have hse := hex.2 q hqmem i (by rw [hqid, hidx]; simp)
  obtain ⟨hilt, hidoc⟩ := hse
  rw [hqid] at hidoc
  have hlen2 : (col.data.eraseIdx i).length = col.data.length - 1 := by
    rw [List.length_eraseIdx]
    rw [if_pos hilt]
  have hlow : ∀ j, j < i → j < (col.data.eraseIdx i).length →
      (col.data.eraseIdx i).getD j 0 = col.data.getD j 0 := by
    intro j hji hj
    rw [List.getD_eq_getElem _ _ hj,
      List.getD_eq_getElem _ _ (show j < col.data.length by omega)]
    exact List.getElem_eraseIdx_of_lt _ _ _ hj hji
  have hhigh : ∀ j, i ≤ j → j < (col.data.eraseIdx i).length →
      (col.data.eraseIdx i).getD j 0 = col.data.getD (j + 1) 0 := by
    intro j hij hj
    rw [List.getD_eq_getElem _ _ hj,
      List.getD_eq_getElem _ _ (show j + 1 < col.data.length by
        rw [hlen2] at hj; omega)]
    exact List.getElem_eraseIdx_of_ge _ _ _ hj hij
  have hnd2 : (col.data.eraseIdx i).Nodup :=
    List.Nodup.sublist (List.eraseIdx_sublist _ _) hnd
  have hold : ∀ k, k < (col.data.eraseIdx i).length →
      ∃ jk, jk < col.data.length ∧
        col.data.getD jk 0 = (col.data.eraseIdx i).getD k 0 := by
    intro k hk
    by_cases hki : k < i
    · exact ⟨k, by omega, (hlow k hki hk).symm⟩
    · exact ⟨k + 1, by rw [hlen2] at hk; omega, (hhigh k (by omega) hk).symm⟩
  have hgood2 : ∀ k, k < (col.data.eraseIdx i).length →
      goodId (col.doc ((col.data.eraseIdx i).getD k 0)) = true := by
    intro k hk
    obtain ⟨jk, hjk, hje⟩ := hold k hk
    rw [← hje]
    exact hgood jk (List.mem_range.mpr hjk)
  have hdist : ∀ k1 k2 s, k1 < (col.data.eraseIdx i).length →
      k2 < (col.data.eraseIdx i).length →
      docIdStr (col.doc ((col.data.eraseIdx i).getD k1 0)) = some s →
      docIdStr (col.doc ((col.data.eraseIdx i).getD k2 0)) = some s → k1 = k2 := by
    intro k1 k2 s hk1 hk2 hs1 hs2
    obtain ⟨j1, hj1, he1⟩ := hold k1 hk1
    obtain ⟨j2, hj2, he2⟩ := hold k2 hk2
    have hjj : j1 = j2 := ids_inj col ⟨hvalid, hnd, hgood, hex⟩ hj1 hj2
      (by rw [he1]; exact hs1) (by rw [he2]; exact hs2)
    have hre : (col.data.eraseIdx i).getD k1 0 = (col.data.eraseIdx i).getD k2 0 := by
      rw [← he1, ← he2, hjj]
    rw [List.getD_eq_getElem _ _ hk1, List.getD_eq_getElem _ _ hk2] at hre
    exact (List.Nodup.getElem_inj_iff hnd2).mp hre
  have hmemenum : ∀ k, k < (col.data.eraseIdx i).length →
      (k, (col.data.eraseIdx i).getD k 0) ∈ (col.data.eraseIdx i).enum := by
    intro k hk
    rw [List.mem_enum_iff_getElem?]
    rw [List.getElem?_eq_getElem hk, List.getD_eq_getElem _ _ hk]
  refine ⟨?_, ?_, ?_, ?_, ?_⟩
  · intro r hr
    exact hvalid r ((List.eraseIdx_sublist _ _).subset hr)
  · exact hnd2
  · intro k hk
    exact hgood2 k (List.mem_range.mp hk)
  · intro k hk s hs
    have hk' : k < (col.data.eraseIdx i).length := List.mem_range.mp hk
    have hs' : s ∈ (docIdStr (col.doc ((col.data.eraseIdx i).getD k 0))).toList := hs
    have hds : docIdStr (col.doc ((col.data.eraseIdx i).getD k 0)) = some s := by
      cases hd : docIdStr (col.doc ((col.data.eraseIdx i).getD k 0)) with
      | none => rw [hd] at hs'; cases hs'
      | some s' =>
        rw [hd] at hs'
        simp only [Option.toList_some, List.mem_singleton] at hs'
        exact congrArg some hs'.symm
    show alGet (renumberFrom col.store (col.data.eraseIdx i)
      (alDel col.idIndex id) i) s = some k
    rw [alGet_renumberFrom]
    by_cases hki : k ≥ i
    · have hfs : ((col.data.eraseIdx i).enum.reverse.findSome? (fun p =>
          if p.1 ≥ i then
            match objGet (col.store.getD p.2 []) "id" with
            | some v => if jsTruthy v then (if jsToString v = s then some p.1 else none)
                else none
            | none => none
          else none)) = some k := by
        apply findSome?_const
        · intro p hp
          rw [List.mem_reverse] at hp
          have hplt : p.1 < (col.data.eraseIdx i).length := List.fst_lt_of_mem_enum hp
          have hpref : (col.data.eraseIdx i).getD p.1 0 = p.2 := by
            have hep := List.mem_enum_iff_getElem?.mp hp
            rw [List.getD_eq_getElem?_getD, hep]
            rfl
          by_cases hge : p.1 ≥ i
          · cases ho : objGet (col.store.getD p.2 []) "id" with
            | none =>
              left
              simp only [if_pos hge]
            | some v =>
              by_cases ht : jsTruthy v = true
              · have hg := hgood2 p.1 hplt
                rw [hpref] at hg
                obtain ⟨s', hv, hne, hdoc⟩ := goodId_str hg ho ht
                subst hv
                by_cases hss : s' = s
                · right
                  have hpk : p.1 = k := hdist p.1 k s hplt hk'
                    (by rw [hpref]
                        rw [show docIdStr (col.doc p.2) = some s' from hdoc, hss])
                    hds
                  simp only [if_pos hge]
                  show (if jsTruthy (Value.str s') = true then
                    (if jsToString (Value.str s') = s then some p.1 else none)
                    else none) = some k
                  rw [if_pos ht, if_pos (show jsToString (Value.str s') = s from hss), hpk]
                · left
                  simp only [if_pos hge]
                  show (if jsTruthy (Value.str s') = true then
                    (if jsToString (Value.str s') = s then some p.1 else none)
                    else none) = none
                  rw [if_pos ht, if_neg (show ¬ jsToString (Value.str s') = s from hss)]
              · left
                simp only [if_pos hge]
                show (if jsTruthy v = true then
                  (if jsToString v = s then some p.1 else none) else none) = none
                rw [if_neg ht]
          · left
            simp only [if_neg hge]
        · refine ⟨(k, (col.data.eraseIdx i).getD k 0), ?_, ?_⟩
          · rw [List.mem_reverse]
            exact hmemenum k hk'
          · have ho : objGet (col.store.getD ((col.data.eraseIdx i).getD k 0) []) "id" =
                some (.str s) := docIdStr_eq_some hds
            have hg := hgood2 k hk'
            have hne : s ≠ "" := by
              unfold goodId at hg
              rw [show objGet (col.doc ((col.data.eraseIdx i).getD k 0)) "id" =
                some (.str s) from ho] at hg
              exact of_decide_eq_true (show decide (s ≠ "") = true from hg)
            simp only [if_pos hki]
            rw [show objGet (col.store.getD ((col.data.eraseIdx i).getD k 0) []) "id" =
              some (.str s) from ho]
            show (if jsTruthy (Value.str s) = true then
              (if jsToString (Value.str s) = s then some k else none) else none) = some k
            rw [if_pos (show jsTruthy (Value.str s) = true from decide_eq_true hne),
              if_pos (show jsToString (Value.str s) = s from rfl)]
      rw [hfs]
      rfl
    · have hsne : s ≠ id := by
        intro hseq
        subst hseq
        have hds0 : docIdStr (col.doc (col.data.getD k 0)) = some s := by
          rw [← hlow k (by omega) hk']
          exact hds
        have : k = i := ids_inj col ⟨hvalid, hnd, hgood, hex⟩
          (by omega) hilt hds0 hidoc
        omega
      have hfs : ((col.data.eraseIdx i).enum.reverse.findSome? (fun p =>
          if p.1 ≥ i then
            match objGet (col.store.getD p.2 []) "id" with
            | some v => if jsTruthy v then (if jsToString v = s then some p.1 else none)
                else none
            | none => none
          else none)) = none := by
        rw [List.findSome?_eq_none_iff]
        intro p hp
        rw [List.mem_reverse] at hp
        have hplt : p.1 < (col.data.eraseIdx i).length := List.fst_lt_of_mem_enum hp
        have hpref : (col.data.eraseIdx i).getD p.1 0 = p.2 := by
          have hep := List.mem_enum_iff_getElem?.mp hp
          rw [List.getD_eq_getElem?_getD, hep]
          rfl
        by_cases hge : p.1 ≥ i
        · cases ho : objGet (col.store.getD p.2 []) "id" with
          | none => simp only [if_pos hge]
          | some v =>
            by_cases ht : jsTruthy v = true
            · have hg := hgood2 p.1 hplt
              rw [hpref] at hg
              obtain ⟨s', hv, hne, hdoc⟩ := goodId_str hg ho ht
              subst hv
              by_cases hss : s' = s
              · exfalso
                have hpk : p.1 = k := hdist p.1 k s hplt hk'
                  (by rw [hpref]
                      rw [show docIdStr (col.doc p.2) = some s' from hdoc, hss])
                  hds
                omega
              · simp only [if_pos hge]
                show (if jsTruthy (Value.str s') = true then
                  (if jsToString (Value.str s') = s then some p.1 else none)
                  else none) = none
                rw [if_pos ht, if_neg (show ¬ jsToString (Value.str s') = s from hss)]
            · simp only [if_pos hge]
              show (if jsTruthy v = true then
                (if jsToString v = s then some p.1 else none) else none) = none
              rw [if_neg ht]
        · simp only [if_neg hge]
      rw [hfs, alGet_alDel_ne _ _ _ hsne]
      show alGet col.idIndex s = some k
      apply hex.1 k (List.mem_range.mpr (show k < col.data.length by omega)) s
      rw [← hlow k (by omega) hk', hds]
      simp
  · intro q' hq' j hj
    have hj' : j ∈ (alGet (renumberFrom col.store (col.data.eraseIdx i)
      (alDel col.idIndex id) i) q'.1).toList := hj
    have halg : alGet (renumberFrom col.store (col.data.eraseIdx i)
        (alDel col.idIndex id) i) q'.1 = some j := by
      cases hv : alGet (renumberFrom col.store (col.data.eraseIdx i)
          (alDel col.idIndex id) i) q'.1 with
      | none => rw [hv] at hj'; cases hj'
      | some j' =>
        rw [hv] at hj'
        simp only [Option.toList_some, List.mem_singleton] at hj'
        exact congrArg some hj'.symm
    rw [alGet_renumberFrom] at halg
    cases hfs : ((col.data.eraseIdx i).enum.reverse.findSome? (fun p =>
        if p.1 ≥ i then
          match objGet (col.store.getD p.2 []) "id" with
          | some v => if jsTruthy v then (if jsToString v = q'.1 then some p.1 else none)
              else none
          | none => none
        else none)) with
    | some j0 =>
      rw [hfs] at halg
      have hj0 : j0 = j := Option.some.inj halg
      subst hj0
      obtain ⟨p, hp, hsel⟩ := List.exists_of_findSome?_eq_some hfs
      rw [List.mem_reverse] at hp
      have hplt : p.1 < (col.data.eraseIdx i).length := List.fst_lt_of_mem_enum hp
      have hpref : (col.data.eraseIdx i).getD p.1 0 = p.2 := by
        have hep := List.mem_enum_iff_getElem?.mp hp
        rw [List.getD_eq_getElem?_getD, hep]
        rfl
      by_cases hge : p.1 ≥ i
      · rw [if_pos hge] at hsel
        cases ho : objGet (col.store.getD p.2 []) "id" with
        | none =>
          rw [ho] at hsel
          exact absurd (show (none : Option Nat) = some j0 from hsel) (by simp)
        | some v =>
          rw [ho] at hsel
          by_cases ht : jsTruthy v = true
          · have hg := hgood2 p.1 hplt
            rw [hpref] at hg
            obtain ⟨s', hv', hne, hdoc⟩ := goodId_str hg ho ht
            subst hv'
            have hsel2 : (if jsTruthy (Value.str s') = true then
                (if jsToString (Value.str s') = q'.1 then some p.1 else none)
                else none) = some j0 := hsel
            rw [if_pos ht] at hsel2
            by_cases hss : jsToString (Value.str s') = q'.1
            · rw [if_pos hss] at hsel2
              have hpj : p.1 = j0 := Option.some.inj hsel2
              subst hpj
              refine ⟨hplt, ?_⟩
              show docIdStr (col.doc ((col.data.eraseIdx i).getD p.1 0)) = some q'.1
              rw [hpref]
              exact (show docIdStr (col.doc p.2) = some s' from hdoc).trans
                (by rw [show s' = q'.1 from hss])
            · rw [if_neg hss] at hsel2
              cases hsel2
          · have hsel2 : (if jsTruthy v = true then
                (if jsToString v = q'.1 then some p.1 else none) else none) = some j0 :=
              hsel
            rw [if_neg ht] at hsel2
            cases hsel2
      · rw [if_neg hge] at hsel
        cases hsel
    | none =>
      rw [hfs] at halg
      have halg0 : alGet (alDel col.idIndex id) q'.1 = some j := halg
      have hqne : q'.1 ≠ id := by
        intro hqe
        rw [hqe, alGet_alDel_self] at halg0
        cases halg0
      rw [alGet_alDel_ne _ _ _ hqne] at halg0
      obtain ⟨q2, hq2m, hq2k⟩ := exists_key_of_alGet_some halg0
      have hse2 := hex.2 q2 hq2m j (by rw [hq2k, halg0]; simp)
      obtain ⟨hjlt, hjdoc⟩ := hse2
      rw [hq2k] at hjdoc
      have hjne : j ≠ i := by
        intro hje
        subst hje
        rw [hjdoc] at hidoc
        exact hqne (Option.some.inj hidoc)
      have hji : j < i := by
        by_contra hji
        have hji2 : j > i := by omega
        have hjm1 : j - 1 < (col.data.eraseIdx i).length := by
          rw [hlen2]; omega
        have hrefj : (col.data.eraseIdx i).getD (j - 1) 0 = col.data.getD j 0 := by
          have := hhigh (j - 1) (by omega) hjm1
          rw [this]
          congr 1
          omega
        have hnone := List.findSome?_eq_none_iff.mp hfs
          ((j - 1), (col.data.eraseIdx i).getD (j - 1) 0)
          (by rw [List.mem_reverse]; exact hmemenum (j - 1) hjm1)
        rw [if_pos (show j - 1 ≥ i by omega)] at hnone
        have hoj : objGet (col.store.getD ((col.data.eraseIdx i).getD (j - 1) 0) [])
            "id" = some (.str q'.1) := by
          rw [hrefj]
          exact docIdStr_eq_some hjdoc
        rw [hoj] at hnone
        have hgj : goodId (col.doc (col.data.getD j 0)) = true :=
          hgood j (List.mem_range.mpr hjlt)
        have hne : q'.1 ≠ "" := by
          unfold goodId at hgj
          rw [show objGet (col.doc (col.data.getD j 0)) "id" = some (.str q'.1) from
            docIdStr_eq_some hjdoc] at hgj
          exact of_decide_eq_true (show decide (q'.1 ≠ "") = true from hgj)
        have hnone2 : (if jsTruthy (Value.str q'.1) = true then
            (if jsToString (Value.str q'.1) = q'.1 then some (j - 1) else none)
            else none) = none := hnone
        rw [if_pos (show jsTruthy (Value.str q'.1) = true from decide_eq_true hne),
          if_pos (show jsToString (Value.str q'.1) = q'.1 from rfl)] at hnone2
        cases hnone2
      refine ⟨by rw [hlen2]; omega, ?_⟩
      show docIdStr (col.doc ((col.data.eraseIdx i).getD j 0)) = some q'.1
      rw [hlow j hji (by rw [hlen2]; omega)]
      exact hjdoc

/-- `deleteById` preserves the invariant. -/
theorem deleteByIdOp_pres (col : Col) (id : String) (h : idxInv col) :
    idxInv (deleteByIdOp col id).1 := by
  simp only [deleteByIdOp]
  split
  · exact h
  · rename_i i heq
    obtain ⟨q, hqm, hqk⟩ := exists_key_of_alGet_some heq
    have hse := h.2.2.2.2 q hqm i (by rw [hqk, heq]; simp)
    obtain ⟨hilt, hidoc⟩ := hse
    rw [show col.data.get? i = some (col.data[i]) from by
      rw [List.get?_eq_getElem?]
      exact List.getElem?_eq_getElem hilt]
    exact idxInv_deleteById col id i _ heq h

theorem pfxSeq_ne_empty (pfx t : String) : pfx ++ "_" ++ t ≠ "" := by
  intro hc
  have hl := congrArg String.length hc
  rw [String.length_append, String.length_append] at hl
  simp at hl
  exact absurd hl.1.2 (by decide)

/-- Every copy of key `k` in `alSet m k v` holds `v`, and one exists. -/
theorem alSet_key_all {κ α : Type} [DecidableEq κ] (m : List (κ × α)) (k : κ) (v : α) :
    (∀ p ∈ alSet m k v, p.1 = k → p.2 = v) ∧ (∃ p ∈ alSet m k v, p.1 = k) := by
  unfold alSet
  by_cases hany : m.any (fun p => p.1 = k) = true
  · rw [if_pos hany]
    constructor
    · intro p hp hpk
      obtain ⟨p0, hp0, hpe⟩ := List.mem_map.mp hp
      by_cases h0 : p0.1 = k
      · rw [if_pos h0] at hpe
        rw [← hpe]
      · rw [if_neg h0] at hpe
        rw [← hpe] at hpk
        exact absurd hpk h0
    · obtain ⟨p0, hp0, hk0⟩ := List.any_eq_true.mp hany
      simp only [decide_eq_true_eq] at hk0
      exact ⟨(k, v), List.mem_map.mpr ⟨p0, hp0, by rw [if_pos hk0]⟩, rfl⟩
  · rw [if_neg hany]
    constructor
    · intro p hp hpk
      rcases List.mem_append.mp hp with hm | hm
      · exact absurd (List.any_eq_true.mpr ⟨p, hm, decide_eq_true hpk⟩) hany
      · rw [List.mem_singleton] at hm
        rw [hm]
    · exact ⟨(k, v), List.mem_append.mpr (Or.inr (by simp)), rfl⟩

/-- `Object.assign` read-back when every source copy of `k` holds `v` and one
exists: the result holds `v`. -/
theorem objGet_objAssign_const (t : Doc) (src : List (String × Value)) (k : String)
    (v : Value)
    (hall : ∀ p ∈ src, p.1 = k → p.2 = v) (hex2 : ∃ p ∈ src, p.1 = k) :
    objGet (objAssign t src) k = some v := by
  have hchar := alGet_selective_fold k
    (fun m (p : String × Value) => alSet m p.1 p.2) (fun p => some p)
    (fun p => if p.1 = k then some p.2 else none)
    (fun m b => rfl) (fun b => rfl) src t
  have hfs : src.reverse.findSome? (fun p => if p.1 = k then some p.2 else none) =
      some v := by
    apply findSome?_const
    · intro p hp
      rw [List.mem_reverse] at hp
      by_cases hpk : p.1 = k
      · right
        rw [if_pos hpk, hall p hp hpk]
      · left
        rw [if_neg hpk]
    · obtain ⟨p, hp, hpk⟩ := hex2
      exact ⟨p, by rw [List.mem_reverse]; exact hp, by rw [if_pos hpk, hall p hp hpk]⟩
  unfold objGet objAssign objSet
  rw [hchar, hfs]
  rfl

/-- In-place store rewrite that keeps the touched document's `id` preserves
the invariant. -/
theorem idxInv_upsert (col : Col) (ref : Nat) (merged : Doc)
    (hmid : objGet merged "id" = objGet (col.store.getD ref []) "id")
    (h : idxInv col) :
    idxInv { col with store := col.store.set ref merged } := by
  refine idxInv_of_id_eq col _ rfl rfl (List.length_set _ _ _) ?_ h
  intro r
  by_cases hlt : ref < col.store.length
  · by_cases hr : ref = r
    · subst hr
      rw [getD_set_self _ _ _ _ hlt]
      exact hmid
    · rw [getD_set_ne _ _ _ _ _ hr]
  · rw [List.set_eq_of_length_le (by omega)]

/-- The upsert branch of one insert-loop iteration preserves the
invariant. -/
theorem idxInv_upsertDoc (col : Col) (d : Doc) (docId now : String) (i : Nat)
    (hidx : alGet col.idIndex docId = some i) (h : idxInv col) :
    idxInv { col with store := (col.store.set (col.data.getD i 0)
      (objSet (match objGet (col.store.getD (col.data.getD i 0) []) "createdAt" with
        | some c => objSet (objAssign (col.store.getD (col.data.getD i 0) [])
            (objSet d "id" (.str docId))) "createdAt" c
        | none => objDel (objAssign (col.store.getD (col.data.getD i 0) [])
            (objSet d "id" (.str docId))) "createdAt")
      "updatedAt" (.str now))) } := by
  obtain ⟨q, hqm, hqk⟩ := exists_key_of_alGet_some hidx
  have hse := h.2.2.2.2 q hqm i (by rw [hqk, hidx]; simp)
  obtain ⟨hilt, hdoci⟩ := hse
  rw [hqk] at hdoci
  have hexid : objGet (col.store.getD (col.data.getD i 0) []) "id" =
      some (.str docId) := docIdStr_eq_some hdoci
  have hpair := alSet_key_all d "id" (Value.str docId)
  have hassign : objGet (objAssign (col.store.getD (col.data.getD i 0) [])
      (objSet d "id" (.str docId))) "id" = some (.str docId) :=
    objGet_objAssign_const _ _ "id" (.str docId) hpair.1 hpair.2
  apply idxInv_upsert col (col.data.getD i 0) _ ?_ h
  refine (alGet_alSet_ne _ "updatedAt" "id" _ (by decide)).trans ?_
  cases hca : objGet (col.store.getD (col.data.getD i 0) []) "createdAt" with
  | some c =>
    exact (alGet_alSet_ne _ "createdAt" "id" _ (by decide)).trans
      (hassign.trans hexid.symm)
  | none =>
    exact (alGet_alDel_ne _ "createdAt" "id" (by decide)).trans
      (hassign.trans hexid.symm)

/-- Appending a fresh document under an unused nonempty id preserves the
invariant. -/
theorem idxInv_freshInsert (col : Col) (docId : String) (doc3 : Doc)
    (ixs : List (String × SecIndex))
    (hfresh : alGet col.idIndex docId = none)
    (hid3 : objGet doc3 "id" = some (.str docId))
    (hne : docId ≠ "")
    (h : idxInv col) :
    idxInv { col with
             store := col.store ++ [doc3],
             data := col.data ++ [col.store.length],
             idIndex := alSet col.idIndex docId col.data.length,
             indexes := ixs } := by
  obtain ⟨hvalid, hnd, hgood, hex⟩ := h
  have hdlen : (col.data ++ [col.store.length]).length = col.data.length + 1 := by simp
  have hdatau : ∀ j, j < col.data.length →
      (col.data ++ [col.store.length]).getD j 0 = col.data.getD j 0 := by
    intro j hj
    rw [List.getD_append _ _ _ _ hj]
  have hdatan : (col.data ++ [col.store.length]).getD col.data.length 0 =
      col.store.length := getD_append_right col.data [col.store.length] 0 0
  have hstoreu : ∀ r, r < col.store.length →
      (col.store ++ [doc3]).getD r [] = col.store.getD r [] := by
    intro r hr
    rw [List.getD_append _ _ _ _ hr]
  have hstoren : (col.store ++ [doc3]).getD col.store.length [] = doc3 :=
    getD_append_right col.store [doc3] 0 []
  have hdoc : ∀ j, j < col.data.length →
      (col.store ++ [doc3]).getD ((col.data ++ [col.store.length]).getD j 0) [] =
      col.store.getD (col.data.getD j 0) [] := by
    intro j hj
    rw [hdatau j hj]
    have hmem : col.data.getD j 0 ∈ col.data := by
      rw [List.getD_eq_getElem _ _ hj]
      exact List.getElem_mem hj
    exact hstoreu _ (hvalid _ hmem)
  have hdocn : (col.store ++ [doc3]).getD
      ((col.data ++ [col.store.length]).getD col.data.length 0) [] = doc3 := by
    rw [hdatan]
    exact hstoren
  have hdd3 : docIdStr doc3 = some docId := by
    unfold docIdStr
    rw [hid3]
  refine ⟨?_, ?_, ?_, ?_, ?_⟩
  · intro r hr
    rw [List.length_append, List.length_cons, List.length_nil]
    rcases List.mem_append.mp hr with hm | hm
    · have := hvalid r hm
      omega
    · rw [List.mem_singleton] at hm
      omega
  · rw [List.nodup_append]
    refine ⟨hnd, List.nodup_singleton _, ?_⟩
    intro a ha hb
    rw [List.mem_singleton] at hb
    subst hb
    exact absurd (hvalid _ ha) (by omega)
  · intro j hjr
    have hjlt : j < col.data.length + 1 := by
      have := List.mem_range.mp hjr
      rwa [hdlen] at this
    by_cases hj : j < col.data.length
    · show goodId ((col.store ++ [doc3]).getD
        ((col.data ++ [col.store.length]).getD j 0) []) = true
      rw [hdoc j hj]
      exact hgood j (List.mem_range.mpr hj)
    · have hjn : j = col.data.length := by omega
      subst hjn
      show goodId ((col.store ++ [doc3]).getD
        ((col.data ++ [col.store.length]).getD col.data.length 0) []) = true
      rw [hdocn]
      unfold goodId
      rw [hid3]
      exact decide_eq_true hne
  · intro j hjr s hs
    have hjlt : j < col.data.length + 1 := by
      have := List.mem_range.mp hjr
      rwa [hdlen] at this
    by_cases hj : j < col.data.length
    · have hs0 : s ∈ (docIdStr ((col.store ++ [doc3]).getD
          ((col.data ++ [col.store.length]).getD j 0) [])).toList := hs
      rw [hdoc j hj] at hs0
      have hds : docIdStr (col.store.getD (col.data.getD j 0) []) = some s := by
        cases hd : docIdStr (col.store.getD (col.data.getD j 0) []) with
        | none => rw [hd] at hs0; cases hs0
        | some s' =>
          rw [hd] at hs0
          simp only [Option.toList_some, List.mem_singleton] at hs0
          exact congrArg some hs0.symm
      have hidxs : alGet col.idIndex s = some j :=
        hex.1 j (List.mem_range.mpr hj) s (by rw [show docIdStr
          (col.doc (col.data.getD j 0)) = some s from hds]; simp)
      have hsne : s ≠ docId := by
        intro heq
        rw [heq] at hidxs
        rw [hidxs] at hfresh
        cases hfresh
      show alGet (alSet col.idIndex docId col.data.length) s = some j
      rw [alGet_alSet_ne _ _ _ _ hsne]
      exact hidxs
    · have hjn : j = col.data.length := by omega
      subst hjn
      have hs0 : s ∈ (docIdStr ((col.store ++ [doc3]).getD
          ((col.data ++ [col.store.length]).getD col.data.length 0) [])).toList := hs
      rw [hdocn, hdd3] at hs0
      simp only [Option.toList_some, List.mem_singleton] at hs0
      subst hs0
      show alGet (alSet col.idIndex s col.data.length) s = some col.data.length
      exact alGet_alSet_self _ _ _
  · intro q hq j hj
    have hj0 : j ∈ (alGet (alSet col.idIndex docId col.data.length) q.1).toList := hj
    by_cases hqd : q.1 = docId
    · rw [hqd, alGet_alSet_self] at hj0
      simp only [Option.toList_some, List.mem_singleton] at hj0
      subst hj0
      refine ⟨by rw [hdlen]; omega, ?_⟩
      show docIdStr ((col.store ++ [doc3]).getD
        ((col.data ++ [col.store.length]).getD col.data.length 0) []) = some q.1
      rw [hdocn, hdd3, hqd]
    · rw [alGet_alSet_ne _ _ _ _ hqd] at hj0
      have halg : alGet col.idIndex q.1 = some j := by
        cases hv : alGet col.idIndex q.1 with
        | none => rw [hv] at hj0; cases hj0
        | some j' =>
          rw [hv] at hj0
          simp only [Option.toList_some, List.mem_singleton] at hj0
          exact congrArg some hj0.symm
      obtain ⟨q2, hm2, hk2⟩ := exists_key_of_alGet_some halg
      have hse := hex.2 q2 hm2 j (by rw [hk2, halg]; simp)
      obtain ⟨hjlt, hjdoc⟩ := hse
      rw [hk2] at hjdoc
      refine ⟨by rw [hdlen]; omega, ?_⟩
      show docIdStr ((col.store ++ [doc3]).getD
        ((col.data ++ [col.store.length]).getD j 0) []) = some q.1
      rw [hdoc j hjlt]
      exact hjdoc

/-- One insert-loop iteration preserves the invariant. -/
theorem insertStep_pres (useSeq : Bool) (pfx genId now : String) (st : InsState)
    (d : Doc) (hok : insDocOk d = true) (hgen : genId ≠ "")
    (h : idxInv st.col) : idxInv (insertStep useSeq pfx genId now st d).col := by
  unfold insertStep
  cases hsup : objGet d "id" with
  | some v =>
    by_cases ht : jsTruthy v = true
    · have hne : jsToString v ≠ "" := by
        unfold insDocOk at hok
        rw [hsup] at hok
        have hok2 : (!(jsTruthy v) || decide (jsToString v ≠ "")) = true := hok
        rw [ht] at hok2
        simp at hok2
        exact hok2
      simp only [hsup, if_pos ht]
      cases hidx : alGet st.col.idIndex (jsToString v) with
      | some i => exact idxInv_upsertDoc st.col d (jsToString v) now i hidx h
      | none =>
        exact idxInv_freshInsert st.col (jsToString v) _ _ hidx
          ((alGet_alSet_ne _ "createdAt" "id" _ (by decide)).trans
            (alGet_alSet_self _ _ _)) hne h
    · simp only [hsup, if_neg ht]
      by_cases hu : useSeq = true
      · simp only [if_pos hu]
        cases hidx : alGet st.col.idIndex (pfx ++ "_" ++ toString (st.seq + 1)) with
        | some i => exact idxInv_upsertDoc st.col d _ now i hidx h
        | none =>
          exact idxInv_freshInsert st.col _ _ _ hidx
            ((alGet_alSet_ne _ "createdAt" "id" _ (by decide)).trans
              (alGet_alSet_self _ _ _)) (pfxSeq_ne_empty pfx _) h
      · simp only [if_neg hu]
        cases hidx : alGet st.col.idIndex genId with
        | some i => exact idxInv_upsertDoc st.col d genId now i hidx h
        | none =>
          exact idxInv_freshInsert st.col genId _ _ hidx
            ((alGet_alSet_ne _ "createdAt" "id" _ (by decide)).trans
              (alGet_alSet_self _ _ _)) hgen h
  | none =>
    simp only [hsup]
    by_cases hu : useSeq = true
    · simp only [if_pos hu]
      cases hidx : alGet st.col.idIndex (pfx ++ "_" ++ toString (st.seq + 1)) with
      | some i => exact idxInv_upsertDoc st.col d _ now i hidx h
      | none =>
        exact idxInv_freshInsert st.col _ _ _ hidx
          ((alGet_alSet_ne _ "createdAt" "id" _ (by decide)).trans
            (alGet_alSet_self _ _ _)) (pfxSeq_ne_empty pfx _) h
    · simp only [if_neg hu]
      cases hidx : alGet st.col.idIndex genId with
      | some i => exact idxInv_upsertDoc st.col d genId now i hidx h
      | none =>
        exact idxInv_freshInsert st.col genId _ _ hidx
          ((alGet_alSet_ne _ "createdAt" "id" _ (by decide)).trans
            (alGet_alSet_self _ _ _)) hgen h

/-- `insert` preserves the invariant. -/
theorem insertOp_pres (docs : List Doc) (now pfx genId : String) (col : Col)
    (hok : okOp (.ins docs now pfx genId) = true)
    (h : idxInv col) : idxInv (insertOp docs now pfx genId col).1 := by
  have hok2 : (docs.all insDocOk && decide (genId ≠ "")) = true := hok
  rw [Bool.and_eq_true] at hok2
  have hgen : genId ≠ "" := of_decide_eq_true hok2.2
  have hfold : ∀ (L : List Doc) (st : InsState), L.all insDocOk = true →
      idxInv st.col →
      idxInv (L.foldl (insertStep (decide (docs.length ≥ 2)) pfx genId now) st).col := by
    intro L
    induction L with
    | nil => exact fun st _ hst => hst
    | cons dd rest ih =>
      intro st hall hst
      rw [List.foldl_cons]
      rw [List.all_cons, Bool.and_eq_true] at hall
      exact ih _ hall.2 (insertStep_pres _ pfx genId now st dd hall.1 hgen hst)
  have hres := hfold docs
    { col := col, seq := 0, allGen := true, inserted := [], updatedRefs := [] }
    hok2.1 h
  simp only [insertOp]
  split
  · exact hres
  · exact hres

/-- Every id-disciplined operation preserves the invariant. -/
theorem step_pres (re : String → String → String → Bool) (col : Col) (op : Op)
    (hok : okOp op = true) (h : idxInv col) : idxInv (step re col op) := by
  cases op with
  | ins docs now pfx genId => exact insertOp_pres docs now pfx genId col hok h
  | upd f u rt mr now => exact updateOp_pres re col f u rt mr now hok h
  | updById id u rt now => exact updateByIdOp_pres re col id u rt now hok h
  | del f => exact deleteOp_pres re col f h
  | delById id => exact deleteByIdOp_pres col id h
  | mkIndex d =>
    obtain ⟨ixs, hix⟩ := createIndexOp_state col d
    show idxInv (createIndexOp col d).1
    rw [hix]
    exact idxInv_indexes col ixs h
  | findQ f =>
    obtain ⟨c2, hc⟩ := findOp_state re col f
    show idxInv (findOp re col f).1
    rw [hc]
    exact idxInv_cache col c2 h
  | countQ f =>
    obtain ⟨c2, hc⟩ := countOp_state re col f
    show idxInv (countOp re col f).1
    rw [hc]
    exact idxInv_cache col c2 h

/-- The invariant is preserved along any id-disciplined operation
sequence. -/
theorem run_pres (re : String → String → String → Bool) (ops : List Op) :
    ∀ col : Col, ops.all okOp = true → idxInv col → idxInv (run re col ops) := by
  induction ops with
  | nil => exact fun col _ h => h
  | cons op rest ih =>
    intro col hall h
    rw [List.all_cons, Bool.and_eq_true] at hall
    exact ih (step re col op) hall.2 (step_pres re col op hall.1 h)

/-- The empty collection satisfies the invariant. -/
theorem idxInv_empty : idxInv Col.empty := by
  refine ⟨?_, ?_, ?_, ?_, ?_⟩
  · intro r hr
    cases hr
  · exact List.nodup_nil
  · intro i hi
    cases hi
  · intro i hi
    cases hi
  · intro q hq
    cases hq

/-- **C4 (amended).**  Restricted to id-disciplined operation sequences
(`okOp`: inserted documents with a truthy supplied id stringify it nonempty
and the generated fallback id is nonempty; the specs of `update` — after
its `\x7b$set: spec\x7d` wrapping of plain documents — and of `updateById`
never write the `id` field, neither as a plain key `"id"` nor as a dotted
key whose first segment is `"id"`; deletes, index creation and reads are
unrestricted): starting from an empty collection, after each operation the
`idIndex` map is exact — every document at position `i` in `data` with a
defined id is indexed at `i`, and every `idIndex` entry resolves to a valid
position whose document carries that id (no stale ids, no stale
positions).  Without the update restriction the claim is false: an update
spec that rewrites `id` leaves a stale entry (`C4_counterexample`). -/
theorem C4_idIndex_exact (re : String → String → String → Bool) (ops : List Op)
    (hops : ops.all okOp = true) : idxExact (run re Col.empty ops) :=
  (run_pres re ops Col.empty hops idxInv_empty).2.2.2

/-- `C4_idIndex_exact` at a concrete id-disciplined sequence exercising
insert, a `$set` update-by-id and a delete-by-id. -/
theorem C4_idIndex_exact_witness :
    ([Op.ins [docFa, docFb] "T1" "p" "g",
      Op.updById "a" (.obj [("$set", .obj [("f", .num 7)])]) "count" "T2",
      Op.delById "b"] : List Op).all okOp = true ∧
    idxExact (run noRegex Col.empty
      [Op.ins [docFa, docFb] "T1" "p" "g",
       Op.updById "a" (.obj [("$set", .obj [("f", .num 7)])]) "count" "T2",
       Op.delById "b"]) :=
  ⟨by decide, C4_idIndex_exact noRegex
    [Op.ins [docFa, docFb] "T1" "p" "g",
     Op.updById "a" (.obj [("$set", .obj [("f", .num 7)])]) "count" "T2",
     Op.delById "b"] (by decide)⟩

end LiekoDB
